import Mathlib

/-!
File compression and decompression with a prefix-code table

A verification development for the C sources `bitbuffer.c`, `codes.c`,
`deflate.c` and `inflate.c`.

Conventions of the embedding:

* A C string is the list of its characters before the terminating NUL.
* The object `static char codes[CODE_ROWS][CODE_MAX + 1]` is the list of its
  `CODE_ROWS * (CODE_MAX + 1)` cells, row after row, as C lays it out: the
  cell `codes[row][col]` is cell `row * (CODE_MAX + 1) + col` of the object.
* `int` variables hold natural numbers. An `int` operation whose result would
  exceed `INT_MAX`, and a load or store outside the allocated object, have no
  defined result in C: the functions return `none` (or end in `undefined` /
  `outOfBounds`) there. A theorem about a run states the inputs on which the
  run is defined and what every defined run does.
* `unsigned int` arithmetic is taken modulo `2 ^ 32`.
* Files are lists: of `Char` for the codes text, of `Nat` (one number per
  byte) for binary files, of `Fin 256` for the bytes handed to `deflate`.
-/

namespace Codec

/-! ## Constants of `bitbuffer.h` and `codes.h` -/

/-- The number needed to shift between the low order bit and the high order bit in a byte. -/
def SHIFT : Nat := 7

/-- The starting size of the resizeable array used in `BitBuffer`. -/
def START_SIZE : Nat := 4

/-- Number of bits in a byte. -/
def BYTE_SIZE : Nat := 8

/-- Size of the size field that occupies the first section of bits in a bit buffer. -/
def SIZE_FIELD : Nat := 32

/-- The total number of codes that must be loaded. -/
def CODE_ROWS : Nat := 256

/-- Maximum number of bits in a code. -/
def CODE_MAX : Nat := 24

/-- Return value of `lookupCode` for a string that is the prefix of a code. -/
def CODE_PREFIX : Int := -1

/-- Return value of `lookupCode` for a string that matches no code and is the prefix of none. -/
def CODE_INVALID : Int := -2

/-- Largest value of a 32-bit `int`. -/
def INT_MAX : Nat := 2 ^ 31 - 1

/-- Number of values of a 32-bit `unsigned int`. -/
def UINT_MOD : Nat := 2 ^ 32

/-! ## `bitbuffer.c` -/

/-- The struct `BitBuffer`: the byte array `data`, the number of bits stored and the capacity of
`data` in bytes. -/
structure BitBuffer where
  data : List Nat
  bitCount : Nat
  cap : Nat
deriving DecidableEq

/-- The function `makeBitBuffer`: `calloc (START_SIZE)` zero bytes, no bit stored. -/
def makeBitBuffer : BitBuffer :=
  { data := List.replicate START_SIZE 0, bitCount := 0, cap := START_SIZE }

/-- The function `getBitCount`. -/
def getBitCount (buffer : BitBuffer) : Nat := buffer.bitCount

/-- The function `getBit`: `(data[d_idx] & (1 << (SHIFT - b_idx))) >> (SHIFT - b_idx)` converted to
`bool`; `none` when `d_idx` lies outside the array. -/
def getBit (buffer : BitBuffer) (idx : Nat) : Option Bool :=
  let d_idx := idx / BYTE_SIZE
  let b_idx := idx % BYTE_SIZE
  match buffer.data[d_idx]? with
  | none => none
  | some x => some (((x &&& (1 <<< (SHIFT - b_idx))) >>> (SHIFT - b_idx)) != 0)

/-- The byte that `setBit` stores: `(x & ~(1 << k)) | (value << k)`, where `~` is taken on a 32-bit
`int` and the store into an `unsigned char` keeps the low eight bits. -/
def setBitByte (x k : Nat) (value : Bool) : Nat :=
  ((x &&& (0xFFFFFFFF ^^^ (1 <<< k))) ||| (value.toNat <<< k)) % 256

/-- The function `setBit`; `none` when `d_idx` lies outside the array. -/
def setBit (buffer : BitBuffer) (idx : Nat) (value : Bool) : Option BitBuffer :=
  let d_idx := idx / BYTE_SIZE
  let b_idx := idx % BYTE_SIZE
  match buffer.data[d_idx]? with
  | none => none
  | some x => some { buffer with data := buffer.data.set d_idx (setBitByte x (SHIFT - b_idx) value) }

/-- The growth branch of `appendBit`: `cap++`, a fresh zero array of `cap` bytes, `memcpy` of the
first `cap - 1` bytes of the old array into it. -/
def growBuffer (buffer : BitBuffer) : BitBuffer :=
  let cap := buffer.cap + 1
  let temp := List.replicate cap 0
  { buffer with cap := cap, data := buffer.data.take (cap - 1) ++ temp.drop (cap - 1) }

/-- The function `appendBit`. `none` when `cap * BYTE_SIZE`, `cap++` or `bitCount++` leaves the
range of `int`, or when `setBit` stores outside the array. -/
def appendBit (buffer : BitBuffer) (value : Bool) : Option BitBuffer :=
  if INT_MAX < buffer.cap * BYTE_SIZE then none
  else
    let grown : Option BitBuffer :=
      if buffer.bitCount ≥ buffer.cap * BYTE_SIZE then
        (if INT_MAX < buffer.cap + 1 then none else some (growBuffer buffer))
      else some buffer
    match grown with
    | none => none
    | some b1 =>
      match setBit b1 b1.bitCount value with
      | none => none
      | some b2 =>
        if INT_MAX < b2.bitCount + 1 then none
        else some { b2 with bitCount := b2.bitCount + 1 }

/-- The calls `appendBit (v₀)`, …, `appendBit (vₙ₋₁)` in sequence. -/
def appendBits (buffer : BitBuffer) : List Bool → Option BitBuffer
  | [] => some buffer
  | v :: vs =>
    match appendBit buffer v with
    | none => none
    | some b => appendBits b vs

/-- The bit of the byte list `data` at bit index `idx`, most significant bit of each byte first;
bytes outside the list read as zero. -/
def bitAt (data : List Nat) (idx : Nat) : Bool :=
  (data.getD (idx / 8) 0).testBit (7 - idx % 8)

/-- The array is as long as `cap` says. -/
def BitBuffer.WF (b : BitBuffer) : Prop := b.data.length = b.cap

instance (b : BitBuffer) : Decidable b.WF := by
  unfold BitBuffer.WF
  infer_instance

/-- The invariant of the buffers built by `makeBitBuffer` and `appendBit`: the array is as long as
`cap` says, the bits fit, and `cap` is the start size or the least size that holds the bits. -/
def BitBuffer.Inv (b : BitBuffer) : Prop :=
  b.WF ∧ b.bitCount ≤ b.cap * 8 ∧ (b.cap = START_SIZE ∨ b.cap * 8 < b.bitCount + 8)

/-! ## `codes.c` -/

/-- The terminator of a C string. -/
def NUL : Char := Char.ofNat 0

/-- Number of cells of the object `static char codes[CODE_ROWS][CODE_MAX + 1]`. -/
def CODES_SIZE : Nat := CODE_ROWS * (CODE_MAX + 1)

/-- The cells of `codes` before `loadCodes` runs: static storage starts out zero. -/
def initCodes : List Char := List.replicate CODES_SIZE NUL

/-- Position of the cell `codes[row][col]` within the object: the rows lie one after the other, so
`codes[row][CODE_MAX + 1]` is the cell `codes[row + 1][0]`. -/
def cellIndex (row col : Nat) : Nat := row * (CODE_MAX + 1) + col

/-- The store `codes[row][col] = c`; `none` when the cell lies past the end of the object. -/
def storeCode (codes : List Char) (row col : Nat) (c : Char) : Option (List Char) :=
  if cellIndex row col < codes.length then some (codes.set (cellIndex row col) c) else none

/-- The C string that starts at the head of `cells`: the characters before the first NUL. -/
def cstr (cells : List Char) : List Char := cells.takeWhile (fun c => c != NUL)

/-- The function `strlen`, on a C string. -/
def strlen (s : List Char) : Nat := s.length

/-- The test `strcmp (a, b) == 0`. -/
def strcmpEq (a b : List Char) : Bool := a == b

/-- The test `strncmp (a, b, n) == 0`: the two strings agree on their first `n` characters, a
string that ends before that agreeing only with one that ends at the same place. -/
def strncmpEq (a b : List Char) (n : Nat) : Bool := a.take n == b.take n

/-- The function `getCode`: the C string that starts at `codes[byte]`, read up to the first NUL
at or after that cell. -/
def getCode (codes : List Char) (byte : Nat) : List Char := cstr (codes.drop (cellIndex byte 0))

/-- The loop of `checkPrefix`, with `n` iterations left and loop variable `i`. -/
def checkPrefixLoop (codes : List Char) (row : Nat) : Nat → Nat → Bool
  | 0, _ => true
  | n + 1, i =>
    let len :=
      if strlen (getCode codes row) < strlen (getCode codes i) then strlen (getCode codes row)
      else strlen (getCode codes i)
    if strncmpEq (getCode codes row) (getCode codes i) len then false
    else checkPrefixLoop codes row n (i + 1)

/-- The function `checkPrefix`: `for (i = 0; i < row; i++)`. -/
def checkPrefix (codes : List Char) (row : Nat) : Bool := checkPrefixLoop codes row row 0

/-- How a run of `loadCodes` ends: normally, in `codesError` (message and `exit (EXIT_FAILURE)`), or
in a store outside the object `codes`. -/
inductive LoadResult (α : Type) where
  | ok (a : α)
  | codesError
  | outOfBounds
deriving DecidableEq

/-- The variables of the loop of `loadCodes`. -/
structure LoadState where
  codes : List Char
  row : Nat
  col : Nat
deriving DecidableEq

/-- One iteration of the `while` loop of `loadCodes`, on the character `bit` read by `fgetc`. -/
def loadStep (s : LoadState) (bit : Char) : LoadResult LoadState :=
  if (bit ≠ '0' ∧ bit ≠ '1' ∧ bit ≠ '\n') ∨ s.row = CODE_ROWS then LoadResult.codesError
  else if bit = '\n' then
    match storeCode s.codes s.row s.col NUL with
    | none => LoadResult.outOfBounds
    | some codes =>
      if !checkPrefix codes s.row then LoadResult.codesError
      else LoadResult.ok { codes := codes, row := s.row + 1, col := 0 }
  else
    if s.col ≤ CODE_MAX then
      match storeCode s.codes s.row s.col bit with
      | none => LoadResult.outOfBounds
      | some codes => LoadResult.ok { codes := codes, row := s.row, col := s.col + 1 }
    else LoadResult.codesError

/-- The `while` loop of `loadCodes` over the characters of the file. -/
def loadLoop : LoadState → List Char → LoadResult LoadState
  | s, [] => LoadResult.ok s
  | s, bit :: rest =>
    match loadStep s bit with
    | LoadResult.ok s' => loadLoop s' rest
    | LoadResult.codesError => LoadResult.codesError
    | LoadResult.outOfBounds => LoadResult.outOfBounds

/-- The function `loadCodes` on the text of the codes file; on success the result is the content of
`codes`. -/
def loadCodes (text : List Char) : LoadResult (List Char) :=
  match loadLoop { codes := initCodes, row := 0, col := 0 } text with
  | LoadResult.ok s => if s.row ≠ CODE_ROWS then LoadResult.codesError else LoadResult.ok s.codes
  | LoadResult.codesError => LoadResult.codesError
  | LoadResult.outOfBounds => LoadResult.outOfBounds

/-- The loop of `lookupCode`, with `n` iterations left and loop variable `i`. -/
def lookupLoop (codes : List Char) (bits : List Char) : Nat → Nat → Int
  | 0, _ => CODE_INVALID
  | n + 1, i =>
    if strcmpEq bits (getCode codes i) then (i : Int)
    else if strncmpEq bits (getCode codes i) (strlen bits) then CODE_PREFIX
    else lookupLoop codes bits n (i + 1)

/-- The function `lookupCode`: `for (i = 0; i < CODE_ROWS; i++)`. -/
def lookupCode (codes : List Char) (bits : List Char) : Int := lookupLoop codes bits CODE_ROWS 0

/-! ### Vocabulary of the claims about the code table -/

/-- The text of a codes file that holds the given lines, each followed by a newline. -/
def unlines : List (List Char) → List Char
  | [] => []
  | l :: ls => l ++ '\n' :: unlines ls

/-- The lines of a text, with the characters of the unfinished line so far in `cur`: every
newline ends a line; characters after the last newline form a last line. -/
def splitLines : List Char → List Char → List (List Char)
  | [], cur => if cur = [] then [] else [cur]
  | c :: rest, cur => if c = '\n' then cur :: splitLines rest [] else splitLines rest (cur ++ [c])

/-- The lines of a text. -/
def textLines (text : List Char) : List (List Char) := splitLines text []

/-- A character of a code: `'0'` or `'1'`. -/
def isBinary (c : Char) : Prop := c = '0' ∨ c = '1'

instance (c : Char) : Decidable (isBinary c) := by
  unfold isBinary
  infer_instance

/-- A valid code table: every one of the `CODE_ROWS` codes has between one and `CODE_MAX`
characters, all of them `'0'` or `'1'`, and no code is a prefix of another. -/
def ValidTable (codes : List Char) : Prop :=
  (∀ i, i < CODE_ROWS →
    1 ≤ (getCode codes i).length ∧ (getCode codes i).length ≤ CODE_MAX ∧
      ∀ c ∈ getCode codes i, isBinary c) ∧
  ∀ i j, i < CODE_ROWS → j < CODE_ROWS → i ≠ j → ¬ (getCode codes i <+: getCode codes j)

/-- The cells of `codes` that hold the given rows: each row followed by NUL up to `CODE_MAX + 1`
cells. -/
def tableOf : List (List Char) → List Char
  | [] => []
  | l :: ls => l ++ List.replicate (CODE_MAX + 1 - l.length) NUL ++ tableOf ls

/-- The `n`-character binary numeral of `k`, most significant digit first. -/
def binaryCode : Nat → Nat → List Char
  | 0, _ => []
  | n + 1, k => (if k.testBit n then '1' else '0') :: binaryCode n k

/-- One of the two strings is a prefix of the other. -/
def Comparable (a b : List Char) : Prop := a <+: b ∨ b <+: a

instance (a b : List Char) : Decidable (Comparable a b) := by
  unfold Comparable
  infer_instance

/-- The cells of `codes` while `loadCodes` runs, after the lines `ls` and the characters `cur` of
the line being read: the finished rows, the characters of the current row, then cells that are
still zero. -/
def memOf (ls : List (List Char)) (cur : List Char) : List Char :=
  tableOf ls ++ cur ++
    List.replicate (CODES_SIZE - ((CODE_MAX + 1) * ls.length + cur.length)) NUL

/-- The variables of the loop of `loadCodes` after the lines `ls` and the characters `cur`. -/
def stateOf (ls : List (List Char)) (cur : List Char) : LoadState :=
  { codes := memOf ls cur, row := ls.length, col := cur.length }

/-- The C string that starts at the first of the given rows: a row of `CODE_MAX + 1` characters
has no terminator of its own and runs on into the next row. -/
def codeFrom : List (List Char) → List Char
  | [] => []
  | l :: rs => if l.length < CODE_MAX + 1 then l else l ++ codeFrom rs

/-- The lines that `loadCodes` accepts one after the other: at most `CODE_MAX + 1` binary digits
each, no line a prefix of another, and the terminator of each line inside the object `codes`. -/
def LinesOK (ls : List (List Char)) : Prop :=
  (∀ l ∈ ls, l.length ≤ CODE_MAX + 1 ∧ ∀ c ∈ l, isBinary c) ∧
  ls.Pairwise (fun a b => ¬ Comparable a b) ∧
  (ls.getD (CODE_ROWS - 1) []).length ≤ CODE_MAX

instance (ls : List (List Char)) : Decidable (LinesOK ls) := by
  unfold LinesOK
  infer_instance

/-- The invariant of the loop of `loadCodes`: the finished lines are acceptable and at most
`CODE_ROWS`, the current line holds at most `CODE_MAX + 1` binary digits, and nothing has been read
after the last row. -/
def LoadInv (ls : List (List Char)) (cur : List Char) : Prop :=
  LinesOK ls ∧ ls.length ≤ CODE_ROWS ∧ (∀ c ∈ cur, isBinary c) ∧ cur.length ≤ CODE_MAX + 1 ∧
    (ls.length = CODE_ROWS → cur = [])

/-! ## `bitbuffer.c`: files -/

/-- The bits that `loadBitBuffer` appends for the byte `current`: for `i = 1, …, BYTE_SIZE`, with
`shift = BYTE_SIZE - i`, the bit `(current & (1 << shift)) >> shift`. -/
def byteBits (current : Nat) : List Bool :=
  (List.range' 1 BYTE_SIZE).map fun i =>
    let shift := BYTE_SIZE - i
    ((current &&& (1 <<< shift)) >>> shift) != 0

/-- The `while` loop of `loadBitBuffer` over the bytes of the file. -/
def loadBitsLoop : BitBuffer → List Nat → Option BitBuffer
  | n, [] => some n
  | n, current :: rest =>
    match appendBits n (byteBits current) with
    | none => none
    | some n' => loadBitsLoop n' rest

/-- The function `loadBitBuffer`, on the bytes of the file. -/
def loadBitBuffer (file : List Nat) : Option BitBuffer := loadBitsLoop makeBitBuffer file

/-- The function `saveBitBuffer`: the bytes written to the file, the first `data_size` bytes of an
array that holds at least as many. -/
def saveBitBuffer (buffer : BitBuffer) : List Nat :=
  let data_size :=
    if buffer.bitCount % BYTE_SIZE = 0 then buffer.bitCount / BYTE_SIZE
    else buffer.bitCount / BYTE_SIZE + 1
  buffer.data.take data_size

/-! ## `deflate.c` -/

/-- The bit that `deflate` appends for the character `c` of a code: `c == '0' ? 0 : 1`. -/
def codeBit (c : Char) : Bool := if c = '0' then false else true

/-- The `while` loop of `deflate` over the bytes of the input file: `count++` on an
`unsigned int`, then one `appendBit` for every character of the code of the byte. -/
def encodeLoop (codes : List Char) : BitBuffer → Nat → List (Fin 256) → Option (BitBuffer × Nat)
  | buffer, count, [] => some (buffer, count)
  | buffer, count, byte :: rest =>
    match appendBits buffer ((getCode codes byte.val).map codeBit) with
    | none => none
    | some b => encodeLoop codes b ((count + 1) % UINT_MOD) rest

/-- The loop of `deflate` that writes the size field, with `n` iterations left and loop variable
`i`: `setBit (buffer, i - 1, (count & (1 << (SIZE_FIELD - i))) >> (SIZE_FIELD - i))`, where
`1 << 31` is the bit pattern `0x80000000`. -/
def writeSizeLoop (count : Nat) : Nat → Nat → BitBuffer → Option BitBuffer
  | 0, _, buffer => some buffer
  | n + 1, i, buffer =>
    match setBit buffer (i - 1)
        (((count &&& (1 <<< (SIZE_FIELD - i))) >>> (SIZE_FIELD - i)) != 0) with
    | none => none
    | some b => writeSizeLoop count n (i + 1) b

/-- The buffer that `deflate` builds from the code table and the bytes of the input file:
`SIZE_FIELD` zero bits, the codes of the bytes, then the size field overwritten with `count`. -/
def deflateBuffer (codes : List Char) (input : List (Fin 256)) : Option BitBuffer :=
  match appendBits makeBitBuffer (List.replicate SIZE_FIELD false) with
  | none => none
  | some b0 =>
    match encodeLoop codes b0 0 input with
    | none => none
    | some (b1, count) => writeSizeLoop count SIZE_FIELD 1 b1

/-- The program `deflate`: the bytes of the output file. -/
def deflate (codes : List Char) (input : List (Fin 256)) : Option (List Nat) :=
  match deflateBuffer codes input with
  | none => none
  | some buffer => some (saveBitBuffer buffer)

/-! ## `inflate.c` -/

/-- How a run of `inflate` ends: `EXIT_SUCCESS` with the bytes written to the output file, the
message `Invalid input file` and `EXIT_FAILURE` with the bytes written until then, or an execution
that C leaves undefined. -/
inductive InflateResult where
  | success (output : List Nat)
  | invalidInput (output : List Nat)
  | undefined
deriving DecidableEq

/-- The loop of `inflate` that reads the size field, with `n` iterations left and loop variable
`i`: `count = (count << 1) | getBit (buffer, i)` on an `unsigned int`. -/
def readSizeLoop (buffer : BitBuffer) : Nat → Nat → Nat → Option Nat
  | 0, _, count => some count
  | n + 1, i, count =>
    match getBit buffer i with
    | none => none
    | some v => readSizeLoop buffer n (i + 1) (((count <<< 1) ||| v.toNat) % UINT_MOD)

/-- The variables of the decoding loop of `inflate` other than the loop variable: the array
`bits` of `CODE_MAX + 1` cells, `bitscount`, `charcount` and the bytes written so far. -/
structure DecodeState where
  bits : List Char
  bitscount : Nat
  charcount : Nat
  output : List Nat
deriving DecidableEq

/-- What follows the decoding loop of `inflate`: the check `charcount < count`. -/
def decodeFinish (count : Nat) (s : DecodeState) : InflateResult :=
  if s.charcount < count then InflateResult.invalidInput s.output
  else InflateResult.success s.output

/-- The decoding loop of `inflate`, `for (i = SIZE_FIELD; i < bitbuffercount && charcount < count;
i++)`, with `n = bitbuffercount - i` iterations left. The store `bits[bitscount]` outside the
array, and a `lookupCode` on an array without terminator, are undefined. -/
def decodeLoop (codes : List Char) (buffer : BitBuffer) (count : Nat) :
    Nat → Nat → DecodeState → InflateResult
  | 0, _, s => decodeFinish count s
  | n + 1, i, s =>
    if s.charcount < count then
      match getBit buffer i with
      | none => InflateResult.undefined
      | some v =>
        if s.bitscount < s.bits.length then
          let bits := s.bits.set s.bitscount (if v = false then '0' else '1')
          if NUL ∈ bits then
            let code := lookupCode codes (cstr bits)
            if code ≥ 0 then
              decodeLoop codes buffer count n (i + 1)
                { bits := List.replicate (CODE_MAX + 1) NUL, bitscount := 0,
                  charcount := s.charcount + 1, output := s.output ++ [code.toNat % 256] }
            else if code = CODE_INVALID then InflateResult.invalidInput s.output
            else if code = CODE_PREFIX then
              decodeLoop codes buffer count n (i + 1)
                { s with bits := bits, bitscount := s.bitscount + 1 }
            else decodeLoop codes buffer count n (i + 1) { s with bits := bits }
          else InflateResult.undefined
        else InflateResult.undefined
    else decodeFinish count s

/-- The program `inflate`, on the code table and the bytes of the compressed file. -/
def inflate (codes : List Char) (file : List Nat) : InflateResult :=
  match loadBitBuffer file with
  | none => InflateResult.undefined
  | some buffer =>
    match readSizeLoop buffer SIZE_FIELD 0 0 with
    | none => InflateResult.undefined
    | some count =>
      decodeLoop codes buffer count (getBitCount buffer - SIZE_FIELD) SIZE_FIELD
        { bits := List.replicate (CODE_MAX + 1) NUL, bitscount := 0, charcount := 0, output := [] }

/-! ### Vocabulary of the claims about the two programs -/

/-- The bits of the codes of the bytes of `input`, one code after the other. -/
def codeBits (codes : List Char) : List (Fin 256) → List Bool
  | [] => []
  | byte :: rest => (getCode codes byte.val).map codeBit ++ codeBits codes rest

/-- The bits of the bytes of a file, eight per byte, in the order `loadBitBuffer` appends
them. -/
def fileBits : List Nat → List Bool
  | [] => []
  | current :: rest => byteBits current ++ fileBits rest

/-- The array `bits` of `inflate` when it holds the candidate string `cand`: the characters of
`cand`, then NUL up to `CODE_MAX + 1` cells. -/
def bitsArray (cand : List Char) : List Char :=
  cand ++ List.replicate (CODE_MAX + 1 - cand.length) NUL

/-- The variables of the decoding loop of `inflate` when the candidate string is `cand`. -/
def decodeState (cand : List Char) (charcount : Nat) (output : List Nat) : DecodeState :=
  { bits := bitsArray cand, bitscount := cand.length, charcount := charcount, output := output }

/-- A run of forty appends, which crosses the growth of the array from four to five bytes. -/
def sampleBits : List Bool :=
  [true, false, true, true, false, false, true, false, true, true, true, false, false, false, true,
   false, false, true, false, true, true, false, true, false, true, false, false, true, true, true,
   false, true, true, false, false, false, false, true, true, false]

/-- A full buffer: four bytes, thirty-two bits. -/
def fullBuffer : BitBuffer := { data := [222, 173, 190, 239], bitCount := 32, cap := 4 }

/-- The lines of a valid codes file: the code of byte `k` is the eight-digit binary numeral of
`k`. -/
def sampleLines : List (List Char) := (List.range 256).map (binaryCode 8)

/-- The cells of `codes` after loading `sampleLines`. -/
def sampleCodes : List Char := tableOf sampleLines

/-- The lines of a codes file whose first line has `CODE_MAX + 1 = 25` characters: twenty-five
zeros, then for `k = 0, …, 254` the digit one followed by the eight-digit binary numeral of `k`. -/
def overlongLines : List (List Char) :=
  List.replicate 25 '0' :: (List.range 255).map (fun k => '1' :: binaryCode 8 k)

/-- The text of the codes file with the lines `overlongLines`. -/
def overlongText : List Char := unlines overlongLines

/-- The lines of a valid codes file with a code of one character: `0` for byte 0, and for byte
`k + 1` the digit one followed by the eight-digit binary numeral of `k`. -/
def skewLines : List (List Char) :=
  ['0'] :: (List.range 255).map (fun k => '1' :: binaryCode 8 k)

/-- The cells of `codes` after loading `skewLines`. -/
def skewCodes : List Char := tableOf skewLines


/-! ### Vocabulary of the claims about the states of a buffer and of the decoder -/

/-- The buffers that a program reaches from `makeBitBuffer ()` by calls of `appendBit` that are
defined and by calls of `setBit` with an index below the bit count. An `appendBit` on a buffer of
`INT_MAX - 6` bits or more is not defined, so these buffers hold at most `INT_MAX - 6` bits. -/
inductive Reachable : BitBuffer → Prop where
  | make : Reachable makeBitBuffer
  | append (b b' : BitBuffer) (v : Bool) :
      Reachable b → appendBit b v = some b' → Reachable b'
  | set (b b' : BitBuffer) (idx : Nat) (v : Bool) :
      Reachable b → idx < getBitCount b → setBit b idx v = some b' → Reachable b'

/-- A call of `appendBit` or of `setBit` on a buffer, with its arguments after the buffer. -/
inductive BufferCall where
  | appendBit (value : Bool)
  | setBit (idx : Nat) (value : Bool)
deriving DecidableEq

/-- The calls of a list made one after the other on a buffer; `none` when one of them is not
defined. -/
def runCalls : BitBuffer → List BufferCall → Option BitBuffer
  | buffer, [] => some buffer
  | buffer, BufferCall.appendBit value :: rest =>
    match appendBit buffer value with
    | none => none
    | some b => runCalls b rest
  | buffer, BufferCall.setBit idx value :: rest =>
    match setBit buffer idx value with
    | none => none
    | some b => runCalls b rest

/-- The number of `appendBit` calls in a list of calls. -/
def appendCount : List BufferCall → Nat
  | [] => 0
  | BufferCall.appendBit _ :: rest => appendCount rest + 1
  | BufferCall.setBit _ _ :: rest => appendCount rest

/-- Every `setBit` call of the list has an index below the bit count at the time of the call,
when the list is run on a buffer of `n` bits: below `n` plus the number of `appendBit` calls made
before it. -/
def setsBelowCount : Nat → List BufferCall → Bool
  | _, [] => true
  | n, BufferCall.appendBit _ :: rest => setsBelowCount (n + 1) rest
  | n, BufferCall.setBit idx _ :: rest => decide (idx < n) && setsBelowCount n rest

/-- The lines of a codes file for the example scenario: `00` for byte 65, `01` for byte 66, and
for every other byte `k` the digit one followed by the eight-digit binary numeral of `k`. -/
def exampleLines : List (List Char) :=
  (List.range 256).map fun k =>
    if k = 65 then ['0', '0'] else if k = 66 then ['0', '1'] else '1' :: binaryCode 8 k

/-- The cells of `codes` after loading `exampleLines`. -/
def exampleCodes : List Char := tableOf exampleLines

/-- The statements of `main` of `inflate` that follow `loadBitBuffer`: the loop that reads the size
field, then the decoding loop, on the buffer that was loaded. -/
def inflateBuffer (codes : List Char) (buffer : BitBuffer) : InflateResult :=
  match readSizeLoop buffer SIZE_FIELD 0 0 with
  | none => InflateResult.undefined
  | some count =>
    decodeLoop codes buffer count (getBitCount buffer - SIZE_FIELD) SIZE_FIELD
      { bits := List.replicate (CODE_MAX + 1) NUL, bitscount := 0, charcount := 0, output := [] }

/-- The arguments `idx` of the calls `getBit (buffer, idx)` that the loop of `inflate` over the
size field makes, `for (i = 0; i < SIZE_FIELD; i++)`, with `n` iterations left and loop variable
`i`. -/
def readSizeCalls : Nat → Nat → List Nat
  | 0, _ => []
  | n + 1, i => i :: readSizeCalls n (i + 1)

/-- The character that `inflate` stores in `bits` for the bit `v`:
`getBit (buffer, i) == 0 ? '0' : '1'`. -/
def bitChar (v : Bool) : Char := if v = false then '0' else '1'

/-- The `SIZE_FIELD` bits of the size field that holds the number `k`, most significant bit
first. -/
def sizeBits (k : Nat) : List Bool :=
  (List.range SIZE_FIELD).map fun j => k.testBit (SIZE_FIELD - 1 - j)

/-- The candidate string `p` is a proper prefix of a code of the table. -/
def Unfinished (codes : List Char) (p : List Char) : Prop :=
  ∃ b, b < CODE_ROWS ∧ p <+: getCode codes b ∧ p.length < (getCode codes b).length

/-- A loaded buffer of seven bytes: the size field with the number 2, the bytes 65 and 66, and a
trailing byte. -/
def trailingBuffer : BitBuffer := { data := [0, 0, 0, 2, 65, 66, 255], bitCount := 56, cap := 7 }

/-! ### The decoding loop of `inflate`, one iteration at a time -/

/-- How one iteration of the decoding loop of `inflate` ends: with new values of the variables,
in the message `Invalid input file`, or in an execution that C leaves undefined. -/
inductive StepResult where
  | next (s : DecodeState)
  | invalidInput
  | undefined
deriving DecidableEq

/-- The body of the decoding loop of `inflate`, on the loop variable `i` and the variables `s`:
the store `bits[bitscount] = getBit (buffer, i) == 0 ? '0' : '1'`, the call `lookupCode (bits)`
and the three branches on its result. The store outside the array `bits`, and a `lookupCode` on
an array without terminator, are undefined. -/
def decodeStep (codes : List Char) (buffer : BitBuffer) (i : Nat) (s : DecodeState) :
    StepResult :=
  match getBit buffer i with
  | none => StepResult.undefined
  | some v =>
    if s.bitscount < s.bits.length then
      let bits := s.bits.set s.bitscount (if v = false then '0' else '1')
      if NUL ∈ bits then
        let code := lookupCode codes (cstr bits)
        if code ≥ 0 then
          StepResult.next
            { bits := List.replicate (CODE_MAX + 1) NUL, bitscount := 0,
              charcount := s.charcount + 1, output := s.output ++ [code.toNat % 256] }
        else if code = CODE_INVALID then StepResult.invalidInput
        else if code = CODE_PREFIX then
          StepResult.next { s with bits := bits, bitscount := s.bitscount + 1 }
        else StepResult.next { s with bits := bits }
      else StepResult.undefined
    else StepResult.undefined

/-- The values of the variables of the decoding loop of `inflate` at every evaluation of the loop
condition `i < bitbuffercount && charcount < count`, in order, with `n = bitbuffercount - i`
iterations left; the list ends where the loop ends. -/
def decodeTrace (codes : List Char) (buffer : BitBuffer) (count : Nat) :
    Nat → Nat → DecodeState → List DecodeState
  | 0, _, s => [s]
  | n + 1, i, s =>
    s :: (if s.charcount < count then
      match decodeStep codes buffer i s with
      | StepResult.next s' => decodeTrace codes buffer count n (i + 1) s'
      | StepResult.invalidInput => []
      | StepResult.undefined => []
    else [])

/-! # Theorems -/

/-! ### Bit arithmetic -/

theorem and_pow_shiftRight (x k : Nat) :
    ((x &&& (1 <<< k)) >>> k != 0) = x.testBit k := by
  have h : (x &&& (1 <<< k)) >>> k = (x.testBit k).toNat := by
    apply Nat.eq_of_testBit_eq
    intro j
    rw [Nat.testBit_shiftRight, Nat.testBit_and, Nat.one_shiftLeft, Nat.testBit_two_pow]
    cases j with
    | zero => cases hx : x.testBit k <;> simp [hx]
    | succ j =>
      have : ¬ (k = k + (j + 1)) := by omega
      cases hx : x.testBit k <;> simp [this, Nat.testBit_succ]
  rw [h]
  cases x.testBit k <;> rfl

theorem toNat_testBit (v : Bool) (d : Nat) :
    (v.toNat).testBit d = (decide (d = 0) && v) := by
  cases v
  · simp
  · cases d with
    | zero => simp
    | succ d => simp [Nat.testBit_succ]

theorem testBit_setBitByte (x k j : Nat) (v : Bool) (hk : k < 8) :
    (setBitByte x k v).testBit j = (decide (j < 8) && if j = k then v else x.testBit j) := by
  unfold setBitByte
  rw [show (256 : Nat) = 2 ^ 8 from rfl, Nat.testBit_mod_two_pow, Nat.testBit_or, Nat.testBit_and,
    Nat.testBit_xor, Nat.one_shiftLeft, Nat.testBit_two_pow, Nat.testBit_shiftLeft]
  by_cases hj : j < 8
  · have h32 : (0xFFFFFFFF : Nat).testBit j = true := by
      have : j = 0 ∨ j = 1 ∨ j = 2 ∨ j = 3 ∨ j = 4 ∨ j = 5 ∨ j = 6 ∨ j = 7 := by omega
      rcases this with h | h | h | h | h | h | h | h <;> subst h <;> decide
    by_cases hjk : j = k
    · subst hjk
      cases v <;> simp [hj, h32]
    · have hkj : ¬ (k = j) := fun h => hjk h.symm
      rw [toNat_testBit, h32]
      by_cases hge : j ≥ k
      · have : ¬ (j - k = 0) := by omega
        simp [hj, hjk, hkj, hge, this]
      · simp [hj, hjk, hkj, hge]
  · simp [hj]

/-! ### Reading and writing single bits -/

theorem getBit_eq_bitAt (b : BitBuffer) (idx : Nat) (h : idx / 8 < b.data.length) :
    getBit b idx = some (bitAt b.data idx) := by
  unfold getBit bitAt
  simp only [BYTE_SIZE, SHIFT]
  rw [List.getElem?_eq_getElem h]
  simp only [and_pow_shiftRight, List.getD_eq_getElem?_getD, List.getElem?_eq_getElem h,
    Option.getD_some]

theorem getBit_isSome_iff (b : BitBuffer) (idx : Nat) :
    (getBit b idx).isSome = true ↔ idx / 8 < b.data.length := by
  unfold getBit
  simp only [BYTE_SIZE]
  by_cases h : idx / 8 < b.data.length
  · simp [List.getElem?_eq_getElem h, h]
  · simp [List.getElem?_eq_none (Nat.le_of_not_lt h), h]

theorem getD_set_zero (data : List Nat) (d i y : Nat) :
    (data.set d y).getD i 0 = if i = d ∧ d < data.length then y else data.getD i 0 := by
  simp only [List.getD_eq_getElem?_getD, List.getElem?_set]
  by_cases hid : d = i
  · subst hid
    by_cases hl : d < data.length
    · simp [hl]
    · simp [hl, List.getElem?_eq_none (Nat.le_of_not_lt hl)]
  · have : ¬ (i = d) := fun h => hid h.symm
    simp [hid, this]

theorem bitAt_set (data : List Nat) (idx j : Nat) (v : Bool) (h : idx / 8 < data.length) :
    bitAt (data.set (idx / 8) (setBitByte (data.getD (idx / 8) 0) (7 - idx % 8) v)) j
      = if j = idx then v else bitAt data j := by
  unfold bitAt
  rw [getD_set_zero]
  by_cases hd : j / 8 = idx / 8
  · have hk : 7 - idx % 8 < 8 := by omega
    have hj8 : 7 - j % 8 < 8 := by omega
    simp only [hd, h, and_self, if_true]
    rw [testBit_setBitByte _ _ _ _ hk]
    by_cases hji : j = idx
    · subst hji
      simp [hj8]
    · have : ¬ (7 - j % 8 = 7 - idx % 8) := by omega
      simp [hj8, this, hji]
  · have hji : ¬ (j = idx) := fun e => hd (by rw [e])
    simp [hd, hji]

theorem setBit_spec (b : BitBuffer) (idx : Nat) (v : Bool) (h : idx / 8 < b.data.length) :
    ∃ b2, setBit b idx v = some b2 ∧ b2.bitCount = b.bitCount ∧ b2.cap = b.cap ∧
      b2.data.length = b.data.length ∧
      ∀ j, bitAt b2.data j = if j = idx then v else bitAt b.data j := by
  unfold setBit
  simp only [BYTE_SIZE, SHIFT]
  rw [List.getElem?_eq_getElem h]
  refine ⟨_, rfl, rfl, rfl, ?_, ?_⟩
  · simp
  · intro j
    have hx : b.data[idx / 8] = b.data.getD (idx / 8) 0 := by
      simp [List.getD_eq_getElem?_getD, List.getElem?_eq_getElem h]
    simp only [hx]
    exact bitAt_set b.data idx j v h

theorem setBit_eq_none (b : BitBuffer) (idx : Nat) (v : Bool) (h : ¬ idx / 8 < b.data.length) :
    setBit b idx v = none := by
  unfold setBit
  simp only [BYTE_SIZE]
  rw [List.getElem?_eq_none (Nat.le_of_not_lt h)]

theorem growBuffer_spec (b : BitBuffer) (hwf : b.WF) :
    (growBuffer b).cap = b.cap + 1 ∧ (growBuffer b).bitCount = b.bitCount ∧
      (growBuffer b).data = b.data ++ [0] := by
  unfold BitBuffer.WF at hwf
  unfold growBuffer
  refine ⟨rfl, rfl, ?_⟩
  simp only [Nat.add_sub_cancel]
  rw [← hwf, List.take_length]
  congr 1
  rw [List.drop_replicate]
  simp

theorem bitAt_append_zero (data : List Nat) (j : Nat) :
    bitAt (data ++ [0]) j = bitAt data j := by
  unfold bitAt
  congr 1
  simp only [List.getD_eq_getElem?_getD]
  by_cases h : j / 8 < data.length
  · rw [List.getElem?_append_left h]
  · have hle : data.length ≤ j / 8 := Nat.le_of_not_lt h
    rw [List.getElem?_append_right hle, List.getElem?_eq_none hle]
    cases hk : j / 8 - data.length with
    | zero => simp
    | succ k => simp

/-- What one `appendBit` does to a buffer whose array is as long as `cap` says. -/
theorem appendBit_spec (b b' : BitBuffer) (v : Bool) (hwf : b.WF)
    (h : appendBit b v = some b') :
    b'.WF ∧ b'.bitCount = b.bitCount + 1 ∧
      b'.cap = (if b.bitCount ≥ b.cap * 8 then b.cap + 1 else b.cap) ∧
      b'.data.length = b'.cap ∧
      ∀ j, bitAt b'.data j = if j = b.bitCount then v else bitAt b.data j := by
  unfold appendBit at h
  simp only [BYTE_SIZE] at h
  split at h
  · exact absurd h (by simp)
  · by_cases hfull : b.bitCount ≥ b.cap * 8
    · by_cases hov : INT_MAX < b.cap + 1
      · simp [hfull, hov] at h
      · simp only [hfull, hov, if_true, if_false] at h
        obtain ⟨hc, hbc, hd⟩ := growBuffer_spec b hwf
        by_cases hin : (growBuffer b).bitCount / 8 < (growBuffer b).data.length
        · obtain ⟨b2, hs, h1, h2, h3, h4⟩ := setBit_spec (growBuffer b) (growBuffer b).bitCount v hin
          rw [hs] at h
          simp only at h
          split at h
          · exact absurd h (by simp)
          · injection h with h
            subst h
            have hlen : b2.data.length = b.cap + 1 := by
              rw [h3, hd, List.length_append, hwf]; rfl
            refine ⟨?_, ?_, ?_, ?_, ?_⟩
            · show b2.data.length = b2.cap
              rw [hlen, h2, hc]
            · show b2.bitCount + 1 = b.bitCount + 1
              rw [h1, hbc]
            · show b2.cap = _
              rw [h2, hc, if_pos hfull]
            · show b2.data.length = b2.cap
              rw [hlen, h2, hc]
            · intro j
              show bitAt b2.data j = _
              rw [h4 j, hbc, hd, bitAt_append_zero]
        · rw [setBit_eq_none _ _ _ hin] at h
          exact absurd h (by simp)
    · simp only [hfull, if_false] at h
      by_cases hin : b.bitCount / 8 < b.data.length
      · obtain ⟨b2, hs, h1, h2, h3, h4⟩ := setBit_spec b b.bitCount v hin
        rw [hs] at h
        simp only at h
        split at h
        · exact absurd h (by simp)
        · injection h with h
          subst h
          refine ⟨?_, ?_, ?_, ?_, ?_⟩
          · show b2.data.length = b2.cap
            rw [h3, h2]; exact hwf
          · show b2.bitCount + 1 = b.bitCount + 1
            rw [h1]
          · show b2.cap = _
            rw [h2, if_neg hfull]
          · show b2.data.length = b2.cap
            rw [h3, h2]; exact hwf
          · intro j
            show bitAt b2.data j = _
            rw [h4 j]
      · rw [setBit_eq_none _ _ _ hin] at h
        exact absurd h (by simp)

theorem makeBitBuffer_inv : makeBitBuffer.Inv := by
  refine ⟨rfl, ?_, Or.inl rfl⟩
  simp [makeBitBuffer]

/-- An append to a buffer that satisfies the invariant is defined as long as the new bit count is
at most `INT_MAX - 6`. -/
theorem appendBit_defined (b : BitBuffer) (v : Bool) (hinv : b.Inv)
    (hsz : b.bitCount + 1 ≤ INT_MAX - 6) : ∃ b', appendBit b v = some b' := by
  obtain ⟨hwf, hle, hcap⟩ := hinv
  unfold BitBuffer.WF at hwf
  have hI : INT_MAX = 2147483647 := by decide
  have hS : START_SIZE = 4 := rfl
  rw [hI] at hsz
  have hc8 : ¬ (INT_MAX < b.cap * 8) := by
    rw [hI]; rcases hcap with h | h <;> omega
  unfold appendBit
  simp only [BYTE_SIZE, hc8, if_false]
  by_cases hfull : b.bitCount ≥ b.cap * 8
  · have hc1 : ¬ (INT_MAX < b.cap + 1) := by rw [hI]; omega
    simp only [hfull, if_true, hc1, if_false]
    obtain ⟨hc, hbc, hd⟩ := growBuffer_spec b hwf
    have hin : (growBuffer b).bitCount / 8 < (growBuffer b).data.length := by
      rw [hbc, hd, List.length_append, hwf]
      simp only [List.length_singleton]
      omega
    obtain ⟨b2, hs, h1, -⟩ := setBit_spec (growBuffer b) (growBuffer b).bitCount v hin
    rw [hs]
    have : ¬ (INT_MAX < b2.bitCount + 1) := by rw [hI, h1, hbc]; omega
    simp only [this, if_false]
    exact ⟨_, rfl⟩
  · simp only [hfull, if_false]
    have hin : b.bitCount / 8 < b.data.length := by rw [hwf]; omega
    obtain ⟨b2, hs, h1, -⟩ := setBit_spec b b.bitCount v hin
    rw [hs]
    have : ¬ (INT_MAX < b2.bitCount + 1) := by rw [hI, h1]; omega
    simp only [this, if_false]
    exact ⟨_, rfl⟩

/-- The bound of `appendBit_defined` is the largest possible: at `INT_MAX - 6` bits the array has
`2 ^ 28` bytes and `cap * BYTE_SIZE` leaves the range of `int`. -/
theorem appendBit_overflow (b : BitBuffer) (v : Bool) (hinv : b.Inv)
    (h : INT_MAX - 6 ≤ b.bitCount) : appendBit b v = none := by
  obtain ⟨-, hle, -⟩ := hinv
  have hI : INT_MAX = 2147483647 := by decide
  rw [hI] at h
  have : INT_MAX < b.cap * BYTE_SIZE := by
    rw [hI]; simp only [BYTE_SIZE]; omega
  unfold appendBit
  rw [if_pos this]

theorem appendBit_inv (b b' : BitBuffer) (v : Bool) (hinv : b.Inv)
    (h : appendBit b v = some b') : b'.Inv := by
  obtain ⟨hwf, hle, hcap⟩ := hinv
  obtain ⟨hwf', hbc, hc, -, -⟩ := appendBit_spec b b' v hwf h
  have hS : START_SIZE = 4 := rfl
  refine ⟨hwf', ?_, ?_⟩
  · rw [hbc, hc]; split <;> omega
  · rw [hbc, hc, hS]
    rw [hS] at hcap
    split
    · right; omega
    · rcases hcap with h4 | h4
      · left; exact h4
      · right; omega

theorem appendBits_spec (vs : List Bool) : ∀ (b b' : BitBuffer), b.Inv →
    appendBits b vs = some b' →
    b'.Inv ∧ b'.bitCount = b.bitCount + vs.length ∧
      ∀ j, bitAt b'.data j =
        if j < b.bitCount then bitAt b.data j else (vs[j - b.bitCount]?).getD (bitAt b.data j) := by
  induction vs with
  | nil =>
    intro b b' hinv h
    simp only [appendBits, Option.some.injEq] at h
    subst h
    refine ⟨hinv, rfl, ?_⟩
    intro j
    simp
  | cons v vs ih =>
    intro b b' hinv h
    simp only [appendBits] at h
    cases h1 : appendBit b v with
    | none => rw [h1] at h; exact absurd h (by simp)
    | some b1 =>
      rw [h1] at h
      simp only at h
      have hinv1 := appendBit_inv b b1 v hinv h1
      obtain ⟨-, hbc1, -, -, hbit1⟩ := appendBit_spec b b1 v hinv.1 h1
      obtain ⟨hinv', hbc', hbit'⟩ := ih b1 b' hinv1 h
      refine ⟨hinv', ?_, ?_⟩
      · rw [hbc', hbc1, List.length_cons]; omega
      · intro j
        rw [hbit' j, hbc1, hbit1 j]
        by_cases hlt : j < b.bitCount
        · have h2 : j < b.bitCount + 1 := by omega
          have h3 : ¬ (j = b.bitCount) := by omega
          simp [hlt, h2, h3]
        · by_cases heq : j = b.bitCount
          · subst heq
            simp
          · have h2 : ¬ (j < b.bitCount + 1) := by omega
            have h3 : j - b.bitCount = (j - (b.bitCount + 1)) + 1 := by omega
            rw [if_neg h2, if_neg hlt, if_neg heq, h3, List.getElem?_cons_succ]

theorem appendBits_defined (vs : List Bool) : ∀ (b : BitBuffer), b.Inv →
    b.bitCount + vs.length ≤ INT_MAX - 6 → ∃ b', appendBits b vs = some b' := by
  induction vs with
  | nil => intro b _ _; exact ⟨b, rfl⟩
  | cons v vs ih =>
    intro b hinv hsz
    simp only [List.length_cons] at hsz
    obtain ⟨b1, h1⟩ := appendBit_defined b v hinv (by omega)
    obtain ⟨-, hbc1, -⟩ := appendBit_spec b b1 v hinv.1 h1
    obtain ⟨b', h'⟩ := ih b1 (appendBit_inv b b1 v hinv h1) (by rw [hbc1]; omega)
    exact ⟨b', by simp only [appendBits, h1, h']⟩

theorem getBit_of_inv (b : BitBuffer) (hinv : b.Inv) (i : Nat) (hi : i < b.bitCount) :
    getBit b i = some (bitAt b.data i) := by
  apply getBit_eq_bitAt
  have h1 := hinv.1
  have h2 := hinv.2.1
  unfold BitBuffer.WF at h1
  omega

theorem appendBits_overflow (vs : List Bool) : ∀ (b : BitBuffer), b.Inv →
    b.bitCount ≤ INT_MAX - 6 → INT_MAX - 6 < b.bitCount + vs.length →
    appendBits b vs = none := by
  induction vs with
  | nil =>
    intro b _ h1 h2
    simp only [List.length_nil] at h2
    omega
  | cons v vs ih =>
    intro b hinv h1 h2
    simp only [List.length_cons] at h2
    simp only [appendBits]
    cases hb : appendBit b v with
    | none => rfl
    | some b1 =>
      simp only
      by_cases hlim : INT_MAX - 6 ≤ b.bitCount
      · rw [appendBit_overflow b v hinv hlim] at hb
        exact absurd hb (by simp)
      · obtain ⟨-, hbc1, -⟩ := appendBit_spec b b1 v hinv.1 hb
        exact ih b1 (appendBit_inv b b1 v hinv hb) (by omega) (by omega)

theorem appendBit_cap_overflow (b : BitBuffer) (v : Bool) (h : INT_MAX < b.cap * BYTE_SIZE) :
    appendBit b v = none := by
  unfold appendBit
  rw [if_pos h]

/-! ### Claims about the bit buffer -/

/-- C7, amended: for every sequence of at most `INT_MAX - 6 = 2 ^ 31 - 7` bits `v₀`, …, `vₙ₋₁`,
the calls `appendBit (v₀)`, …, `appendBit (vₙ₋₁)` on a new buffer are defined, and after them
`getBitCount` returns `n` and `getBit (i)` returns `vᵢ` for every `i < n`. As every initial part
of such a sequence is such a sequence, this holds after each intermediate append as well. -/
theorem appendBit_bit_exact (vs : List Bool) (hlen : vs.length ≤ INT_MAX - 6) :
    ∃ b, appendBits makeBitBuffer vs = some b ∧ getBitCount b = vs.length ∧
      ∀ (i : Nat) (hi : i < vs.length), getBit b i = some vs[i] := by
  obtain ⟨b, h⟩ := appendBits_defined vs makeBitBuffer makeBitBuffer_inv
    (by simpa [makeBitBuffer] using hlen)
  obtain ⟨hinv, hbc, hbit⟩ := appendBits_spec vs makeBitBuffer b makeBitBuffer_inv h
  have hbc' : b.bitCount = vs.length := by simpa [makeBitBuffer] using hbc
  refine ⟨b, h, hbc', ?_⟩
  intro i hi
  rw [getBit_of_inv b hinv i (by omega), hbit i]
  simp [makeBitBuffer, List.getElem?_eq_getElem hi]

theorem appendBit_bit_exact_witness :
    ∃ b, appendBits makeBitBuffer sampleBits = some b ∧ getBitCount b = sampleBits.length ∧
      ∀ (i : Nat) (hi : i < sampleBits.length), getBit b i = some sampleBits[i] :=
  appendBit_bit_exact sampleBits (by decide)

/-- C7 as stated fails on the sequences of `INT_MAX - 5` and of `2 ^ 31` zero bits: the appends
are not defined, because the bit count or `cap * BYTE_SIZE` leaves the range of `int`. -/
theorem appendBit_int_limit :
    appendBits makeBitBuffer (List.replicate (INT_MAX - 5) false) = none ∧
      appendBits makeBitBuffer (List.replicate (2 ^ 31) false) = none :=
  ⟨appendBits_overflow _ makeBitBuffer makeBitBuffer_inv (by decide)
      (by rw [List.length_replicate]; decide),
   appendBits_overflow _ makeBitBuffer makeBitBuffer_inv (by decide)
      (by rw [List.length_replicate]; decide)⟩

/-- C8, amended: on a buffer whose array is as long as `cap` says, an `appendBit` to a full
buffer (`bitCount == cap * 8`) is defined, increases `cap` by exactly one and leaves `getBit (i)`
unchanged for every `i` below the old bit count; an `appendBit` to a buffer with
`bitCount < cap * 8` and `cap * 8` at most `INT_MAX` is defined and leaves `cap` unchanged. -/
theorem appendBit_growth (b : BitBuffer) (v : Bool) (hwf : b.WF) (hrange : b.bitCount ≤ INT_MAX) :
    (b.bitCount = b.cap * 8 →
      ∃ b', appendBit b v = some b' ∧ b'.cap = b.cap + 1 ∧
        ∀ i, i < b.bitCount → getBit b' i = getBit b i) ∧
    (b.bitCount < b.cap * 8 → b.cap * 8 ≤ INT_MAX →
      ∃ b', appendBit b v = some b' ∧ b'.cap = b.cap) := by
  have hI : INT_MAX = 2147483647 := by decide
  constructor
  · intro hfull
    have hinv : b.Inv := ⟨hwf, by omega, Or.inr (by omega)⟩
    obtain ⟨b', h'⟩ := appendBit_defined b v hinv (by rw [hI] at hrange ⊢; omega)
    obtain ⟨hwf', -, hc, -, hbit⟩ := appendBit_spec b b' v hwf h'
    refine ⟨b', h', ?_, ?_⟩
    · rw [hc, if_pos (by omega)]
    · intro i hi
      unfold BitBuffer.WF at hwf hwf'
      have hcap' : b'.cap = b.cap + 1 := by rw [hc, if_pos (by omega)]
      rw [getBit_eq_bitAt b' i (by omega), getBit_eq_bitAt b i (by omega), hbit i,
        if_neg (by omega)]
  · intro hlt hc8
    have hdef : ∃ b', appendBit b v = some b' := by
      unfold appendBit
      have h1 : ¬ (INT_MAX < b.cap * 8) := by omega
      have h2 : ¬ (b.bitCount ≥ b.cap * 8) := by omega
      simp only [BYTE_SIZE, h1, h2, if_false]
      unfold BitBuffer.WF at hwf
      obtain ⟨b2, hs, hb2, -⟩ := setBit_spec b b.bitCount v (by omega)
      rw [hs]
      have h3 : ¬ (INT_MAX < b2.bitCount + 1) := by omega
      simp only [h3, if_false]
      exact ⟨_, rfl⟩
    obtain ⟨b', h'⟩ := hdef
    obtain ⟨-, -, hc, -, -⟩ := appendBit_spec b b' v hwf h'
    exact ⟨b', h', by rw [hc, if_neg (by omega)]⟩

theorem appendBit_growth_witness :
    (∃ b', appendBit fullBuffer true = some b' ∧ b'.cap = fullBuffer.cap + 1 ∧
      ∀ i, i < fullBuffer.bitCount → getBit b' i = getBit fullBuffer i) ∧
    ∃ b', appendBit makeBitBuffer true = some b' ∧ b'.cap = makeBitBuffer.cap :=
  ⟨(appendBit_growth fullBuffer true (by decide) (by decide)).1 (by decide),
   (appendBit_growth makeBitBuffer true (by decide) (by decide)).2 (by decide) (by decide)⟩

/-- C8 as stated fails on the buffer that `INT_MAX - 6` appends of zero bits build, with
`cap = 2 ^ 28` and `bitCount < cap * 8`: the product `cap * BYTE_SIZE` leaves the range of `int`
and the append is not defined. -/
theorem appendBit_cap_limit :
    (List.replicate (2 ^ 28) 0).length = 2 ^ 28 ∧ 2 ^ 31 - 7 ≤ INT_MAX ∧
      2 ^ 31 - 7 < 2 ^ 28 * 8 ∧
      appendBit { data := List.replicate (2 ^ 28) 0, bitCount := 2 ^ 31 - 7, cap := 2 ^ 28 } true
        = none :=
  ⟨List.length_replicate _ _, by decide, by decide, appendBit_cap_overflow _ _ (by decide)⟩

/-! ### String comparison and `lookupCode` -/

theorem strcmpEq_iff (a b : List Char) : strcmpEq a b = true ↔ a = b := by
  unfold strcmpEq
  exact beq_iff_eq

theorem strncmpEq_strlen_iff (a b : List Char) : strncmpEq a b (strlen a) = true ↔ a <+: b := by
  unfold strncmpEq strlen
  rw [List.take_length, beq_iff_eq, List.prefix_iff_eq_take]

/-- The scan of `lookupCode` finds nothing when the candidate is a prefix of no remaining code. -/
theorem lookupLoop_none (codes bits : List Char) : ∀ (n i : Nat),
    (∀ k, i ≤ k → k < i + n → ¬ (bits <+: getCode codes k)) →
    lookupLoop codes bits n i = CODE_INVALID := by
  intro n
  induction n with
  | zero => intro i _; rfl
  | succ n ih =>
    intro i h
    have hi := h i (Nat.le_refl i) (by omega)
    have h1 : strcmpEq bits (getCode codes i) = false := by
      cases hc : strcmpEq bits (getCode codes i) with
      | false => rfl
      | true =>
        rw [strcmpEq_iff] at hc
        exact absurd (hc ▸ List.prefix_refl bits) hi
    have h2 : strncmpEq bits (getCode codes i) (strlen bits) = false := by
      cases hc : strncmpEq bits (getCode codes i) (strlen bits) with
      | false => rfl
      | true => exact absurd ((strncmpEq_strlen_iff _ _).1 hc) hi
    simp only [lookupLoop, h1, h2, Bool.false_eq_true, if_false]
    exact ih (i + 1) (fun k hk1 hk2 => h k (by omega) (by omega))

/-- The scan of `lookupCode` stops at the first code that the candidate is a prefix of. -/
theorem lookupLoop_first (codes bits : List Char) : ∀ (n i k : Nat), i ≤ k → k < i + n →
    bits <+: getCode codes k → (∀ j, i ≤ j → j < k → ¬ (bits <+: getCode codes j)) →
    lookupLoop codes bits n i = if bits = getCode codes k then (k : Int) else CODE_PREFIX := by
  intro n
  induction n with
  | zero => intro i k h1 h2; omega
  | succ n ih =>
    intro i k hik hkn hpre hfirst
    by_cases hk : k = i
    · subst hk
      by_cases heq : bits = getCode codes k
      · have h1 : strcmpEq bits (getCode codes k) = true := (strcmpEq_iff _ _).2 heq
        simp only [lookupLoop, h1, if_true, if_pos heq]
      · have h1 : strcmpEq bits (getCode codes k) = false := by
          cases hc : strcmpEq bits (getCode codes k) with
          | false => rfl
          | true => exact absurd ((strcmpEq_iff _ _).1 hc) heq
        have h2 : strncmpEq bits (getCode codes k) (strlen bits) = true :=
          (strncmpEq_strlen_iff _ _).2 hpre
        simp only [lookupLoop, h1, h2, Bool.false_eq_true, if_false, if_true, if_neg heq]
    · have hi := hfirst i (Nat.le_refl i) (by omega)
      have h1 : strcmpEq bits (getCode codes i) = false := by
        cases hc : strcmpEq bits (getCode codes i) with
        | false => rfl
        | true =>
          rw [strcmpEq_iff] at hc
          exact absurd (hc ▸ List.prefix_refl bits) hi
      have h2 : strncmpEq bits (getCode codes i) (strlen bits) = false := by
        cases hc : strncmpEq bits (getCode codes i) (strlen bits) with
        | false => rfl
        | true => exact absurd ((strncmpEq_strlen_iff _ _).1 hc) hi
      simp only [lookupLoop, h1, h2, Bool.false_eq_true, if_false]
      exact ih (i + 1) k (by omega) (by omega) hpre (fun j hj1 hj2 => hfirst j (by omega) hj2)

/-- The least index below `n` that satisfies a decidable property which some index below `n`
satisfies. -/
theorem exists_first (p : Nat → Prop) [DecidablePred p] (n : Nat) (h : ∃ k, k < n ∧ p k) :
    ∃ k, k < n ∧ p k ∧ ∀ j, j < k → ¬ p j := by
  obtain ⟨k, hk, hp⟩ := h
  have hex : ∃ m, p m := ⟨k, hp⟩
  refine ⟨Nat.find hex, ?_, Nat.find_spec hex, fun j hj => Nat.find_min hex hj⟩
  exact Nat.lt_of_le_of_lt (Nat.find_min' hex hp) hk

/-- With a valid table, an exact match is found at its own row. -/
theorem lookupCode_exact (codes : List Char) (hv : ValidTable codes) (b : Nat)
    (hb : b < CODE_ROWS) : lookupCode codes (getCode codes b) = (b : Int) := by
  unfold lookupCode
  rw [lookupLoop_first codes (getCode codes b) CODE_ROWS 0 b (Nat.zero_le b) (by omega)
    (List.prefix_refl _) (fun j _ hj => hv.2 b j hb (by omega) (by omega))]
  simp

/-- With a valid table, a candidate that is a prefix of a code without being a code is reported as
`CODE_PREFIX`. -/
theorem lookupCode_proper (codes bits : List Char) (b : Nat) (hb : b < CODE_ROWS)
    (hp : bits <+: getCode codes b) (hne : ∀ k, k < CODE_ROWS → bits ≠ getCode codes k) :
    lookupCode codes bits = CODE_PREFIX := by
  obtain ⟨k, hk, hpk, hfirst⟩ :=
    exists_first (fun k => bits <+: getCode codes k) CODE_ROWS ⟨b, hb, hp⟩
  unfold lookupCode
  rw [lookupLoop_first codes bits CODE_ROWS 0 k (Nat.zero_le k) (by omega) hpk
    (fun j _ hj => hfirst j hj), if_neg (hne k hk)]

/-- A candidate that is a prefix of no code is reported as `CODE_INVALID`. -/
theorem lookupCode_invalid (codes bits : List Char)
    (h : ∀ k, k < CODE_ROWS → ¬ (bits <+: getCode codes k)) :
    lookupCode codes bits = CODE_INVALID := by
  unfold lookupCode
  exact lookupLoop_none codes bits CODE_ROWS 0 (fun k _ hk => h k (by omega))

/-- C6: with a valid table, `lookupCode (s)` returns `b` exactly when `s` is the code of byte `b`,
`CODE_PREFIX` exactly when `s` is a proper prefix of some code and equals none, `CODE_INVALID`
exactly when `s` is neither a code nor a prefix of one; the result is always one of these three,
which exclude one another, and `lookupCode (getCode (b)) == b` for every byte `b`. The statement
holds for every candidate string, in particular for those of one to `CODE_MAX` binary digits. -/
theorem lookupCode_classification (codes : List Char) (hv : ValidTable codes) (s : List Char) :
    (∀ b, b < CODE_ROWS → (lookupCode codes s = (b : Int) ↔ s = getCode codes b)) ∧
    (lookupCode codes s = CODE_PREFIX ↔
      (∃ b, b < CODE_ROWS ∧ s <+: getCode codes b ∧ s ≠ getCode codes b) ∧
        ∀ b, b < CODE_ROWS → s ≠ getCode codes b) ∧
    (lookupCode codes s = CODE_INVALID ↔ ∀ b, b < CODE_ROWS → ¬ (s <+: getCode codes b)) ∧
    ((∃ b, b < CODE_ROWS ∧ lookupCode codes s = (b : Int)) ∨ lookupCode codes s = CODE_PREFIX ∨
      lookupCode codes s = CODE_INVALID) ∧
    ((∀ b : Nat, (b : Int) ≠ CODE_PREFIX ∧ (b : Int) ≠ CODE_INVALID) ∧
      CODE_PREFIX ≠ CODE_INVALID) ∧
    (∀ b, b < CODE_ROWS → lookupCode codes (getCode codes b) = (b : Int)) := by
  have hP : CODE_PREFIX = (-1 : Int) := rfl
  have hI : CODE_INVALID = (-2 : Int) := rfl
  have hexact := lookupCode_exact codes hv
  have hexcl : (∀ b : Nat, (b : Int) ≠ CODE_PREFIX ∧ (b : Int) ≠ CODE_INVALID) ∧
      CODE_PREFIX ≠ CODE_INVALID := by
    refine ⟨fun b => ⟨?_, ?_⟩, by decide⟩
    · rw [hP]; omega
    · rw [hI]; omega
  by_cases hA : ∃ b, b < CODE_ROWS ∧ s = getCode codes b
  · obtain ⟨b0, hb0, hs0⟩ := hA
    have hr : lookupCode codes s = (b0 : Int) := by rw [hs0]; exact hexact b0 hb0
    refine ⟨?_, ?_, ?_, Or.inl ⟨b0, hb0, hr⟩, hexcl, hexact⟩
    · intro b hb
      constructor
      · intro h
        rw [hr] at h
        have : b0 = b := by exact_mod_cast h
        rw [← this]; exact hs0
      · intro h
        rw [h]; exact hexact b hb
    · constructor
      · intro h; rw [hr, hP] at h; omega
      · intro h; exact absurd hs0 (h.2 b0 hb0)
    · constructor
      · intro h; rw [hr, hI] at h; omega
      · intro h; exact absurd (hs0 ▸ List.prefix_refl s) (h b0 hb0)
  · have hne : ∀ k, k < CODE_ROWS → s ≠ getCode codes k := fun k hk e => hA ⟨k, hk, e⟩
    by_cases hB : ∃ b, b < CODE_ROWS ∧ s <+: getCode codes b
    · obtain ⟨b0, hb0, hp0⟩ := hB
      have hr : lookupCode codes s = CODE_PREFIX := lookupCode_proper codes s b0 hb0 hp0 hne
      refine ⟨?_, ?_, ?_, Or.inr (Or.inl hr), hexcl, hexact⟩
      · intro b hb
        constructor
        · intro h; rw [hr, hP] at h; omega
        · intro h; exact absurd h (hne b hb)
      · constructor
        · intro _; exact ⟨⟨b0, hb0, hp0, hne b0 hb0⟩, hne⟩
        · intro _; exact hr
      · constructor
        · intro h; rw [hr, hP, hI] at h; omega
        · intro h; exact absurd hp0 (h b0 hb0)
    · have hnone : ∀ k, k < CODE_ROWS → ¬ (s <+: getCode codes k) := fun k hk e => hB ⟨k, hk, e⟩
      have hr : lookupCode codes s = CODE_INVALID := lookupCode_invalid codes s hnone
      refine ⟨?_, ?_, ?_, Or.inr (Or.inr hr), hexcl, hexact⟩
      · intro b hb
        constructor
        · intro h; rw [hr, hI] at h; omega
        · intro h; exact absurd h (hne b hb)
      · constructor
        · intro h; rw [hr, hP, hI] at h; omega
        · intro h
          obtain ⟨⟨b, hb, hp, -⟩, -⟩ := h
          exact absurd hp (hnone b hb)
      · constructor
        · intro _; exact hnone
        · intro _; exact hr

/-! ### The cells of `codes` and the strings read from them -/

theorem isBinary_ne_NUL (c : Char) (h : isBinary c) : (c != NUL) = true := by
  rcases h with h | h <;> subst h <;> decide

theorem isBinary_ne_newline (c : Char) (h : isBinary c) : c ≠ '\n' := by
  rcases h with h | h <;> subst h <;> decide

theorem tableOf_append (a b : List (List Char)) : tableOf (a ++ b) = tableOf a ++ tableOf b := by
  induction a with
  | nil => rfl
  | cons l a ih =>
    show tableOf (l :: (a ++ b)) = tableOf (l :: a) ++ tableOf b
    simp only [tableOf, ih, List.append_assoc]

theorem tableOf_length (ls : List (List Char)) (h : ∀ l ∈ ls, l.length ≤ CODE_MAX + 1) :
    (tableOf ls).length = (CODE_MAX + 1) * ls.length := by
  induction ls with
  | nil => rfl
  | cons l ls ih =>
    have hl := h l (List.mem_cons_self l ls)
    have := ih (fun x hx => h x (List.mem_cons_of_mem l hx))
    simp only [tableOf, List.length_append, List.length_replicate, List.length_cons, this]
    simp only [CODE_MAX] at hl ⊢
    omega

theorem cstr_binary_append (l rest : List Char) (h : ∀ c ∈ l, isBinary c) :
    cstr (l ++ rest) = l ++ cstr rest := by
  induction l with
  | nil => rfl
  | cons c l ih =>
    have hc := isBinary_ne_NUL c (h c (List.mem_cons_self c l))
    have := ih (fun x hx => h x (List.mem_cons_of_mem c hx))
    unfold cstr at this ⊢
    simp only [List.cons_append, List.takeWhile_cons, hc, if_true, this]

theorem cstr_replicate_NUL (n : Nat) : cstr (List.replicate n NUL) = [] := by
  cases n with
  | zero => rfl
  | succ n => rfl

theorem cstr_NUL_cons (rest : List Char) : cstr (NUL :: rest) = [] := rfl

theorem codeFrom_append_nil (rs : List (List Char)) : codeFrom (rs ++ [[]]) = codeFrom rs := by
  induction rs with
  | nil => rfl
  | cons l rs ih =>
    show codeFrom (l :: (rs ++ [[]])) = codeFrom (l :: rs)
    simp only [codeFrom, ih]

/-- The string read at the head of some finished rows followed by the current row. -/
theorem cstr_tableOf (rs : List (List Char)) (cur : List Char) (z : Nat)
    (hrs : ∀ l ∈ rs, l.length ≤ CODE_MAX + 1 ∧ ∀ c ∈ l, isBinary c)
    (hcur : ∀ c ∈ cur, isBinary c) :
    cstr (tableOf rs ++ cur ++ List.replicate z NUL) = codeFrom (rs ++ [cur]) := by
  induction rs with
  | nil =>
    have h1 : cstr (cur ++ List.replicate z NUL) = cur := by
      rw [cstr_binary_append cur _ hcur, cstr_replicate_NUL, List.append_nil]
    have h2 : codeFrom [cur] = cur := by
      simp only [codeFrom, List.append_nil, ite_self]
    simpa [tableOf, h2] using h1
  | cons l rs ih =>
    obtain ⟨hlen, hbin⟩ := hrs l (List.mem_cons_self l rs)
    have ih' := ih (fun x hx => hrs x (List.mem_cons_of_mem l hx))
    show cstr (tableOf (l :: rs) ++ cur ++ List.replicate z NUL) = codeFrom (l :: (rs ++ [cur]))
    simp only [tableOf, codeFrom, List.append_assoc]
    rw [cstr_binary_append l _ hbin]
    by_cases hlt : l.length < CODE_MAX + 1
    · rw [if_pos hlt]
      obtain ⟨k, hk⟩ : ∃ k, CODE_MAX + 1 - l.length = k + 1 := ⟨CODE_MAX - l.length, by omega⟩
      rw [hk, List.replicate_succ, List.cons_append, cstr_NUL_cons, List.append_nil]
    · rw [if_neg hlt]
      have h0 : CODE_MAX + 1 - l.length = 0 := by omega
      rw [h0, List.replicate_zero, List.nil_append]
      rw [List.append_assoc] at ih'
      rw [ih']

theorem getCode_memOf (ls : List (List Char)) (cur : List Char) (i : Nat) (hi : i ≤ ls.length)
    (hls : ∀ l ∈ ls, l.length ≤ CODE_MAX + 1 ∧ ∀ c ∈ l, isBinary c)
    (hcur : ∀ c ∈ cur, isBinary c) :
    getCode (memOf ls cur) i = codeFrom (ls.drop i ++ [cur]) := by
  unfold getCode memOf cellIndex
  have hsplit : tableOf ls = tableOf (ls.take i) ++ tableOf (ls.drop i) := by
    rw [← tableOf_append, List.take_append_drop]
  have hlen : (tableOf (ls.take i)).length = i * (CODE_MAX + 1) + 0 := by
    rw [tableOf_length _ (fun l hl => (hls l (List.mem_of_mem_take hl)).1), List.length_take,
      Nat.min_eq_left hi, Nat.mul_comm]
    exact (Nat.add_zero _).symm
  rw [hsplit, List.append_assoc, List.append_assoc, ← hlen, List.drop_left, ← List.append_assoc]
  exact cstr_tableOf _ _ _ (fun l hl => hls l (List.mem_of_mem_drop hl)) hcur

theorem getCode_tableOf (ls : List (List Char)) (i : Nat) (hi : i ≤ ls.length)
    (hls : ∀ l ∈ ls, l.length ≤ CODE_MAX + 1 ∧ ∀ c ∈ l, isBinary c) :
    getCode (tableOf ls) i = codeFrom (ls.drop i) := by
  have h := getCode_memOf ls [] i hi hls (fun c hc => absurd hc (List.not_mem_nil c))
  rw [codeFrom_append_nil] at h
  have hm : memOf ls [] = tableOf ls ++ List.replicate
      (CODES_SIZE - ((CODE_MAX + 1) * ls.length + 0)) NUL := by
    simp [memOf]
  rw [← h, hm]
  unfold getCode cellIndex
  have hsplit : tableOf ls = tableOf (ls.take i) ++ tableOf (ls.drop i) := by
    rw [← tableOf_append, List.take_append_drop]
  have hlen : (tableOf (ls.take i)).length = i * (CODE_MAX + 1) + 0 := by
    rw [tableOf_length _ (fun l hl => (hls l (List.mem_of_mem_take hl)).1), List.length_take,
      Nat.min_eq_left hi, Nat.mul_comm]
    exact (Nat.add_zero _).symm
  rw [hsplit, List.append_assoc, ← hlen, List.drop_left, List.drop_left]
  have h1 := cstr_tableOf (ls.drop i) [] 0 (fun l hl => hls l (List.mem_of_mem_drop hl))
    (fun c hc => absurd hc (List.not_mem_nil c))
  have h2 := cstr_tableOf (ls.drop i) []
    (CODES_SIZE - ((CODE_MAX + 1) * ls.length + 0)) (fun l hl => hls l (List.mem_of_mem_drop hl))
    (fun c hc => absurd hc (List.not_mem_nil c))
  simp only [List.append_nil, List.replicate_zero] at h1 h2
  rw [h1, h2]

theorem codeFrom_starts (l : List Char) (rs : List (List Char)) : l <+: codeFrom (l :: rs) := by
  simp only [codeFrom]
  split
  · exact List.prefix_refl l
  · exact List.prefix_append l _

theorem codeFrom_short (l : List Char) (rs : List (List Char)) (h : l.length ≤ CODE_MAX) :
    codeFrom (l :: rs) = l := by
  simp only [codeFrom]
  rw [if_pos (by omega)]

/-- Against a line of at most `CODE_MAX + 1` characters, the string that starts at a row compares
as the line of that row does. -/
theorem comparable_codeFrom (cur l : List Char) (rs : List (List Char))
    (hcur : cur.length ≤ CODE_MAX + 1) (hl : l.length ≤ CODE_MAX + 1) :
    Comparable cur (codeFrom (l :: rs)) ↔ Comparable cur l := by
  unfold Comparable
  by_cases hlt : l.length < CODE_MAX + 1
  · simp only [codeFrom, if_pos hlt]
  · simp only [codeFrom, if_neg hlt]
    constructor
    · rintro (h | h)
      · exact List.prefix_or_prefix_of_prefix h (List.prefix_append l _)
      · exact Or.inr ((List.prefix_append l _).trans h)
    · rintro (h | h)
      · exact Or.inl (h.trans (List.prefix_append l _))
      · have : l = cur := h.eq_of_length_le (by omega)
        subst this
        exact Or.inl (List.prefix_append l _)

theorem strncmpEq_min_iff (a b : List Char) :
    strncmpEq a b (if strlen a < strlen b then strlen a else strlen b) = true ↔
      Comparable a b := by
  unfold strncmpEq strlen Comparable
  rw [beq_iff_eq]
  by_cases h : a.length < b.length
  · rw [if_pos h, List.take_length]
    constructor
    · intro e; exact Or.inl (List.prefix_iff_eq_take.2 e)
    · rintro (e | e)
      · exact List.prefix_iff_eq_take.1 e
      · exact absurd e.length_le (by omega)
  · rw [if_neg h, List.take_length]
    constructor
    · intro e; exact Or.inr (List.prefix_iff_eq_take.2 e.symm)
    · rintro (e | e)
      · have : a = b := e.eq_of_length_le (by omega)
        subst this
        rw [List.take_length]
      · exact (List.prefix_iff_eq_take.1 e).symm

theorem checkPrefixLoop_iff (codes : List Char) (row : Nat) : ∀ (n i : Nat),
    checkPrefixLoop codes row n i = true ↔
      ∀ k, i ≤ k → k < i + n → ¬ Comparable (getCode codes row) (getCode codes k) := by
  intro n
  induction n with
  | zero =>
    intro i
    simp only [checkPrefixLoop, true_iff]
    intro k h1 h2
    omega
  | succ n ih =>
    intro i
    simp only [checkPrefixLoop]
    by_cases hc : Comparable (getCode codes row) (getCode codes i)
    · rw [if_pos ((strncmpEq_min_iff _ _).2 hc)]
      simp only [Bool.false_eq_true, false_iff]
      intro h
      exact h i (Nat.le_refl i) (by omega) hc
    · have : ¬ (strncmpEq (getCode codes row) (getCode codes i)
          (if strlen (getCode codes row) < strlen (getCode codes i) then
            strlen (getCode codes row) else strlen (getCode codes i)) = true) :=
        fun e => hc ((strncmpEq_min_iff _ _).1 e)
      rw [if_neg this, ih (i + 1)]
      constructor
      · intro h k hk1 hk2
        by_cases hki : k = i
        · subst hki; exact hc
        · exact h k (by omega) (by omega)
      · intro h k hk1 hk2
        exact h k (by omega) (by omega)

/-! ### One iteration of the loop of `loadCodes` -/

theorem memOf_length_head (ls : List (List Char)) (cur : List Char)
    (hls : ∀ l ∈ ls, l.length ≤ CODE_MAX + 1) :
    (tableOf ls ++ cur).length = (CODE_MAX + 1) * ls.length + cur.length := by
  rw [List.length_append, tableOf_length ls hls]

theorem storeCode_memOf (ls : List (List Char)) (cur : List Char) (c : Char)
    (hls : ∀ l ∈ ls, l.length ≤ CODE_MAX + 1)
    (h : (CODE_MAX + 1) * ls.length + cur.length < CODES_SIZE) :
    storeCode (memOf ls cur) ls.length cur.length c =
      some (tableOf ls ++ cur ++ c ::
        List.replicate (CODES_SIZE - ((CODE_MAX + 1) * ls.length + cur.length) - 1) NUL) := by
  have hp := memOf_length_head ls cur hls
  have hidx : cellIndex ls.length cur.length = (tableOf ls ++ cur).length := by
    rw [hp]; unfold cellIndex; rw [Nat.mul_comm]
  obtain ⟨k, hk⟩ : ∃ k, CODES_SIZE - ((CODE_MAX + 1) * ls.length + cur.length) = k + 1 :=
    ⟨CODES_SIZE - ((CODE_MAX + 1) * ls.length + cur.length) - 1, by omega⟩
  unfold storeCode memOf
  rw [hidx, hk, List.replicate_succ]
  have hlt : (tableOf ls ++ cur).length <
      (tableOf ls ++ cur ++ NUL :: List.replicate k NUL).length := by
    simp only [List.length_append, List.length_cons]; omega
  rw [if_pos hlt, List.set_append, if_neg (Nat.lt_irrefl _), Nat.sub_self]
  simp only [List.set_cons_zero, Nat.add_sub_cancel]

theorem storeCode_memOf_none (ls : List (List Char)) (cur : List Char) (c : Char)
    (hls : ∀ l ∈ ls, l.length ≤ CODE_MAX + 1)
    (h : ¬ ((CODE_MAX + 1) * ls.length + cur.length < CODES_SIZE)) :
    storeCode (memOf ls cur) ls.length cur.length c = none := by
  have hp := memOf_length_head ls cur hls
  have hidx : cellIndex ls.length cur.length = (tableOf ls ++ cur).length := by
    rw [hp]; unfold cellIndex; rw [Nat.mul_comm]
  have h0 : CODES_SIZE - ((CODE_MAX + 1) * ls.length + cur.length) = 0 := by omega
  unfold storeCode memOf
  rw [hidx, h0, List.replicate_zero, List.append_nil, if_neg (Nat.lt_irrefl _)]

theorem memOf_snoc_char (ls : List (List Char)) (cur : List Char) (c : Char) :
    tableOf ls ++ cur ++ c ::
        List.replicate (CODES_SIZE - ((CODE_MAX + 1) * ls.length + cur.length) - 1) NUL =
      memOf ls (cur ++ [c]) := by
  unfold memOf
  have : CODES_SIZE - ((CODE_MAX + 1) * ls.length + (cur ++ [c]).length) =
      CODES_SIZE - ((CODE_MAX + 1) * ls.length + cur.length) - 1 := by
    rw [List.length_append, List.length_singleton]; omega
  rw [this]
  simp only [List.append_assoc, List.singleton_append]

theorem memOf_store_NUL (ls : List (List Char)) (cur : List Char)
    (h : (CODE_MAX + 1) * ls.length + cur.length < CODES_SIZE) :
    tableOf ls ++ cur ++ NUL ::
        List.replicate (CODES_SIZE - ((CODE_MAX + 1) * ls.length + cur.length) - 1) NUL =
      memOf ls cur := by
  unfold memOf
  obtain ⟨k, hk⟩ : ∃ k, CODES_SIZE - ((CODE_MAX + 1) * ls.length + cur.length) = k + 1 :=
    ⟨CODES_SIZE - ((CODE_MAX + 1) * ls.length + cur.length) - 1, by omega⟩
  rw [hk, List.replicate_succ, Nat.add_sub_cancel]

theorem memOf_newline (ls : List (List Char)) (cur : List Char)
    (hcur : cur.length ≤ CODE_MAX + 1)
    (h : (CODE_MAX + 1) * ls.length + cur.length < CODES_SIZE) :
    memOf (ls ++ [cur]) [] = memOf ls cur := by
  unfold memOf
  have ht : tableOf [cur] = cur ++ List.replicate (CODE_MAX + 1 - cur.length) NUL := by
    simp only [tableOf, List.append_nil]
  rw [tableOf_append, ht, List.append_nil, List.length_append, List.length_singleton,
    List.length_nil, Nat.add_zero, List.append_assoc, List.append_assoc, List.append_assoc,
    List.append_replicate_replicate]
  have : CODE_MAX + 1 - cur.length + (CODES_SIZE - ((CODE_MAX + 1) * (ls.length + 1) + 0)) =
      CODES_SIZE - ((CODE_MAX + 1) * ls.length + cur.length) := by
    have hC : CODES_SIZE = 6400 := by decide
    simp only [CODE_MAX, hC] at *
    omega
  rw [this]

theorem linesOK_bounds (ls : List (List Char)) (h : LinesOK ls) :
    ∀ l ∈ ls, l.length ≤ CODE_MAX + 1 := fun l hl => (h.1 l hl).1

theorem checkPrefix_memOf (ls : List (List Char)) (cur : List Char)
    (hls : ∀ l ∈ ls, l.length ≤ CODE_MAX + 1 ∧ ∀ c ∈ l, isBinary c)
    (hcur : ∀ c ∈ cur, isBinary c) (hlen : cur.length ≤ CODE_MAX + 1) :
    checkPrefix (memOf ls cur) ls.length = true ↔ ∀ l ∈ ls, ¬ Comparable cur l := by
  unfold checkPrefix
  rw [checkPrefixLoop_iff]
  have hrow : getCode (memOf ls cur) ls.length = cur := by
    rw [getCode_memOf ls cur ls.length (Nat.le_refl _) hls hcur, List.drop_length,
      List.nil_append]
    simp only [codeFrom, List.append_nil, ite_self]
  rw [hrow]
  constructor
  · intro h l hl
    obtain ⟨k, hk, hkl⟩ := List.getElem_of_mem hl
    have hd : ls.drop k = l :: ls.drop (k + 1) := by
      rw [← hkl]; exact List.drop_eq_getElem_cons hk
    have := h k (Nat.zero_le k) (by omega)
    rw [getCode_memOf ls cur k (by omega) hls hcur, hd, List.cons_append,
      comparable_codeFrom cur l _ hlen (hls l hl).1] at this
    exact this
  · intro h k _ hk
    have hk' : k < ls.length := by omega
    have hd : ls.drop k = ls[k] :: ls.drop (k + 1) := List.drop_eq_getElem_cons hk'
    have hmem : ls[k] ∈ ls := List.getElem_mem hk'
    rw [getCode_memOf ls cur k (by omega) hls hcur, hd, List.cons_append,
      comparable_codeFrom cur _ _ hlen (hls _ hmem).1]
    exact h _ hmem

theorem loadStep_reject (s : LoadState) (bit : Char)
    (h : ¬ isBinary bit ∧ bit ≠ '\n' ∨ s.row = CODE_ROWS) :
    loadStep s bit = LoadResult.codesError := by
  unfold loadStep
  have : (bit ≠ '0' ∧ bit ≠ '1' ∧ bit ≠ '\n') ∨ s.row = CODE_ROWS := by
    rcases h with ⟨h1, h2⟩ | h
    · left
      unfold isBinary at h1
      exact ⟨fun e => h1 (Or.inl e), fun e => h1 (Or.inr e), h2⟩
    · right; exact h
  rw [if_pos this]

theorem loadStep_digit (ls : List (List Char)) (cur : List Char) (c : Char)
    (hinv : LoadInv ls cur) (hc : isBinary c) (hrow : ls.length < CODE_ROWS) :
    loadStep (stateOf ls cur) c =
      if cur.length ≤ CODE_MAX then LoadResult.ok (stateOf ls (cur ++ [c]))
      else LoadResult.codesError := by
  obtain ⟨hok, -, hcur, hlen, -⟩ := hinv
  have hnl := isBinary_ne_newline c hc
  have h1 : ¬ ((c ≠ '0' ∧ c ≠ '1' ∧ c ≠ '\n') ∨ (stateOf ls cur).row = CODE_ROWS) := by
    rintro (⟨h0, h1, -⟩ | h)
    · rcases hc with e | e
      · exact h0 e
      · exact h1 e
    · simp only [stateOf] at h; omega
  unfold loadStep
  rw [if_neg h1, if_neg hnl]
  simp only [stateOf]
  by_cases hcol : cur.length ≤ CODE_MAX
  · have hidx : (CODE_MAX + 1) * ls.length + cur.length < CODES_SIZE := by
      have hC : CODES_SIZE = 6400 := by decide
      have hR : CODE_ROWS = 256 := rfl
      simp only [CODE_MAX, hC, hR] at *
      omega
    rw [if_pos hcol, if_pos hcol, storeCode_memOf ls cur c (linesOK_bounds ls hok) hidx,
      memOf_snoc_char]
    simp only [List.length_append, List.length_singleton]
  · rw [if_neg hcol, if_neg hcol]

theorem loadStep_newline (ls : List (List Char)) (cur : List Char)
    (hinv : LoadInv ls cur) (hrow : ls.length < CODE_ROWS) :
    loadStep (stateOf ls cur) '\n' =
      if ¬ ((CODE_MAX + 1) * ls.length + cur.length < CODES_SIZE) then LoadResult.outOfBounds
      else if ∀ l ∈ ls, ¬ Comparable cur l then LoadResult.ok (stateOf (ls ++ [cur]) [])
      else LoadResult.codesError := by
  obtain ⟨hok, -, hcur, hlen, -⟩ := hinv
  have h1 : ¬ (('\n' ≠ '0' ∧ '\n' ≠ '1' ∧ '\n' ≠ '\n') ∨ (stateOf ls cur).row = CODE_ROWS) := by
    rintro (⟨-, -, h⟩ | h)
    · exact h rfl
    · simp only [stateOf] at h; omega
  unfold loadStep
  rw [if_neg h1, if_pos rfl]
  simp only [stateOf]
  by_cases hidx : (CODE_MAX + 1) * ls.length + cur.length < CODES_SIZE
  · rw [if_neg (not_not.2 hidx), storeCode_memOf ls cur NUL (linesOK_bounds ls hok) hidx,
      memOf_store_NUL ls cur hidx]
    simp only
    by_cases hchk : ∀ l ∈ ls, ¬ Comparable cur l
    · rw [if_pos hchk, (checkPrefix_memOf ls cur hok.1 hcur hlen).2 hchk]
      simp only [Bool.not_true, Bool.false_eq_true, if_false, memOf_newline ls cur hlen hidx,
        List.length_append, List.length_singleton, List.length_nil]
    · rw [if_neg hchk]
      have : checkPrefix (memOf ls cur) ls.length = false := by
        cases hb : checkPrefix (memOf ls cur) ls.length with
        | false => rfl
        | true => exact absurd ((checkPrefix_memOf ls cur hok.1 hcur hlen).1 hb) hchk
      rw [this]
      simp only [Bool.not_false, if_true]
  · rw [if_pos hidx, storeCode_memOf_none ls cur NUL (linesOK_bounds ls hok) hidx]

/-! ### The loop of `loadCodes` -/

theorem comparable_comm (a b : List Char) : Comparable a b ↔ Comparable b a := by
  unfold Comparable
  exact Or.comm

theorem unlines_append (a b : List (List Char)) : unlines (a ++ b) = unlines a ++ unlines b := by
  induction a with
  | nil => rfl
  | cons l a ih =>
    show unlines (l :: (a ++ b)) = unlines (l :: a) ++ unlines b
    simp only [unlines, ih, List.append_assoc, List.cons_append]

theorem unlines_snoc (ls : List (List Char)) (cur : List Char) :
    unlines (ls ++ [cur]) = unlines ls ++ cur ++ ['\n'] := by
  rw [unlines_append]
  simp only [unlines, List.append_nil, List.append_assoc]

theorem stateOf_init : stateOf [] [] = { codes := initCodes, row := 0, col := 0 } := rfl

theorem loadInv_init : LoadInv [] [] := by
  refine ⟨⟨?_, List.Pairwise.nil, ?_⟩, ?_, ?_, ?_, ?_⟩
  · intro l hl; exact absurd hl (List.not_mem_nil l)
  · decide
  · decide
  · intro c hc; exact absurd hc (List.not_mem_nil c)
  · decide
  · intro _; rfl

theorem loadInv_digit (ls : List (List Char)) (cur : List Char) (c : Char)
    (hinv : LoadInv ls cur) (hc : isBinary c) (hrow : ls.length < CODE_ROWS)
    (hcol : cur.length ≤ CODE_MAX) : LoadInv ls (cur ++ [c]) := by
  obtain ⟨hok, hle, hcur, -, -⟩ := hinv
  refine ⟨hok, hle, ?_, ?_, ?_⟩
  · intro x hx
    rcases List.mem_append.1 hx with h | h
    · exact hcur x h
    · rw [List.mem_singleton.1 h]; exact hc
  · rw [List.length_append, List.length_singleton]; omega
  · intro h; omega

theorem linesOK_snoc (ls : List (List Char)) (cur : List Char) (hok : LinesOK ls)
    (hrow : ls.length < CODE_ROWS) (hcur : ∀ c ∈ cur, isBinary c)
    (hlen : cur.length ≤ CODE_MAX + 1)
    (hidx : (CODE_MAX + 1) * ls.length + cur.length < CODES_SIZE)
    (hchk : ∀ l ∈ ls, ¬ Comparable cur l) : LinesOK (ls ++ [cur]) := by
  obtain ⟨hmem, hpw, hlast⟩ := hok
  refine ⟨?_, ?_, ?_⟩
  · intro l hl
    rcases List.mem_append.1 hl with h | h
    · exact hmem l h
    · rw [List.mem_singleton.1 h]; exact ⟨hlen, hcur⟩
  · rw [List.pairwise_append]
    refine ⟨hpw, List.pairwise_singleton _ _, ?_⟩
    intro a ha b hb
    rw [List.mem_singleton.1 hb, comparable_comm]
    exact hchk a ha
  · have hR : CODE_ROWS = 256 := rfl
    have hC : CODES_SIZE = 6400 := by decide
    simp only [List.getD_eq_getElem?_getD]
    by_cases h255 : ls.length = CODE_ROWS - 1
    · rw [← h255, List.getElem?_append_right (Nat.le_refl _), Nat.sub_self]
      simp only [List.getElem?_cons_zero, Option.getD_some]
      have hM : CODE_MAX = 24 := rfl
      rw [hM, hC, h255, hR] at hidx
      rw [hM]
      omega
    · have : (ls ++ [cur]).length ≤ CODE_ROWS - 1 := by
        rw [List.length_append, List.length_singleton]
        rw [hR] at hrow h255 ⊢
        omega
      rw [List.getElem?_eq_none this]
      simp

theorem loadInv_newline (ls : List (List Char)) (cur : List Char) (hinv : LoadInv ls cur)
    (hrow : ls.length < CODE_ROWS)
    (hidx : (CODE_MAX + 1) * ls.length + cur.length < CODES_SIZE)
    (hchk : ∀ l ∈ ls, ¬ Comparable cur l) : LoadInv (ls ++ [cur]) [] := by
  obtain ⟨hok, hle, hcur, hlen, -⟩ := hinv
  refine ⟨linesOK_snoc ls cur hok hrow hcur hlen hidx hchk, ?_, ?_, ?_, ?_⟩
  · rw [List.length_append, List.length_singleton]; omega
  · intro c hc; exact absurd hc (List.not_mem_nil c)
  · simp
  · intro _; rfl

/-- Whatever the loop of `loadCodes` accepts is a sequence of acceptable lines, each followed by a
newline, and then the digits of an unfinished line. -/
theorem loadLoop_sound : ∀ (text : List Char) (ls : List (List Char)) (cur : List Char)
    (s' : LoadState), LoadInv ls cur → loadLoop (stateOf ls cur) text = LoadResult.ok s' →
    ∃ ls' cur', s' = stateOf ls' cur' ∧ LoadInv ls' cur' ∧
      unlines ls ++ cur ++ text = unlines ls' ++ cur' := by
  intro text
  induction text with
  | nil =>
    intro ls cur s' hinv h
    simp only [loadLoop, LoadResult.ok.injEq] at h
    exact ⟨ls, cur, h.symm, hinv, by simp⟩
  | cons c rest ih =>
    intro ls cur s' hinv h
    simp only [loadLoop] at h
    by_cases hrow : ls.length < CODE_ROWS
    · by_cases hnl : c = '\n'
      · subst hnl
        rw [loadStep_newline ls cur hinv hrow] at h
        by_cases hidx : (CODE_MAX + 1) * ls.length + cur.length < CODES_SIZE
        · rw [if_neg (not_not.2 hidx)] at h
          by_cases hchk : ∀ l ∈ ls, ¬ Comparable cur l
          · rw [if_pos hchk] at h
            simp only at h
            obtain ⟨ls', cur', h1, h2, h3⟩ :=
              ih (ls ++ [cur]) [] s' (loadInv_newline ls cur hinv hrow hidx hchk) h
            refine ⟨ls', cur', h1, h2, ?_⟩
            rw [← h3, unlines_snoc]
            simp only [List.append_assoc, List.singleton_append, List.nil_append]
          · rw [if_neg hchk] at h
            simp only at h
            exact absurd h (by simp)
        · rw [if_pos hidx] at h
          simp only at h
          exact absurd h (by simp)
      · by_cases hc : isBinary c
        · rw [loadStep_digit ls cur c hinv hc hrow] at h
          by_cases hcol : cur.length ≤ CODE_MAX
          · rw [if_pos hcol] at h
            simp only at h
            obtain ⟨ls', cur', h1, h2, h3⟩ :=
              ih ls (cur ++ [c]) s' (loadInv_digit ls cur c hinv hc hrow hcol) h
            refine ⟨ls', cur', h1, h2, ?_⟩
            rw [← h3]
            simp only [List.append_assoc, List.singleton_append]
          · rw [if_neg hcol] at h
            simp only at h
            exact absurd h (by simp)
        · rw [loadStep_reject _ c (Or.inl ⟨hc, hnl⟩)] at h
          simp only at h
          exact absurd h (by simp)
    · have : (stateOf ls cur).row = CODE_ROWS := by
        have := hinv.2.1
        simp only [stateOf]; omega
      rw [loadStep_reject _ c (Or.inr this)] at h
      simp only at h
      exact absurd h (by simp)

theorem loadLoop_line (l : List Char) : ∀ (ls : List (List Char)) (cur rest : List Char),
    LoadInv ls cur → ls.length < CODE_ROWS → (∀ c ∈ l, isBinary c) →
    cur.length + l.length ≤ CODE_MAX + 1 →
    loadLoop (stateOf ls cur) (l ++ rest) = loadLoop (stateOf ls (cur ++ l)) rest ∧
      LoadInv ls (cur ++ l) := by
  induction l with
  | nil =>
    intro ls cur rest hinv _ _ _
    simp only [List.nil_append, List.append_nil]
    exact ⟨trivial, hinv⟩
  | cons c l ih =>
    intro ls cur rest hinv hrow hbin hlen
    have hc := hbin c (List.mem_cons_self c l)
    simp only [List.length_cons] at hlen
    have hcol : cur.length ≤ CODE_MAX := by omega
    have hinv' := loadInv_digit ls cur c hinv hc hrow hcol
    have := ih ls (cur ++ [c]) rest hinv' hrow (fun x hx => hbin x (List.mem_cons_of_mem c hx))
      (by rw [List.length_append, List.length_singleton]; omega)
    simp only [List.append_assoc, List.singleton_append] at this
    refine ⟨?_, this.2⟩
    show loadLoop (stateOf ls cur) (c :: (l ++ rest)) = _
    simp only [loadLoop, loadStep_digit ls cur c hinv hc hrow, if_pos hcol]
    exact this.1

theorem linesOK_initial (ls rest : List (List Char)) (h : LinesOK (ls ++ rest))
    (hlen : ls.length < CODE_ROWS) : LinesOK ls := by
  obtain ⟨hmem, hpw, -⟩ := h
  refine ⟨fun l hl => hmem l (List.mem_append_left rest hl), (List.pairwise_append.1 hpw).1, ?_⟩
  have : ls.length ≤ CODE_ROWS - 1 := by omega
  simp [List.getD_eq_getElem?_getD, List.getElem?_eq_none this]

/-- The loop of `loadCodes` accepts every sequence of acceptable lines. -/
theorem loadLoop_complete : ∀ (rest ls : List (List Char)), LinesOK (ls ++ rest) →
    (ls ++ rest).length ≤ CODE_ROWS →
    loadLoop (stateOf ls []) (unlines rest) = LoadResult.ok (stateOf (ls ++ rest) []) := by
  intro rest
  induction rest with
  | nil =>
    intro ls _ _
    simp only [unlines, loadLoop, List.append_nil]
  | cons l rest ih =>
    intro ls hok hlen
    have hR : CODE_ROWS = 256 := rfl
    have hC : CODES_SIZE = 6400 := by decide
    have hrow : ls.length < CODE_ROWS := by
      simp only [List.length_append, List.length_cons] at hlen; omega
    have hl := hok.1 l (List.mem_append_right ls (List.mem_cons_self l rest))
    have hinv0 : LoadInv ls [] :=
      ⟨linesOK_initial ls _ hok hrow, by omega,
        fun c hc => absurd hc (List.not_mem_nil c), by simp, fun _ => rfl⟩
    obtain ⟨hline, hinv1⟩ := loadLoop_line l ls [] ('\n' :: unlines rest) hinv0 hrow hl.2
      (by simpa using hl.1)
    simp only [List.nil_append] at hline hinv1
    have hidx : (CODE_MAX + 1) * ls.length + l.length < CODES_SIZE := by
      by_cases h255 : ls.length = CODE_ROWS - 1
      · have h3 := hok.2.2
        rw [List.getD_eq_getElem?_getD, ← h255, List.getElem?_append_right (Nat.le_refl _),
          Nat.sub_self] at h3
        simp only [List.getElem?_cons_zero, Option.getD_some] at h3
        have hM : CODE_MAX = 24 := rfl
        rw [hM] at h3
        rw [hM, hC, h255, hR]
        omega
      · have h4 := hl.1
        have hM : CODE_MAX = 24 := rfl
        rw [hM] at h4
        rw [hR] at h255 hrow
        rw [hM, hC]
        omega
    have hchk : ∀ x ∈ ls, ¬ Comparable l x := by
      intro x hx
      rw [comparable_comm]
      exact (List.pairwise_append.1 hok.2.1).2.2 x hx l (List.mem_cons_self l rest)
    have hstep : loadStep (stateOf ls l) '\n' = LoadResult.ok (stateOf (ls ++ [l]) []) := by
      rw [loadStep_newline ls l hinv1 hrow, if_neg (not_not.2 hidx), if_pos hchk]
    have hrest := ih (ls ++ [l]) (by simpa using hok) (by simpa using hlen)
    simp only [List.append_assoc, List.singleton_append] at hrest
    show loadLoop (stateOf ls []) (l ++ '\n' :: unlines rest) = _
    rw [hline]
    simp only [loadLoop, hstep]
    exact hrest

/-- The texts that `loadCodes` accepts, and the cells of `codes` it leaves: the text is
`CODE_ROWS` acceptable lines, each followed by a newline, and `codes` holds these lines. -/
theorem loadCodes_ok_iff (text codes : List Char) :
    loadCodes text = LoadResult.ok codes ↔
      ∃ ls, ls.length = CODE_ROWS ∧ LinesOK ls ∧ text = unlines ls ∧ codes = tableOf ls := by
  constructor
  · intro h
    unfold loadCodes at h
    rw [← stateOf_init] at h
    cases hl : loadLoop (stateOf [] []) text with
    | ok s' =>
      rw [hl] at h
      simp only at h
      obtain ⟨ls', cur', h1, h2, h3⟩ := loadLoop_sound text [] [] s' loadInv_init hl
      by_cases hrow : s'.row ≠ CODE_ROWS
      · rw [if_pos hrow] at h; exact absurd h (by simp)
      · rw [if_neg hrow] at h
        simp only [LoadResult.ok.injEq] at h
        have hrow' : ls'.length = CODE_ROWS := by
          have := not_not.1 hrow
          rw [h1] at this
          exact this
        have hcur := h2.2.2.2.2 hrow'
        subst hcur
        refine ⟨ls', hrow', h2.1, by simpa [unlines] using h3, ?_⟩
        rw [← h, h1]
        have hC : CODES_SIZE = (CODE_MAX + 1) * CODE_ROWS := by decide
        simp [stateOf, memOf, hrow', hC]
    | codesError => rw [hl] at h; exact absurd h (by simp)
    | outOfBounds => rw [hl] at h; exact absurd h (by simp)
  · rintro ⟨ls, hlen, hok, rfl, rfl⟩
    have h := loadLoop_complete ls [] (by simpa using hok) (by simp [hlen])
    unfold loadCodes
    rw [← stateOf_init, h]
    have hC : CODES_SIZE = (CODE_MAX + 1) * CODE_ROWS := by decide
    simp [stateOf, memOf, hlen, hC]

/-! ### Sample code tables -/

theorem binaryCode_length (n k : Nat) : (binaryCode n k).length = n := by
  induction n with
  | zero => rfl
  | succ n ih => simp only [binaryCode, List.length_cons, ih]

theorem binaryCode_binary (n k : Nat) : ∀ c ∈ binaryCode n k, isBinary c := by
  induction n with
  | zero => intro c hc; exact absurd hc (List.not_mem_nil c)
  | succ n ih =>
    intro c hc
    simp only [binaryCode, List.mem_cons] at hc
    rcases hc with h | h
    · rw [h]
      unfold isBinary
      split
      · exact Or.inr rfl
      · exact Or.inl rfl
    · exact ih c h

theorem binaryCode_testBit (n : Nat) (a b : Nat) (h : binaryCode n a = binaryCode n b) :
    ∀ j, j < n → a.testBit j = b.testBit j := by
  induction n with
  | zero => intro j hj; omega
  | succ n ih =>
    intro j hj
    simp only [binaryCode, List.cons.injEq] at h
    by_cases hjn : j = n
    · subst hjn
      have h1 := h.1
      cases ha : a.testBit j <;> cases hb : b.testBit j <;> simp [ha, hb] at h1 <;> rfl
    · exact ih h.2 j (by omega)

theorem binaryCode_inj (n a b : Nat) (ha : a < 2 ^ n) (hb : b < 2 ^ n)
    (h : binaryCode n a = binaryCode n b) : a = b := by
  apply Nat.eq_of_testBit_eq
  intro j
  by_cases hj : j < n
  · exact binaryCode_testBit n a b h j hj
  · have hle : 2 ^ n ≤ 2 ^ j := Nat.pow_le_pow_right (by decide) (Nat.le_of_not_lt hj)
    rw [Nat.testBit_lt_two_pow (Nat.lt_of_lt_of_le ha hle),
      Nat.testBit_lt_two_pow (Nat.lt_of_lt_of_le hb hle)]

theorem not_comparable_of_length_eq (a b : List Char) (hlen : a.length = b.length)
    (hne : a ≠ b) : ¬ Comparable a b := by
  rintro (h | h)
  · exact hne (h.eq_of_length hlen)
  · exact hne (h.eq_of_length hlen.symm).symm

theorem pairwise_map_range (f : Nat → List Char) (n m : Nat)
    (hlen : ∀ k, k < n → (f k).length = m)
    (hinj : ∀ a b, a < n → b < n → f a = f b → a = b) :
    ((List.range n).map f).Pairwise (fun a b => ¬ Comparable a b) := by
  rw [List.pairwise_map]
  refine List.Pairwise.imp_of_mem ?_ (List.pairwise_lt_range n)
  intro a b ha hb hab
  rw [List.mem_range] at ha hb
  apply not_comparable_of_length_eq _ _ (by rw [hlen a ha, hlen b hb])
  intro e
  have := hinj a b ha hb e
  omega

theorem getD_length_le (ls : List (List Char)) (i m : Nat) (h : ∀ l ∈ ls, l.length ≤ m) :
    (ls.getD i []).length ≤ m := by
  rw [List.getD_eq_getElem?_getD]
  cases hi : ls[i]? with
  | none => simp
  | some l => exact h l (List.getElem?_mem hi)

theorem sampleLines_ok : LinesOK sampleLines := by
  have hmem : ∀ l ∈ sampleLines, l.length = 8 ∧ ∀ c ∈ l, isBinary c := by
    intro l hl
    obtain ⟨k, -, rfl⟩ := List.mem_map.1 hl
    exact ⟨binaryCode_length 8 k, binaryCode_binary 8 k⟩
  refine ⟨?_, ?_, ?_⟩
  · intro l hl
    obtain ⟨h1, h2⟩ := hmem l hl
    exact ⟨by rw [h1]; decide, h2⟩
  · exact pairwise_map_range _ 256 8 (fun k _ => binaryCode_length 8 k)
      (fun a b ha hb e => binaryCode_inj 8 a b ha hb e)
  · apply getD_length_le
    intro l hl
    rw [(hmem l hl).1]
    decide

theorem sampleLines_length : sampleLines.length = CODE_ROWS := by
  simp [sampleLines, CODE_ROWS]

/-- A line that starts with a zero, followed by the 255 lines that start with a one, is an
acceptable sequence of lines. -/
theorem headed_lines_ok (z : List Char) (hlen : ('0' :: z).length ≤ CODE_MAX + 1)
    (hbin : ∀ c ∈ z, isBinary c) :
    LinesOK (('0' :: z) :: (List.range 255).map (fun k => '1' :: binaryCode 8 k)) := by
  have hmem : ∀ l ∈ (List.range 255).map (fun k => '1' :: binaryCode 8 k),
      l.length = 9 ∧ (∀ c ∈ l, isBinary c) ∧ ∃ t, l = '1' :: t := by
    intro l hl
    obtain ⟨k, -, rfl⟩ := List.mem_map.1 hl
    refine ⟨by rw [List.length_cons, binaryCode_length], ?_, _, rfl⟩
    intro c hc
    rcases List.mem_cons.1 hc with h | h
    · rw [h]; exact Or.inr rfl
    · exact binaryCode_binary 8 k c h
  refine ⟨?_, ?_, ?_⟩
  · intro l hl
    rcases List.mem_cons.1 hl with h | h
    · rw [h]
      refine ⟨hlen, ?_⟩
      intro c hc
      rcases List.mem_cons.1 hc with e | e
      · rw [e]; exact Or.inl rfl
      · exact hbin c e
    · obtain ⟨h1, h2, -⟩ := hmem l h
      exact ⟨by rw [h1]; decide, h2⟩
  · rw [List.pairwise_cons]
    constructor
    · intro l hl
      obtain ⟨-, -, t, rfl⟩ := hmem l hl
      rintro (h | h)
      · rw [List.cons_prefix_cons] at h
        exact absurd h.1 (by decide)
      · rw [List.cons_prefix_cons] at h
        exact absurd h.1 (by decide)
    · apply pairwise_map_range _ 255 9
      · intro k _
        rw [List.length_cons, binaryCode_length]
      · intro a b ha hb e
        simp only [List.cons.injEq, true_and] at e
        exact binaryCode_inj 8 a b (by omega) (by omega) e
  · have : (('0' :: z) :: (List.range 255).map (fun k => '1' :: binaryCode 8 k)).getD
        (CODE_ROWS - 1) [] =
        ((List.range 255).map (fun k => '1' :: binaryCode 8 k)).getD 254 [] := rfl
    rw [this]
    apply getD_length_le
    intro l hl
    rw [(hmem l hl).1]
    decide

theorem overlongLines_ok : LinesOK overlongLines :=
  headed_lines_ok (List.replicate 24 '0') (by decide)
    (fun c hc => by rw [List.eq_of_mem_replicate hc]; exact Or.inl rfl)

theorem overlongLines_length : overlongLines.length = CODE_ROWS := by
  simp [overlongLines, CODE_ROWS]

theorem skewLines_ok : LinesOK skewLines :=
  headed_lines_ok [] (by decide) (fun c hc => absurd hc (List.not_mem_nil c))

theorem skewLines_length : skewLines.length = CODE_ROWS := by
  simp [skewLines, CODE_ROWS]

/-! ### Lines of a text -/

theorem splitLines_line (l : List Char) (hl : ∀ c ∈ l, c ≠ '\n') :
    ∀ (cur rest : List Char),
      splitLines (l ++ '\n' :: rest) cur = (cur ++ l) :: splitLines rest [] := by
  induction l with
  | nil =>
    intro cur rest
    simp only [List.nil_append, splitLines, if_true, List.append_nil]
  | cons c l ih =>
    intro cur rest
    have hc := hl c (List.mem_cons_self c l)
    show splitLines (c :: (l ++ '\n' :: rest)) cur = _
    simp only [splitLines, if_neg hc]
    rw [ih (fun x hx => hl x (List.mem_cons_of_mem c hx))]
    simp only [List.append_assoc, List.singleton_append]

theorem textLines_unlines (ls : List (List Char)) (h : ∀ l ∈ ls, ∀ c ∈ l, c ≠ '\n') :
    textLines (unlines ls) = ls := by
  unfold textLines
  induction ls with
  | nil => rfl
  | cons l ls ih =>
    simp only [unlines]
    rw [splitLines_line l (h l (List.mem_cons_self l ls)), List.nil_append,
      ih (fun x hx => h x (List.mem_cons_of_mem l hx))]

theorem linesOK_no_newline (ls : List (List Char)) (h : LinesOK ls) :
    ∀ l ∈ ls, ∀ c ∈ l, c ≠ '\n' :=
  fun l hl c hc => isBinary_ne_newline c ((h.1 l hl).2 c hc)

theorem unlines_getLast (ls : List (List Char)) (h : ls ≠ []) :
    (unlines ls).getLast? = some '\n' := by
  obtain ⟨init, last, rfl⟩ : ∃ init last, ls = init ++ [last] :=
    ⟨ls.dropLast, ls.getLast h, (List.dropLast_append_getLast h).symm⟩
  rw [unlines_snoc, List.getLast?_append]
  rfl

theorem unlines_count (ls : List (List Char)) (h : ∀ l ∈ ls, ∀ c ∈ l, c ≠ '\n') :
    (unlines ls).count '\n' = ls.length := by
  induction ls with
  | nil => rfl
  | cons l ls ih =>
    have h1 : l.count '\n' = 0 :=
      List.count_eq_zero.2 (fun hm => h l (List.mem_cons_self l ls) '\n' hm rfl)
    simp only [unlines, List.count_append, List.count_cons_self, h1, List.length_cons,
      ih (fun x hx => h x (List.mem_cons_of_mem l hx))]
    omega

theorem mem_unlines (ls : List (List Char)) (c : Char) (h : c ∈ unlines ls) :
    c = '\n' ∨ ∃ l ∈ ls, c ∈ l := by
  induction ls with
  | nil => exact absurd h (List.not_mem_nil c)
  | cons l ls ih =>
    simp only [unlines, List.mem_append, List.mem_cons] at h
    rcases h with h | h | h
    · exact Or.inr ⟨l, List.mem_cons_self l ls, h⟩
    · exact Or.inl h
    · rcases ih h with e | ⟨x, hx, hc⟩
      · exact Or.inl e
      · exact Or.inr ⟨x, List.mem_cons_of_mem l hx, hc⟩

theorem mem_codeFrom (rs : List (List Char)) (c : Char) (h : c ∈ codeFrom rs) :
    ∃ l ∈ rs, c ∈ l := by
  induction rs with
  | nil => exact absurd h (List.not_mem_nil c)
  | cons l rs ih =>
    simp only [codeFrom] at h
    split at h
    · exact ⟨l, List.mem_cons_self l rs, h⟩
    · rcases List.mem_append.1 h with h | h
      · exact ⟨l, List.mem_cons_self l rs, h⟩
      · obtain ⟨x, hx, hc⟩ := ih h
        exact ⟨x, List.mem_cons_of_mem l hx, hc⟩

theorem lines_not_comparable (ls : List (List Char))
    (hpw : ls.Pairwise (fun a b => ¬ Comparable a b)) (i j : Nat) (a b : List Char)
    (hi : ls[i]? = some a) (hj : ls[j]? = some b) (hne : i ≠ j) : ¬ Comparable a b := by
  rw [List.pairwise_iff_getElem] at hpw
  obtain ⟨hi', rfl⟩ := List.getElem?_eq_some.1 hi
  obtain ⟨hj', rfl⟩ := List.getElem?_eq_some.1 hj
  rcases Nat.lt_or_gt_of_ne hne with h | h
  · exact hpw i j hi' hj' h
  · rw [comparable_comm]
    exact hpw j i hj' hi' h

/-- The string at row `i` of a loaded table starts with line `i` of the text. -/
theorem getCode_loaded (ls : List (List Char)) (hok : LinesOK ls) (i : Nat)
    (hi : i < ls.length) :
    getCode (tableOf ls) i = codeFrom (ls[i] :: ls.drop (i + 1)) ∧
      ls[i] <+: getCode (tableOf ls) i := by
  have h := getCode_tableOf ls i (Nat.le_of_lt hi) hok.1
  rw [List.drop_eq_getElem_cons hi] at h
  exact ⟨h, h ▸ codeFrom_starts _ _⟩

/-- A table that holds `CODE_ROWS` acceptable lines of at least one and at most `CODE_MAX`
characters is valid, and `getCode` returns the lines. -/
theorem validTable_tableOf (ls : List (List Char)) (hlen : ls.length = CODE_ROWS)
    (hok : LinesOK ls) (hshort : ∀ l ∈ ls, 1 ≤ l.length ∧ l.length ≤ CODE_MAX) :
    ValidTable (tableOf ls) ∧ ∀ i (hi : i < ls.length), getCode (tableOf ls) i = ls[i] := by
  have hget : ∀ i (hi : i < ls.length), getCode (tableOf ls) i = ls[i] := by
    intro i hi
    rw [(getCode_loaded ls hok i hi).1]
    exact codeFrom_short _ _ (hshort _ (List.getElem_mem hi)).2
  refine ⟨⟨?_, ?_⟩, hget⟩
  · intro i hi
    have hi' : i < ls.length := by omega
    rw [hget i hi']
    have hm := List.getElem_mem hi'
    exact ⟨(hshort _ hm).1, (hshort _ hm).2, (hok.1 _ hm).2⟩
  · intro i j hi hj hne hp
    have hi' : i < ls.length := by omega
    have hj' : j < ls.length := by omega
    rw [hget i hi', hget j hj'] at hp
    exact lines_not_comparable ls hok.2.1 i j _ _ (List.getElem?_eq_getElem hi')
      (List.getElem?_eq_getElem hj') hne (Or.inl hp)

theorem sampleCodes_valid : ValidTable sampleCodes := by
  refine (validTable_tableOf sampleLines sampleLines_length sampleLines_ok ?_).1
  intro l hl
  obtain ⟨k, -, rfl⟩ := List.mem_map.1 hl
  rw [binaryCode_length]
  decide

theorem sampleCodes_getCode (b : Nat) (hb : b < 256) :
    getCode sampleCodes b = binaryCode 8 b := by
  have hlen : b < sampleLines.length := by rw [sampleLines_length]; exact hb
  have h := (validTable_tableOf sampleLines sampleLines_length sampleLines_ok (by
    intro l hl
    obtain ⟨k, -, rfl⟩ := List.mem_map.1 hl
    rw [binaryCode_length]
    decide)).2 b hlen
  rw [show sampleCodes = tableOf sampleLines from rfl, h]
  simp [sampleLines]

theorem loadCodes_sample : loadCodes (unlines sampleLines) = LoadResult.ok sampleCodes :=
  (loadCodes_ok_iff _ _).2 ⟨sampleLines, sampleLines_length, sampleLines_ok, rfl, rfl⟩

/-! ### Claims about `loadCodes` -/

/-- C2: whenever `loadCodes` succeeds, no code of the table is a prefix of another; and a codes
text in which some line is a prefix of (or equal to) another line is not loaded: the run ends in
`codesError`, or in the store past the end of `codes` that a last row of `CODE_MAX + 1` characters
causes. -/
theorem loadCodes_prefix_free (text : List Char) :
    (∀ codes, loadCodes text = LoadResult.ok codes →
      ∀ i j, i < CODE_ROWS → j < CODE_ROWS → i ≠ j →
        ¬ (getCode codes i <+: getCode codes j)) ∧
    ((∃ (i j : Nat) (a b : List Char), i ≠ j ∧ (textLines text)[i]? = some a ∧ (textLines text)[j]? = some b ∧
        a <+: b) →
      ∀ codes, loadCodes text ≠ LoadResult.ok codes) := by
  constructor
  · intro codes h i j hi hj hne hp
    obtain ⟨ls, hlen, hok, -, rfl⟩ := (loadCodes_ok_iff _ _).1 h
    have hi' : i < ls.length := by omega
    have hj' : j < ls.length := by omega
    have h1 := (getCode_loaded ls hok i hi').2
    have h2 := (getCode_loaded ls hok j hj').2
    have := List.prefix_or_prefix_of_prefix (h1.trans hp) h2
    exact lines_not_comparable ls hok.2.1 i j _ _ (List.getElem?_eq_getElem hi')
      (List.getElem?_eq_getElem hj') hne this
  · rintro ⟨i, j, a, b, hne, ha, hb, hp⟩ codes h
    obtain ⟨ls, -, hok, rfl, -⟩ := (loadCodes_ok_iff _ _).1 h
    rw [textLines_unlines ls (linesOK_no_newline ls hok)] at ha hb
    exact lines_not_comparable ls hok.2.1 i j a b ha hb hne (Or.inl hp)

theorem loadCodes_prefix_free_witness :
    (∀ i j, i < CODE_ROWS → j < CODE_ROWS → i ≠ j →
      ¬ (getCode sampleCodes i <+: getCode sampleCodes j)) ∧
    ∀ codes, loadCodes ['0', '\n', '0', '1', '\n'] ≠ LoadResult.ok codes :=
  ⟨(loadCodes_prefix_free (unlines sampleLines)).1 sampleCodes loadCodes_sample,
   (loadCodes_prefix_free ['0', '\n', '0', '1', '\n']).2
     ⟨0, 1, ['0'], ['0', '1'], by decide, by decide, by decide, by decide⟩⟩

/-- C3, evaluated on a codes file whose first line has 25 characters: `loadCodes` succeeds, and
the code that `getCode (0)` returns has 34 characters, more than `CODE_MAX`. -/
theorem loadCodes_overlong_line :
    (textLines overlongText)[0]? = some (List.replicate 25 '0') ∧
    loadCodes overlongText = LoadResult.ok (tableOf overlongLines) ∧
    (getCode (tableOf overlongLines) 0).length = 34 := by
  refine ⟨?_, (loadCodes_ok_iff _ _).2 ⟨overlongLines, overlongLines_length, overlongLines_ok,
    rfl, rfl⟩, ?_⟩
  · rw [show overlongText = unlines overlongLines from rfl,
      textLines_unlines _ (linesOK_no_newline _ overlongLines_ok)]
    exact List.getElem?_cons_zero
  · have e : overlongLines = List.replicate 25 '0' :: ('1' :: binaryCode 8 0) ::
        ((List.range 254).map Nat.succ).map (fun k => '1' :: binaryCode 8 k) := by
      unfold overlongLines
      rw [show (255 : Nat) = 254 + 1 from rfl, List.range_succ_eq_map, List.map_cons]
    rw [getCode_tableOf overlongLines 0 (Nat.zero_le _) overlongLines_ok.1, List.drop_zero, e]
    have hz : ¬ ((List.replicate 25 '0').length < CODE_MAX + 1) := by
      rw [List.length_replicate]; decide
    have ho : ('1' :: binaryCode 8 0).length < CODE_MAX + 1 := by
      rw [List.length_cons, binaryCode_length]; decide
    rw [codeFrom, if_neg hz, codeFrom, if_pos ho, List.length_append, List.length_replicate,
      List.length_cons, binaryCode_length]

/-- C4: `loadCodes` succeeds only on a text of exactly `CODE_ROWS` lines, each ended by its
newline, with nothing after the last newline; so a text with another number of lines, or one that
does not end in a newline, is not loaded. -/
theorem loadCodes_line_count (text : List Char) :
    (∀ codes, loadCodes text = LoadResult.ok codes →
      (textLines text).length = CODE_ROWS ∧ text = unlines (textLines text) ∧
        text.count '\n' = CODE_ROWS) ∧
    ((textLines text).length ≠ CODE_ROWS ∨ text.getLast? ≠ some '\n' →
      ∀ codes, loadCodes text ≠ LoadResult.ok codes) := by
  have key : ∀ codes, loadCodes text = LoadResult.ok codes →
      (textLines text).length = CODE_ROWS ∧ text = unlines (textLines text) ∧
        text.getLast? = some '\n' ∧ text.count '\n' = CODE_ROWS := by
    intro codes h
    obtain ⟨ls, hlen, hok, rfl, -⟩ := (loadCodes_ok_iff _ _).1 h
    have hnn := linesOK_no_newline ls hok
    rw [textLines_unlines ls hnn]
    refine ⟨hlen, rfl, unlines_getLast ls ?_, ?_⟩
    · intro e; rw [e] at hlen; exact absurd hlen (by decide)
    · rw [← hlen]
      exact unlines_count ls hnn
  constructor
  · intro codes h
    obtain ⟨h1, h2, -, h4⟩ := key codes h
    exact ⟨h1, h2, h4⟩
  · intro hbad codes h
    obtain ⟨h1, -, h3, -⟩ := key codes h
    rcases hbad with hb | hb
    · exact hb h1
    · exact hb h3

theorem loadCodes_line_count_witness :
    ((textLines (unlines sampleLines)).length = CODE_ROWS ∧
      unlines sampleLines = unlines (textLines (unlines sampleLines)) ∧
        (unlines sampleLines).count '\n' = CODE_ROWS) ∧
    ∀ codes, loadCodes ['0', '\n', '1', '0'] ≠ LoadResult.ok codes :=
  ⟨(loadCodes_line_count (unlines sampleLines)).1 sampleCodes loadCodes_sample,
   (loadCodes_line_count ['0', '\n', '1', '0']).2 (Or.inl (by decide))⟩

/-- C5: a codes text that holds a character other than `'0'`, `'1'` and the newline, at any
position, is not loaded; and every code of a table that `loadCodes` loaded consists of `'0'` and
`'1'` only. -/
theorem loadCodes_alphabet (text : List Char) :
    ((∃ c ∈ text, c ≠ '0' ∧ c ≠ '1' ∧ c ≠ '\n') →
      ∀ codes, loadCodes text ≠ LoadResult.ok codes) ∧
    (∀ codes, loadCodes text = LoadResult.ok codes →
      ∀ i, i < CODE_ROWS → ∀ c ∈ getCode codes i, isBinary c) := by
  constructor
  · rintro ⟨c, hc, h0, h1, hn⟩ codes h
    obtain ⟨ls, -, hok, rfl, -⟩ := (loadCodes_ok_iff _ _).1 h
    rcases mem_unlines ls c hc with e | ⟨l, hl, hcl⟩
    · exact hn e
    · rcases (hok.1 l hl).2 c hcl with e | e
      · exact h0 e
      · exact h1 e
  · intro codes h i hi c hc
    obtain ⟨ls, hlen, hok, -, rfl⟩ := (loadCodes_ok_iff _ _).1 h
    rw [getCode_tableOf ls i (by omega) hok.1] at hc
    obtain ⟨l, hl, hcl⟩ := mem_codeFrom _ c hc
    exact (hok.1 l (List.mem_of_mem_drop hl)).2 c hcl

theorem loadCodes_alphabet_witness :
    (∀ codes, loadCodes ['0', '2', '\n'] ≠ LoadResult.ok codes) ∧
    ∀ i, i < CODE_ROWS → ∀ c ∈ getCode sampleCodes i, isBinary c :=
  ⟨(loadCodes_alphabet ['0', '2', '\n']).1 ⟨'2', by decide, by decide, by decide, by decide⟩,
   (loadCodes_alphabet (unlines sampleLines)).2 sampleCodes loadCodes_sample⟩

/-- The table `sampleCodes` classifies the candidate `0100000`, a proper prefix of the code of
byte 65. -/
theorem lookupCode_classification_witness :
    (∀ b, b < CODE_ROWS →
      (lookupCode sampleCodes (binaryCode 7 32) = (b : Int) ↔
        binaryCode 7 32 = getCode sampleCodes b)) ∧
    (lookupCode sampleCodes (binaryCode 7 32) = CODE_PREFIX ↔
      (∃ b, b < CODE_ROWS ∧ binaryCode 7 32 <+: getCode sampleCodes b ∧
        binaryCode 7 32 ≠ getCode sampleCodes b) ∧
        ∀ b, b < CODE_ROWS → binaryCode 7 32 ≠ getCode sampleCodes b) ∧
    (lookupCode sampleCodes (binaryCode 7 32) = CODE_INVALID ↔
      ∀ b, b < CODE_ROWS → ¬ (binaryCode 7 32 <+: getCode sampleCodes b)) ∧
    ((∃ b, b < CODE_ROWS ∧ lookupCode sampleCodes (binaryCode 7 32) = (b : Int)) ∨
      lookupCode sampleCodes (binaryCode 7 32) = CODE_PREFIX ∨
      lookupCode sampleCodes (binaryCode 7 32) = CODE_INVALID) ∧
    ((∀ b : Nat, (b : Int) ≠ CODE_PREFIX ∧ (b : Int) ≠ CODE_INVALID) ∧
      CODE_PREFIX ≠ CODE_INVALID) ∧
    (∀ b, b < CODE_ROWS → lookupCode sampleCodes (getCode sampleCodes b) = (b : Int)) :=
  lookupCode_classification sampleCodes sampleCodes_valid (binaryCode 7 32)

/-! ### Loading and saving a bit buffer -/

theorem appendBits_append (xs ys : List Bool) : ∀ (b : BitBuffer),
    appendBits b (xs ++ ys) =
      match appendBits b xs with
      | none => none
      | some b' => appendBits b' ys := by
  induction xs with
  | nil => intro b; rfl
  | cons x xs ih =>
    intro b
    show appendBits b (x :: (xs ++ ys)) = _
    simp only [appendBits]
    cases appendBit b x with
    | none => rfl
    | some b1 => exact ih b1

theorem appendBit_le (b b' : BitBuffer) (v : Bool) (h : appendBit b v = some b') :
    b'.bitCount ≤ INT_MAX := by
  unfold appendBit at h
  by_cases h1 : INT_MAX < b.cap * BYTE_SIZE
  · simp [h1] at h
  · simp only [h1, if_false] at h
    generalize (if b.bitCount ≥ b.cap * BYTE_SIZE then
      (if INT_MAX < b.cap + 1 then none else some (growBuffer b)) else some b) = g at h
    cases g with
    | none => simp at h
    | some b1 =>
      simp only at h
      cases hs : setBit b1 b1.bitCount v with
      | none => rw [hs] at h; simp at h
      | some b2 =>
        rw [hs] at h
        simp only at h
        by_cases h2 : INT_MAX < b2.bitCount + 1
        · simp [h2] at h
        · simp only [h2, if_false, Option.some.injEq] at h
          rw [← h]
          show b2.bitCount + 1 ≤ INT_MAX
          omega

theorem appendBits_le (vs : List Bool) : ∀ (b b' : BitBuffer), b.bitCount ≤ INT_MAX →
    appendBits b vs = some b' → b'.bitCount ≤ INT_MAX := by
  induction vs with
  | nil =>
    intro b b' hb h
    simp only [appendBits, Option.some.injEq] at h
    rw [← h]; exact hb
  | cons v vs ih =>
    intro b b' _ h
    simp only [appendBits] at h
    cases h1 : appendBit b v with
    | none => rw [h1] at h; exact absurd h (by simp)
    | some b1 =>
      rw [h1] at h
      exact ih b1 b' (appendBit_le b b1 v h1) h

theorem byteBits_eq (c : Nat) :
    byteBits c = [c.testBit 7, c.testBit 6, c.testBit 5, c.testBit 4, c.testBit 3, c.testBit 2,
      c.testBit 1, c.testBit 0] := by
  unfold byteBits
  have : List.range' 1 BYTE_SIZE = [1, 2, 3, 4, 5, 6, 7, 8] := by decide
  rw [this]
  simp only [List.map_cons, List.map_nil, BYTE_SIZE, and_pow_shiftRight]

theorem byteBits_getElem? (c j : Nat) :
    (byteBits c)[j]? = if j < 8 then some (c.testBit (7 - j)) else none := by
  rw [byteBits_eq]
  match j with
  | 0 => rfl
  | 1 => rfl
  | 2 => rfl
  | 3 => rfl
  | 4 => rfl
  | 5 => rfl
  | 6 => rfl
  | 7 => rfl
  | j + 8 =>
    have : ¬ (j + 8 < 8) := by omega
    simp [this]

theorem byteBits_length (c : Nat) : (byteBits c).length = 8 := by
  rw [byteBits_eq]; rfl

theorem bitAt_cons (c : Nat) (rest : List Nat) (j : Nat) :
    bitAt (c :: rest) j = if j < 8 then c.testBit (7 - j) else bitAt rest (j - 8) := by
  unfold bitAt
  by_cases h : j < 8
  · have h0 : j / 8 = 0 := by omega
    have h1 : j % 8 = j := by omega
    simp [h, h0, h1]
  · obtain ⟨k, hk⟩ : ∃ k, j / 8 = k + 1 := ⟨j / 8 - 1, by omega⟩
    have h1 : (j - 8) / 8 = k := by omega
    have h2 : (j - 8) % 8 = j % 8 := by omega
    simp [h, hk, h1, h2]

theorem bitAt_nil (j : Nat) : bitAt [] j = false := by
  unfold bitAt
  simp

theorem fileBits_length (file : List Nat) : (fileBits file).length = 8 * file.length := by
  induction file with
  | nil => rfl
  | cons c rest ih =>
    simp only [fileBits, List.length_append, byteBits_length, ih, List.length_cons]
    omega

theorem fileBits_getElem? (file : List Nat) : ∀ (j : Nat),
    (fileBits file)[j]? = if j < 8 * file.length then some (bitAt file j) else none := by
  induction file with
  | nil => intro j; simp [fileBits]
  | cons c rest ih =>
    intro j
    simp only [fileBits, List.length_cons]
    by_cases h : j < 8
    · rw [List.getElem?_append_left (by rw [byteBits_length]; exact h), byteBits_getElem?,
        if_pos h, if_pos (by omega), bitAt_cons, if_pos h]
    · rw [List.getElem?_append_right (by rw [byteBits_length]; omega), byteBits_length, ih,
        bitAt_cons, if_neg h]
      by_cases h2 : j - 8 < 8 * rest.length
      · rw [if_pos h2, if_pos (by omega)]
      · rw [if_neg h2, if_neg (by omega)]

theorem bitAt_of_length_le (data : List Nat) (j : Nat) (h : data.length ≤ j / 8) :
    bitAt data j = false := by
  unfold bitAt
  simp [List.getD_eq_getElem?_getD, List.getElem?_eq_none h]

theorem bitAt_makeBitBuffer (j : Nat) : bitAt makeBitBuffer.data j = false := by
  unfold bitAt makeBitBuffer
  simp only [List.getD_eq_getElem?_getD, List.getElem?_replicate]
  split <;> simp

theorem loadBitsLoop_eq (file : List Nat) : ∀ (b : BitBuffer),
    loadBitsLoop b file = appendBits b (fileBits file) := by
  induction file with
  | nil => intro b; rfl
  | cons c rest ih =>
    intro b
    simp only [loadBitsLoop, fileBits, appendBits_append]
    cases appendBits b (byteBits c) with
    | none => rfl
    | some b1 => exact ih b1

/-- What `loadBitBuffer` returns: eight bits per byte of the file, most significant bit first. -/
theorem loadBitBuffer_spec (file : List Nat) (lb : BitBuffer)
    (h : loadBitBuffer file = some lb) :
    lb.Inv ∧ lb.bitCount = 8 * file.length ∧ ∀ j, bitAt lb.data j = bitAt file j := by
  unfold loadBitBuffer at h
  rw [loadBitsLoop_eq] at h
  obtain ⟨hinv, hbc, hbit⟩ := appendBits_spec _ makeBitBuffer lb makeBitBuffer_inv h
  have h0 : makeBitBuffer.bitCount = 0 := rfl
  rw [h0, Nat.zero_add, fileBits_length] at hbc
  refine ⟨hinv, hbc, ?_⟩
  intro j
  rw [hbit j, h0, if_neg (Nat.not_lt_zero j), Nat.sub_zero, fileBits_getElem?,
    bitAt_makeBitBuffer]
  by_cases hj : j < 8 * file.length
  · rw [if_pos hj]; rfl
  · rw [if_neg hj, bitAt_of_length_le file j (by omega)]; rfl

theorem loadBitBuffer_defined (file : List Nat) (h : 8 * file.length ≤ INT_MAX - 6) :
    ∃ lb, loadBitBuffer file = some lb := by
  unfold loadBitBuffer
  rw [loadBitsLoop_eq]
  apply appendBits_defined _ _ makeBitBuffer_inv
  rw [fileBits_length]
  simpa [makeBitBuffer] using h

theorem loadBitBuffer_none (file : List Nat) (h : INT_MAX < 8 * file.length) :
    loadBitBuffer file = none := by
  cases hl : loadBitBuffer file with
  | none => rfl
  | some lb =>
    have h1 := (loadBitBuffer_spec file lb hl).2.1
    unfold loadBitBuffer at hl
    rw [loadBitsLoop_eq] at hl
    have h2 := appendBits_le _ makeBitBuffer lb (by decide) hl
    omega

theorem bitAt_take (data : List Nat) (m j : Nat) (h : j / 8 < m) :
    bitAt (data.take m) j = bitAt data j := by
  unfold bitAt
  simp only [List.getD_eq_getElem?_getD, List.getElem?_take_of_lt h]

theorem saveBitBuffer_spec (b : BitBuffer) (hinv : b.Inv) :
    (saveBitBuffer b).length = (b.bitCount + 7) / 8 ∧
      ∀ j, j < b.bitCount → bitAt (saveBitBuffer b) j = bitAt b.data j := by
  obtain ⟨hwf, hle, -⟩ := hinv
  unfold BitBuffer.WF at hwf
  unfold saveBitBuffer
  simp only [BYTE_SIZE]
  constructor
  · rw [List.length_take, hwf]
    split <;> omega
  · intro j hj
    apply bitAt_take
    split <;> omega

/-! ### The encoder -/

theorem encodeLoop_eq (codes : List Char) (input : List (Fin 256)) :
    ∀ (b : BitBuffer) (count : Nat), count < UINT_MOD →
      encodeLoop codes b count input =
        match appendBits b (codeBits codes input) with
        | none => none
        | some b' => some (b', (count + input.length) % UINT_MOD) := by
  have hM : UINT_MOD = 4294967296 := by decide
  induction input with
  | nil =>
    intro b count hc
    simp only [encodeLoop, codeBits, appendBits, List.length_nil, Nat.add_zero,
      Nat.mod_eq_of_lt hc]
  | cons byte rest ih =>
    intro b count hc
    simp only [encodeLoop, codeBits, appendBits_append]
    cases appendBits b ((getCode codes byte.val).map codeBit) with
    | none => rfl
    | some b1 =>
      simp only
      rw [ih b1 ((count + 1) % UINT_MOD) (Nat.mod_lt _ (by rw [hM]; decide))]
      have : ((count + 1) % UINT_MOD + rest.length) % UINT_MOD =
          (count + (byte :: rest).length) % UINT_MOD := by
        rw [List.length_cons, hM]; omega
      rw [this]

theorem writeSizeLoop_spec (count : Nat) : ∀ (n i : Nat) (b : BitBuffer), 1 ≤ i →
    i + n = SIZE_FIELD + 1 → SIZE_FIELD ≤ 8 * b.data.length →
    ∃ b', writeSizeLoop count n i b = some b' ∧ b'.bitCount = b.bitCount ∧ b'.cap = b.cap ∧
      b'.data.length = b.data.length ∧
      ∀ j, bitAt b'.data j =
        if i - 1 ≤ j ∧ j < SIZE_FIELD then count.testBit (SIZE_FIELD - 1 - j)
        else bitAt b.data j := by
  intro n
  induction n with
  | zero =>
    intro i b _ hin _
    refine ⟨b, rfl, rfl, rfl, rfl, ?_⟩
    intro j
    have : ¬ (i - 1 ≤ j ∧ j < SIZE_FIELD) := by omega
    rw [if_neg this]
  | succ n ih =>
    intro i b hi hin hlen
    have hS : SIZE_FIELD = 32 := rfl
    rw [hS] at hin hlen
    obtain ⟨b1, hs, h1, h2, h3, h4⟩ := setBit_spec b (i - 1)
      (((count &&& (1 <<< (SIZE_FIELD - i))) >>> (SIZE_FIELD - i)) != 0) (by omega)
    obtain ⟨b', hw, g1, g2, g3, g4⟩ := ih (i + 1) b1 (by omega) (by rw [hS]; omega)
      (by rw [hS, h3]; exact hlen)
    refine ⟨b', ?_, by rw [g1, h1], by rw [g2, h2], by rw [g3, h3], ?_⟩
    · simp only [writeSizeLoop, hs, hw]
    · intro j
      rw [g4 j, h4 j, and_pow_shiftRight]
      simp only [Nat.add_sub_cancel, hS]
      by_cases hj : j = i - 1
      · subst hj
        have e1 : ¬ (i ≤ i - 1 ∧ i - 1 < 32) := by omega
        have e2 : i - 1 ≤ i - 1 ∧ i - 1 < 32 := by omega
        have e3 : 32 - i = 32 - 1 - (i - 1) := by omega
        rw [if_neg e1, if_pos e2, if_pos rfl, e3]
      · by_cases hr : i ≤ j ∧ j < 32
        · rw [if_pos hr, if_pos (by omega)]
        · rw [if_neg hr, if_neg hj, if_neg (by omega)]

theorem bitAt_replicate_false (k : Nat) (data : List Nat) (j : Nat) :
    ((List.replicate k false)[j]?).getD (bitAt data j) = if j < k then false else bitAt data j := by
  rw [List.getElem?_replicate]
  split <;> rfl

/-- What `deflate` builds: the size field holds the number of bytes modulo `2 ^ 32`, most
significant bit first; the bits of the codes follow; every bit after them is zero. -/
theorem deflateBuffer_spec (codes : List Char) (input : List (Fin 256)) (buf : BitBuffer)
    (h : deflateBuffer codes input = some buf) :
    buf.Inv ∧ buf.bitCount = SIZE_FIELD + (codeBits codes input).length ∧
      buf.bitCount ≤ INT_MAX ∧
      ∀ j, bitAt buf.data j =
        if j < SIZE_FIELD then (input.length % UINT_MOD).testBit (SIZE_FIELD - 1 - j)
        else ((codeBits codes input)[j - SIZE_FIELD]?).getD false := by
  have hS : SIZE_FIELD = 32 := rfl
  unfold deflateBuffer at h
  cases h0 : appendBits makeBitBuffer (List.replicate SIZE_FIELD false) with
  | none => rw [h0] at h; exact absurd h (by simp)
  | some b0 =>
    rw [h0] at h
    simp only at h
    rw [encodeLoop_eq codes input b0 0 (by decide)] at h
    obtain ⟨hinv0, hbc0, hbit0⟩ := appendBits_spec _ makeBitBuffer b0 makeBitBuffer_inv h0
    have hm : makeBitBuffer.bitCount = 0 := rfl
    rw [hm, Nat.zero_add, List.length_replicate] at hbc0
    cases h1 : appendBits b0 (codeBits codes input) with
    | none => rw [h1] at h; exact absurd h (by simp)
    | some b1 =>
      rw [h1] at h
      simp only [Nat.zero_add] at h
      obtain ⟨hinv1, hbc1, hbit1⟩ := appendBits_spec _ b0 b1 hinv0 h1
      have hle1 : b1.bitCount ≤ INT_MAX :=
        appendBits_le _ b0 b1 (by rw [hbc0]; decide) h1
      have hlen1 : SIZE_FIELD ≤ 8 * b1.data.length := by
        have := hinv1.1
        have := hinv1.2.1
        unfold BitBuffer.WF at *
        omega
      obtain ⟨b2, hw, g1, g2, g3, g4⟩ :=
        writeSizeLoop_spec (input.length % UINT_MOD) SIZE_FIELD 1 b1 (Nat.le_refl 1) (by omega)
          hlen1
      rw [hw] at h
      injection h with h
      subst h
      refine ⟨?_, by rw [g1, hbc1, hbc0], by rw [g1]; exact hle1, ?_⟩
      · obtain ⟨a1, a2, a3⟩ := hinv1
        unfold BitBuffer.WF at a1
        exact ⟨by unfold BitBuffer.WF; rw [g3, g2]; exact a1, by rw [g1, g2]; exact a2,
          by rw [g1, g2]; exact a3⟩
      · intro j
        rw [g4 j]
        by_cases hj : j < SIZE_FIELD
        · rw [if_pos ⟨by omega, hj⟩, if_pos hj]
        · rw [if_neg (fun e => hj e.2), if_neg hj, hbit1 j, hbc0, if_neg hj, hbit0 j, hm,
            if_neg (Nat.not_lt_zero j), Nat.sub_zero, bitAt_replicate_false, if_neg hj,
            bitAt_makeBitBuffer]

theorem deflateBuffer_defined (codes : List Char) (input : List (Fin 256))
    (h : SIZE_FIELD + (codeBits codes input).length ≤ INT_MAX - 6) :
    ∃ buf, deflateBuffer codes input = some buf := by
  have hS : SIZE_FIELD = 32 := rfl
  have hm : makeBitBuffer.bitCount = 0 := rfl
  obtain ⟨b0, h0⟩ := appendBits_defined (List.replicate SIZE_FIELD false) makeBitBuffer
    makeBitBuffer_inv (by rw [hm, List.length_replicate]; omega)
  obtain ⟨hinv0, hbc0, -⟩ := appendBits_spec _ makeBitBuffer b0 makeBitBuffer_inv h0
  rw [hm, Nat.zero_add, List.length_replicate] at hbc0
  obtain ⟨b1, h1⟩ := appendBits_defined (codeBits codes input) b0 hinv0 (by rw [hbc0]; exact h)
  obtain ⟨hinv1, hbc1, -⟩ := appendBits_spec _ b0 b1 hinv0 h1
  have hlen1 : SIZE_FIELD ≤ 8 * b1.data.length := by
    have := hinv1.1
    have := hinv1.2.1
    unfold BitBuffer.WF at *
    omega
  obtain ⟨b2, hw, -⟩ :=
    writeSizeLoop_spec (input.length % UINT_MOD) SIZE_FIELD 1 b1 (Nat.le_refl 1) (by omega) hlen1
  refine ⟨b2, ?_⟩
  unfold deflateBuffer
  rw [h0]
  simp only
  rw [encodeLoop_eq codes input b0 0 (by decide), h1]
  simp only [Nat.zero_add]
  exact hw

/-! ### The size field read back -/

theorem shiftRight_step (k m : Nat) :
    ((k >>> (m + 1)) <<< 1) ||| (k.testBit m).toNat = k >>> m := by
  apply Nat.eq_of_testBit_eq
  intro j
  rw [Nat.testBit_or, Nat.testBit_shiftLeft, Nat.testBit_shiftRight, Nat.testBit_shiftRight,
    toNat_testBit]
  cases j with
  | zero => simp
  | succ j =>
    have : m + 1 + j = m + (j + 1) := by omega
    simp [this]

theorem readSizeLoop_spec (buf : BitBuffer) (k : Nat) (hk : k < UINT_MOD)
    (hbits : ∀ j, j < SIZE_FIELD → getBit buf j = some (k.testBit (SIZE_FIELD - 1 - j))) :
    ∀ (n i : Nat), i + n = SIZE_FIELD →
      readSizeLoop buf n i (k >>> (SIZE_FIELD - i)) = some k := by
  have hS : SIZE_FIELD = 32 := rfl
  intro n
  induction n with
  | zero =>
    intro i hi
    have : SIZE_FIELD - i = 0 := by omega
    simp only [readSizeLoop, this, Nat.shiftRight_zero]
  | succ n ih =>
    intro i hi
    have h1 : SIZE_FIELD - i = (SIZE_FIELD - 1 - i) + 1 := by omega
    have h2 : SIZE_FIELD - (i + 1) = SIZE_FIELD - 1 - i := by omega
    have hlt : k >>> (SIZE_FIELD - 1 - i) < UINT_MOD := by
      rw [Nat.shiftRight_eq_div_pow]
      exact Nat.lt_of_le_of_lt (Nat.div_le_self _ _) hk
    simp only [readSizeLoop, hbits i (by omega)]
    rw [h1, shiftRight_step, Nat.mod_eq_of_lt hlt, ← h2]
    exact ih (i + 1) (by omega)

/-! ### The decoding loop -/

theorem bitsArray_length (cand : List Char) (h : cand.length ≤ CODE_MAX + 1) :
    (bitsArray cand).length = CODE_MAX + 1 := by
  unfold bitsArray
  rw [List.length_append, List.length_replicate]
  omega

theorem bitsArray_set (cand : List Char) (c : Char) (h : cand.length < CODE_MAX + 1) :
    (bitsArray cand).set cand.length c = bitsArray (cand ++ [c]) := by
  unfold bitsArray
  obtain ⟨k, hk⟩ : ∃ k, CODE_MAX + 1 - cand.length = k + 1 :=
    ⟨CODE_MAX - cand.length, by omega⟩
  have hk' : CODE_MAX + 1 - (cand ++ [c]).length = k := by
    rw [List.length_append, List.length_singleton]; omega
  rw [hk, hk', List.set_append, if_neg (Nat.lt_irrefl _), Nat.sub_self, List.replicate_succ,
    List.set_cons_zero]
  simp only [List.append_assoc, List.singleton_append]

theorem cstr_bitsArray (cand : List Char) (h : ∀ c ∈ cand, isBinary c) :
    cstr (bitsArray cand) = cand := by
  unfold bitsArray
  rw [cstr_binary_append cand _ h, cstr_replicate_NUL, List.append_nil]

theorem NUL_mem_bitsArray (cand : List Char) (h : cand.length < CODE_MAX + 1) :
    NUL ∈ bitsArray cand := by
  unfold bitsArray
  obtain ⟨k, hk⟩ : ∃ k, CODE_MAX + 1 - cand.length = k + 1 :=
    ⟨CODE_MAX - cand.length, by omega⟩
  rw [hk, List.replicate_succ]
  exact List.mem_append_right _ (List.mem_cons_self _ _)

theorem decodeChar_codeBit (c : Char) (h : isBinary c) :
    (if codeBit c = false then '0' else '1') = c := by
  rcases h with h | h <;> subst h <;> rfl

theorem isBinary_of_initial (p w : List Char) (hp : p <+: w) (hw : ∀ c ∈ w, isBinary c) :
    ∀ c ∈ p, isBinary c := fun c hc => hw c (hp.subset hc)

/-- One iteration on a bit that makes the candidate a proper prefix of a code: the candidate
grows. -/
theorem decodeLoop_grow (codes : List Char) (hv : ValidTable codes) (buf : BitBuffer)
    (count n i cc : Nat) (out : List Nat) (p : List Char) (c : Char) (b : Nat)
    (hb : b < CODE_ROWS) (hpre : p ++ [c] <+: getCode codes b)
    (hlt : (p ++ [c]).length < (getCode codes b).length)
    (hbit : getBit buf i = some (codeBit c)) (hcc : cc < count) :
    decodeLoop codes buf count (n + 1) i (decodeState p cc out) =
      decodeLoop codes buf count n (i + 1) (decodeState (p ++ [c]) cc out) := by
  obtain ⟨hw1, hw2, hwbin⟩ := hv.1 b hb
  have hpc : ∀ x ∈ p ++ [c], isBinary x := isBinary_of_initial _ _ hpre hwbin
  have hc : isBinary c := hpc c (List.mem_append_right _ (List.mem_singleton.2 rfl))
  rw [List.length_append, List.length_singleton] at hlt
  have hplen : p.length < CODE_MAX + 1 := by omega
  have hne : ∀ k, k < CODE_ROWS → p ++ [c] ≠ getCode codes k := by
    intro k hk e
    by_cases hkb : k = b
    · subst hkb
      rw [← e, List.length_append, List.length_singleton] at hlt
      omega
    · exact hv.2 k b hk hb hkb (e ▸ hpre)
  have hlook : lookupCode codes (p ++ [c]) = CODE_PREFIX :=
    lookupCode_proper codes (p ++ [c]) b hb hpre hne
  have hnul : NUL ∈ bitsArray (p ++ [c]) :=
    NUL_mem_bitsArray _ (by rw [List.length_append, List.length_singleton]; omega)
  simp only [decodeLoop, decodeState, hcc, if_true, hbit, bitsArray_length p (Nat.le_of_lt hplen),
    hplen, decodeChar_codeBit c hc, bitsArray_set p c hplen, hnul, cstr_bitsArray _ hpc, hlook,
    List.length_append, List.length_singleton]
  rfl

/-- One iteration on the bit that completes a code: the byte is written and the candidate is
reset. -/
theorem decodeLoop_match (codes : List Char) (hv : ValidTable codes) (buf : BitBuffer)
    (count n i cc : Nat) (out : List Nat) (p : List Char) (c : Char) (b : Nat)
    (hb : b < CODE_ROWS) (heq : p ++ [c] = getCode codes b)
    (hbit : getBit buf i = some (codeBit c)) (hcc : cc < count) :
    decodeLoop codes buf count (n + 1) i (decodeState p cc out) =
      decodeLoop codes buf count n (i + 1) (decodeState [] (cc + 1) (out ++ [b])) := by
  obtain ⟨hw1, hw2, hwbin⟩ := hv.1 b hb
  have hpc : ∀ x ∈ p ++ [c], isBinary x := by rw [heq]; exact hwbin
  have hc : isBinary c := hpc c (List.mem_append_right _ (List.mem_singleton.2 rfl))
  have hlen : p.length + 1 = (getCode codes b).length := by
    rw [← heq, List.length_append, List.length_singleton]
  have hplen : p.length < CODE_MAX + 1 := by omega
  have hlook : lookupCode codes (p ++ [c]) = (b : Int) := by
    rw [heq]; exact lookupCode_exact codes hv b hb
  have hnul : NUL ∈ bitsArray (p ++ [c]) :=
    NUL_mem_bitsArray _ (by rw [List.length_append, List.length_singleton]; omega)
  have hR : CODE_ROWS = 256 := rfl
  have hmod : (b : Int).toNat % 256 = b := by
    rw [Int.toNat_ofNat]; omega
  simp only [decodeLoop, decodeState, hcc, if_true, hbit, bitsArray_length p (Nat.le_of_lt hplen),
    hplen, decodeChar_codeBit c hc, bitsArray_set p c hplen, hnul, cstr_bitsArray _ hpc, hlook,
    hmod]
  have e1 : (b : Int) ≥ 0 := Int.ofNat_nonneg b
  rw [if_pos e1]
  rfl

/-- The iterations on the remaining bits `s` of a code whose first part `p` is the candidate. -/
theorem decodeLoop_code (codes : List Char) (hv : ValidTable codes) (buf : BitBuffer)
    (count cc : Nat) (out : List Nat) (b : Nat) (hb : b < CODE_ROWS) (hcc : cc < count) :
    ∀ (s p : List Char) (m i : Nat), s ≠ [] → p ++ s = getCode codes b →
      (∀ j v, (s.map codeBit)[j]? = some v → getBit buf (i + j) = some v) →
      decodeLoop codes buf count (m + s.length) i (decodeState p cc out) =
        decodeLoop codes buf count m (i + s.length) (decodeState [] (cc + 1) (out ++ [b])) := by
  intro s
  induction s with
  | nil => intro p m i h; exact absurd rfl h
  | cons c s ih =>
    intro p m i _ heq hbits
    have hbit : getBit buf i = some (codeBit c) := hbits 0 (codeBit c) (by rw [List.map_cons, List.getElem?_cons_zero])
    by_cases hs : s = []
    · subst hs
      exact decodeLoop_match codes hv buf count m i cc out p c b hb heq hbit hcc
    · have hpre : p ++ [c] <+: getCode codes b := by
        rw [← heq]
        exact ⟨s, by simp⟩
      have hlt : (p ++ [c]).length < (getCode codes b).length := by
        rw [← heq]
        have : 0 < s.length := List.length_pos.2 hs
        simp only [List.length_append, List.length_cons, List.length_nil]
        omega
      have e : m + (c :: s).length = (m + s.length) + 1 := by
        rw [List.length_cons]; omega
      rw [e, decodeLoop_grow codes hv buf count _ i cc out p c b hb hpre hlt hbit hcc,
        ih (p ++ [c]) m (i + 1) hs (by rw [← heq]; simp)
          (fun j v hj => by
            have := hbits (j + 1) v (by simpa using hj)
            rw [show i + 1 + j = i + (j + 1) by omega]
            exact this)]
      rw [List.length_cons, show i + 1 + s.length = i + (s.length + 1) by omega]

/-- The iterations on bits that stop inside a code: the input ends before the byte is complete,
and `inflate` reports an invalid input file. -/
theorem decodeLoop_truncated (codes : List Char) (hv : ValidTable codes) (buf : BitBuffer)
    (count cc : Nat) (out : List Nat) (b : Nat) (hb : b < CODE_ROWS) (hcc : cc < count) :
    ∀ (t p : List Char) (i : Nat), p ++ t <+: getCode codes b →
      (p ++ t).length < (getCode codes b).length →
      (∀ j v, (t.map codeBit)[j]? = some v → getBit buf (i + j) = some v) →
      decodeLoop codes buf count t.length i (decodeState p cc out) =
        InflateResult.invalidInput out := by
  intro t
  induction t with
  | nil =>
    intro p i _ _ _
    simp only [List.length_nil, decodeLoop, decodeFinish, decodeState, hcc, if_true]
  | cons c t ih =>
    intro p i hpre hlt hbits
    have hbit : getBit buf i = some (codeBit c) := hbits 0 (codeBit c) (by rw [List.map_cons, List.getElem?_cons_zero])
    have hpre1 : p ++ [c] <+: getCode codes b :=
      List.IsPrefix.trans ⟨t, by simp⟩ hpre
    have hlt1 : (p ++ [c]).length < (getCode codes b).length := by
      simp only [List.length_append, List.length_cons, List.length_nil] at hlt ⊢
      omega
    rw [List.length_cons,
      decodeLoop_grow codes hv buf count _ i cc out p c b hb hpre1 hlt1 hbit hcc]
    exact ih (p ++ [c]) (i + 1) (by simpa using hpre) (by simpa using hlt)
      (fun j v hj => by
        have := hbits (j + 1) v (by simpa using hj)
        rw [show i + 1 + j = i + (j + 1) by omega]
        exact this)

theorem decodeLoop_done (codes : List Char) (buf : BitBuffer) (count : Nat) (out : List Nat)
    (s : DecodeState) (hs : s.charcount = count) (ho : s.output = out) :
    ∀ (m i : Nat), decodeLoop codes buf count m i s = InflateResult.success out := by
  intro m i
  have : ¬ (s.charcount < count) := by omega
  cases m with
  | zero => simp only [decodeLoop, decodeFinish, this, if_false, ho]
  | succ m => simp only [decodeLoop, decodeFinish, this, if_false, ho]

theorem codeBits_cons_getElem?_left (codes : List Char) (byte : Fin 256) (rest : List (Fin 256))
    (j : Nat) (v : Bool) (h : ((getCode codes byte.val).map codeBit)[j]? = some v) :
    (codeBits codes (byte :: rest))[j]? = some v := by
  have hj : j < ((getCode codes byte.val).map codeBit).length := by
    obtain ⟨hj, -⟩ := List.getElem?_eq_some.1 h
    exact hj
  simp only [codeBits]
  rw [List.getElem?_append_left hj]
  exact h

theorem codeBits_cons_getElem?_right (codes : List Char) (byte : Fin 256)
    (rest : List (Fin 256)) (j : Nat) :
    (codeBits codes (byte :: rest))[(getCode codes byte.val).length + j]? =
      (codeBits codes rest)[j]? := by
  simp only [codeBits]
  rw [List.getElem?_append_right (by rw [List.length_map]; omega), List.length_map,
    Nat.add_sub_cancel_left]

/-- The iterations on the bits of the codes of the bytes `B`: the bytes are written one after the
other. -/
theorem decodeLoop_all (codes : List Char) (hv : ValidTable codes) (buf : BitBuffer)
    (count : Nat) : ∀ (B : List (Fin 256)) (m i cc : Nat) (out : List Nat),
      cc + B.length ≤ count →
      (∀ j v, (codeBits codes B)[j]? = some v → getBit buf (i + j) = some v) →
      decodeLoop codes buf count (m + (codeBits codes B).length) i (decodeState [] cc out) =
        decodeLoop codes buf count m (i + (codeBits codes B).length)
          (decodeState [] (cc + B.length) (out ++ B.map (fun b => b.val))) := by
  intro B
  induction B with
  | nil =>
    intro m i cc out _ _
    simp only [codeBits, List.length_nil, Nat.add_zero, List.map_nil, List.append_nil]
  | cons byte rest ih =>
    intro m i cc out hcc hbits
    have hb : byte.val < CODE_ROWS := byte.isLt
    obtain ⟨hw1, -, -⟩ := hv.1 byte.val hb
    have hne : getCode codes byte.val ≠ [] := by
      intro e; rw [e] at hw1; exact absurd hw1 (by decide)
    simp only [List.length_cons] at hcc
    have hlen : (codeBits codes (byte :: rest)).length =
        (codeBits codes rest).length + (getCode codes byte.val).length := by
      simp only [codeBits, List.length_append, List.length_map]; omega
    rw [hlen, ← Nat.add_assoc,
      decodeLoop_code codes hv buf count cc out byte.val hb (by omega) (getCode codes byte.val)
        [] (m + (codeBits codes rest).length) i hne rfl
        (fun j v hj => hbits j v (codeBits_cons_getElem?_left codes byte rest j v hj)),
      ih m (i + (getCode codes byte.val).length) (cc + 1) (out ++ [byte.val]) (by omega)
        (fun j v hj => by
          have := hbits ((getCode codes byte.val).length + j) v
            (by rw [codeBits_cons_getElem?_right]; exact hj)
          rw [Nat.add_assoc]; exact this)]
    have e1 : i + (getCode codes byte.val).length + (codeBits codes rest).length =
        i + ((codeBits codes rest).length + (getCode codes byte.val).length) := by omega
    have e2 : cc + 1 + rest.length = cc + (rest.length + 1) := by omega
    rw [e1, e2, List.length_cons, List.map_cons, List.append_assoc, List.singleton_append]

/-- The iterations on fewer bits than the codes of the bytes `B` take: after some of the bytes,
the bits end and `inflate` reports an invalid input file. -/
theorem decodeLoop_short (codes : List Char) (hv : ValidTable codes) (buf : BitBuffer)
    (count : Nat) : ∀ (B : List (Fin 256)) (n i cc : Nat) (out : List Nat),
      n < (codeBits codes B).length → cc + B.length ≤ count →
      (∀ j v, j < n → (codeBits codes B)[j]? = some v → getBit buf (i + j) = some v) →
      ∃ k, k < B.length ∧
        decodeLoop codes buf count n i (decodeState [] cc out) =
          InflateResult.invalidInput (out ++ (B.take k).map (fun b => b.val)) := by
  intro B
  induction B with
  | nil =>
    intro n i cc out hn _ _
    simp only [codeBits, List.length_nil] at hn
    omega
  | cons byte rest ih =>
    intro n i cc out hn hcc hbits
    have hb : byte.val < CODE_ROWS := byte.isLt
    obtain ⟨hw1, -, -⟩ := hv.1 byte.val hb
    have hne : getCode codes byte.val ≠ [] := by
      intro e; rw [e] at hw1; exact absurd hw1 (by decide)
    simp only [List.length_cons] at hcc
    have hlen : (codeBits codes (byte :: rest)).length =
        (codeBits codes rest).length + (getCode codes byte.val).length := by
      simp only [codeBits, List.length_append, List.length_map]; omega
    by_cases hle : (getCode codes byte.val).length ≤ n
    · obtain ⟨n', hn'⟩ : ∃ n', n = n' + (getCode codes byte.val).length :=
        ⟨n - (getCode codes byte.val).length, by omega⟩
      subst hn'
      rw [decodeLoop_code codes hv buf count cc out byte.val hb (by omega)
        (getCode codes byte.val) [] n' i hne rfl
        (fun j v hj => by
          have hj' : j < ((getCode codes byte.val).map codeBit).length :=
            (List.getElem?_eq_some.1 hj).1
          rw [List.length_map] at hj'
          exact hbits j v (by omega) (codeBits_cons_getElem?_left codes byte rest j v hj))]
      obtain ⟨k, hk, hres⟩ := ih n' (i + (getCode codes byte.val).length) (cc + 1)
        (out ++ [byte.val]) (by omega) (by omega)
        (fun j v hj hjv => by
          have := hbits ((getCode codes byte.val).length + j) v (by omega)
            (by rw [codeBits_cons_getElem?_right]; exact hjv)
          rw [Nat.add_assoc]; exact this)
      refine ⟨k + 1, by simp only [List.length_cons]; omega, ?_⟩
      rw [hres, List.take_succ_cons, List.map_cons, List.append_assoc, List.singleton_append]
    · have hlt : n < (getCode codes byte.val).length := Nat.lt_of_not_le hle
      have htl : ((getCode codes byte.val).take n).length = n := by
        rw [List.length_take]; omega
      have := decodeLoop_truncated codes hv buf count cc out byte.val hb (by omega)
        ((getCode codes byte.val).take n) [] i ⟨_, List.take_append_drop n _⟩
        (by rw [List.nil_append, htl]; exact hlt)
        (fun j v hj => by
          rw [List.map_take, List.getElem?_take] at hj
          split at hj
          · rename_i hjn
            exact hbits j v hjn (codeBits_cons_getElem?_left codes byte rest j v hj)
          · exact absurd hj (by simp))
      rw [htl] at this
      refine ⟨0, by simp only [List.length_cons]; omega, ?_⟩
      rw [this]
      simp

/-! ### The two programs together -/

theorem codeBits_length_ge (codes : List Char) (hv : ValidTable codes) (B : List (Fin 256)) :
    B.length ≤ (codeBits codes B).length := by
  induction B with
  | nil => exact Nat.le_refl _
  | cons byte rest ih =>
    obtain ⟨hw1, -, -⟩ := hv.1 byte.val byte.isLt
    simp only [codeBits, List.length_append, List.length_map, List.length_cons]
    omega

/-- The file that `deflate` writes, bit by bit. -/
theorem deflate_bits (codes : List Char) (B : List (Fin 256)) (file : List Nat)
    (h : deflate codes B = some file) :
    SIZE_FIELD + (codeBits codes B).length ≤ INT_MAX ∧
      file.length = (SIZE_FIELD + (codeBits codes B).length + 7) / 8 ∧
      (∀ j, j < SIZE_FIELD →
        bitAt file j = (B.length % UINT_MOD).testBit (SIZE_FIELD - 1 - j)) ∧
      ∀ j v, (codeBits codes B)[j]? = some v → bitAt file (SIZE_FIELD + j) = v := by
  unfold deflate at h
  cases hb : deflateBuffer codes B with
  | none => rw [hb] at h; exact absurd h (by simp)
  | some buf =>
    rw [hb] at h
    simp only [Option.some.injEq] at h
    obtain ⟨hinv, hbc, hle, hbit⟩ := deflateBuffer_spec codes B buf hb
    obtain ⟨hlen, hsave⟩ := saveBitBuffer_spec buf hinv
    rw [h] at hlen hsave
    refine ⟨by rw [← hbc]; exact hle, by rw [hlen, hbc], ?_, ?_⟩
    · intro j hj
      rw [hsave j (by omega), hbit j, if_pos hj]
    · intro j v hjv
      have hj : j < (codeBits codes B).length := (List.getElem?_eq_some.1 hjv).1
      rw [hsave _ (by omega), hbit, if_neg (by omega), Nat.add_sub_cancel_left, hjv]
      rfl

/-- On a file of at least four bytes that loads, `inflate` reads the size field and runs the
decoding loop on the remaining bits. -/
theorem inflate_eq_decodeLoop (codes : List Char) (file : List Nat) (lb : BitBuffer)
    (hl : loadBitBuffer file = some lb) (h4 : 4 ≤ file.length) (k : Nat) (hk : k < UINT_MOD)
    (hhead : ∀ j, j < SIZE_FIELD → bitAt file j = k.testBit (SIZE_FIELD - 1 - j)) :
    inflate codes file =
        decodeLoop codes lb k (8 * file.length - SIZE_FIELD) SIZE_FIELD (decodeState [] 0 []) ∧
      ∀ i, i < 8 * file.length → getBit lb i = some (bitAt file i) := by
  have hS : SIZE_FIELD = 32 := rfl
  obtain ⟨hinv, hbc, hbit⟩ := loadBitBuffer_spec file lb hl
  have hget : ∀ i, i < 8 * file.length → getBit lb i = some (bitAt file i) := by
    intro i hi
    rw [getBit_of_inv lb hinv i (by omega), hbit i]
  refine ⟨?_, hget⟩
  have hz : k >>> (SIZE_FIELD - 0) = 0 := by
    rw [Nat.shiftRight_eq_div_pow]
    exact Nat.div_eq_of_lt hk
  have hread := readSizeLoop_spec lb k hk
    (fun j hj => by rw [hget j (by omega), hhead j hj]) SIZE_FIELD 0 (by omega)
  rw [hz] at hread
  unfold inflate
  rw [hl]
  simp only [hread, getBitCount, hbc]
  rfl

/-- On a file that `deflate` wrote and that `loadBitBuffer` loads, `inflate` succeeds and emits
the bytes that were encoded. -/
theorem inflate_deflate_loaded (codes : List Char) (hv : ValidTable codes) (B : List (Fin 256))
    (file : List Nat) (lb : BitBuffer) (hd : deflate codes B = some file)
    (hl : loadBitBuffer file = some lb) :
    inflate codes file = InflateResult.success (B.map (fun b => b.val)) := by
  have hS : SIZE_FIELD = 32 := rfl
  have hI : INT_MAX = 2147483647 := by decide
  have hM : UINT_MOD = 4294967296 := by decide
  obtain ⟨hle, hlen, hhead, hbody⟩ := deflate_bits codes B file hd
  have hBlen := codeBits_length_ge codes hv B
  have hk : B.length < UINT_MOD := by rw [hM]; rw [hI] at hle; omega
  rw [Nat.mod_eq_of_lt hk] at hhead
  obtain ⟨hinf, hget⟩ := inflate_eq_decodeLoop codes file lb hl (by rw [hlen, hS]; omega)
    B.length hk hhead
  obtain ⟨m, hm⟩ : ∃ m, 8 * file.length - SIZE_FIELD = m + (codeBits codes B).length :=
    ⟨8 * file.length - SIZE_FIELD - (codeBits codes B).length, by rw [hlen, hS]; omega⟩
  rw [hinf, hm, decodeLoop_all codes hv lb B.length B m SIZE_FIELD 0 [] (by omega)
    (fun j v hjv => by
      have hj : j < (codeBits codes B).length := (List.getElem?_eq_some.1 hjv).1
      rw [hget _ (by rw [hlen, hS]; omega), hbody j v hjv])]
  exact decodeLoop_done codes lb B.length _ _ (by simp [decodeState]) (by simp [decodeState])
    _ _

theorem deflate_of_buffer (codes : List Char) (B : List (Fin 256)) (buf : BitBuffer)
    (hb : deflateBuffer codes B = some buf) : deflate codes B = some (saveBitBuffer buf) := by
  unfold deflate
  rw [hb]

theorem inflate_of_load_none (codes : List Char) (file : List Nat)
    (h : loadBitBuffer file = none) : inflate codes file = InflateResult.undefined := by
  unfold inflate
  rw [h]

/-- C1, amended: for every valid code table and every byte sequence `B` whose encoded stream, the
`SIZE_FIELD` bits of the size field and the bits of the codes of the bytes of `B`, has at most
`INT_MAX - 7 = 2 ^ 31 - 8` bits (then `B` has fewer than `2 ^ 32` bytes), `deflate` writes a file
and `inflate` on that file succeeds and emits exactly `B`. -/
theorem deflate_inflate_roundtrip (codes : List Char) (hv : ValidTable codes)
    (B : List (Fin 256)) (hsz : SIZE_FIELD + (codeBits codes B).length ≤ INT_MAX - 7) :
    ∃ file, deflate codes B = some file ∧
      inflate codes file = InflateResult.success (B.map (fun b => b.val)) := by
  have hS : SIZE_FIELD = 32 := rfl
  have hI : INT_MAX = 2147483647 := by decide
  obtain ⟨buf, hb⟩ := deflateBuffer_defined codes B (by rw [hI] at hsz ⊢; omega)
  have hd := deflate_of_buffer codes B buf hb
  obtain ⟨-, hlen, -, -⟩ := deflate_bits codes B _ hd
  obtain ⟨lb, hl⟩ := loadBitBuffer_defined (saveBitBuffer buf)
    (by rw [hlen, hI]; rw [hI] at hsz; omega)
  exact ⟨_, hd, inflate_deflate_loaded codes hv B _ lb hd hl⟩

/-- The size field of a buffer that `deflate` built for fewer than `2 ^ 32` bytes. -/
theorem deflateBuffer_header (codes : List Char) (input : List (Fin 256)) (buf : BitBuffer)
    (hk : input.length < UINT_MOD) (hb : deflateBuffer codes input = some buf) :
    (∀ j, j < SIZE_FIELD → getBit buf j = some (input.length.testBit (SIZE_FIELD - 1 - j))) ∧
      readSizeLoop buf SIZE_FIELD 0 0 = some input.length := by
  have hS : SIZE_FIELD = 32 := rfl
  obtain ⟨hinv, hbc, -, hbit⟩ := deflateBuffer_spec codes input buf hb
  have hget : ∀ j, j < SIZE_FIELD →
      getBit buf j = some (input.length.testBit (SIZE_FIELD - 1 - j)) := by
    intro j hj
    rw [getBit_of_inv buf hinv j (by omega), hbit j, if_pos hj, Nat.mod_eq_of_lt hk]
  refine ⟨hget, ?_⟩
  have hz : input.length >>> (SIZE_FIELD - 0) = 0 := by
    rw [Nat.shiftRight_eq_div_pow]
    exact Nat.div_eq_of_lt hk
  have := readSizeLoop_spec buf input.length hk hget SIZE_FIELD 0 (by omega)
  rw [hz] at this
  exact this

theorem deflateBuffer_none (codes : List Char) (input : List (Fin 256))
    (h : INT_MAX - 6 < SIZE_FIELD + (codeBits codes input).length) :
    deflateBuffer codes input = none := by
  unfold deflateBuffer
  cases h0 : appendBits makeBitBuffer (List.replicate SIZE_FIELD false) with
  | none => rfl
  | some b0 =>
    simp only
    obtain ⟨hinv0, hbc0, -⟩ := appendBits_spec _ makeBitBuffer b0 makeBitBuffer_inv h0
    have hm : makeBitBuffer.bitCount = 0 := rfl
    rw [hm, Nat.zero_add, List.length_replicate] at hbc0
    rw [encodeLoop_eq codes input b0 0 (by decide),
      appendBits_overflow (codeBits codes input) b0 hinv0 (by rw [hbc0]; decide)
        (by rw [hbc0]; exact h)]

/-- C9, amended: for every table and every input of `k < 2 ^ 32` bytes whose encoded stream has at
most `INT_MAX - 6 = 2 ^ 31 - 7` bits, `deflate` builds a buffer that holds in its bits `0, …, 31`,
most significant bit first, the number `k`, and the size-field loop of `inflate` reads `k` back
from them. -/
theorem deflate_length_field (codes : List Char) (input : List (Fin 256))
    (hk : input.length < UINT_MOD)
    (hsz : SIZE_FIELD + (codeBits codes input).length ≤ INT_MAX - 6) :
    ∃ buf, deflateBuffer codes input = some buf ∧
      (∀ j, j < SIZE_FIELD → getBit buf j = some (input.length.testBit (SIZE_FIELD - 1 - j))) ∧
        readSizeLoop buf SIZE_FIELD 0 0 = some input.length := by
  obtain ⟨buf, hb⟩ := deflateBuffer_defined codes input hsz
  exact ⟨buf, hb, deflateBuffer_header codes input buf hk hb⟩

/-- C10: for every valid table and byte sequence `B`, cutting one or more bytes off the end of the
file that `deflate` writes for `B`, while keeping at least the four bytes of the size field, makes
`inflate` end with the message `Invalid input file`, after it has written fewer bytes than `B`
has. A file from which bytes can be cut in this way has more than four bytes, so `B` is not
empty; and a file that `deflate` writes holds fewer than `2 ^ 31` bits, so its size field is the
exact number of bytes of `B`. -/
theorem inflate_truncated (codes : List Char) (hv : ValidTable codes) (B : List (Fin 256))
    (file : List Nat) (hd : deflate codes B = some file) (m : Nat) (h4 : 4 ≤ m)
    (hm : m < file.length) :
    ∃ k, k < B.length ∧
      inflate codes (file.take m) =
        InflateResult.invalidInput ((B.take k).map (fun b => b.val)) := by
  have hS : SIZE_FIELD = 32 := rfl
  have hI : INT_MAX = 2147483647 := by decide
  have hM : UINT_MOD = 4294967296 := by decide
  obtain ⟨hle, hlen, hhead, hbody⟩ := deflate_bits codes B file hd
  have hBlen := codeBits_length_ge codes hv B
  have hk : B.length < UINT_MOD := by rw [hM]; rw [hI] at hle; omega
  rw [Nat.mod_eq_of_lt hk] at hhead
  have htl : (file.take m).length = m := by rw [List.length_take]; omega
  obtain ⟨lb, hl⟩ := loadBitBuffer_defined (file.take m)
    (by rw [htl, hI]; rw [hI] at hle; omega)
  obtain ⟨hinf, hget⟩ := inflate_eq_decodeLoop codes (file.take m) lb hl (by rw [htl]; exact h4)
    B.length hk (fun j hj => by rw [bitAt_take file m j (by omega), hhead j hj])
  rw [htl] at hinf hget
  obtain ⟨k, hk1, hres⟩ := decodeLoop_short codes hv lb B.length B (8 * m - SIZE_FIELD)
    SIZE_FIELD 0 [] (by rw [hS]; rw [hS] at hlen; omega) (by omega)
    (fun j v hj hjv => by
      rw [hget _ (by omega), bitAt_take file m _ (by omega), hbody j v hjv])
  exact ⟨k, hk1, by rw [hinf, hres, List.nil_append]⟩

theorem sample_deflate : deflate sampleCodes [65, 66] = some [0, 0, 0, 2, 65, 66] := by
  have h65 : getCode sampleCodes (65 : Fin 256).val = binaryCode 8 65 :=
    sampleCodes_getCode _ (by decide)
  have h66 : getCode sampleCodes (66 : Fin 256).val = binaryCode 8 66 :=
    sampleCodes_getCode _ (by decide)
  simp only [deflate, deflateBuffer, encodeLoop, h65, h66]
  decide

theorem sample_bound : SIZE_FIELD + (codeBits sampleCodes [65, 66]).length ≤ INT_MAX - 7 := by
  have h65 : getCode sampleCodes (65 : Fin 256).val = binaryCode 8 65 :=
    sampleCodes_getCode _ (by decide)
  have h66 : getCode sampleCodes (66 : Fin 256).val = binaryCode 8 66 :=
    sampleCodes_getCode _ (by decide)
  simp only [codeBits, h65, h66, List.length_append, List.length_map, binaryCode_length,
    List.length_nil]
  decide

theorem deflate_inflate_roundtrip_witness :
    ∃ file, deflate sampleCodes [65, 66] = some file ∧
      inflate sampleCodes file =
        InflateResult.success (([65, 66] : List (Fin 256)).map (fun b => b.val)) :=
  deflate_inflate_roundtrip sampleCodes sampleCodes_valid [65, 66] sample_bound

theorem deflate_length_field_witness :
    ∃ buf, deflateBuffer sampleCodes [65, 66] = some buf ∧
      (∀ j, j < SIZE_FIELD →
        getBit buf j = some ((2 : Nat).testBit (SIZE_FIELD - 1 - j))) ∧
      readSizeLoop buf SIZE_FIELD 0 0 = some 2 :=
  deflate_length_field sampleCodes [65, 66] (by decide) (Nat.le_trans sample_bound (by decide))

theorem inflate_truncated_witness :
    ∃ k, k < ([65, 66] : List (Fin 256)).length ∧
      inflate sampleCodes (([0, 0, 0, 2, 65, 66] : List Nat).take 5) =
        InflateResult.invalidInput ((([65, 66] : List (Fin 256)).take k).map (fun b => b.val)) :=
  inflate_truncated sampleCodes sampleCodes_valid [65, 66] [0, 0, 0, 2, 65, 66] sample_deflate 5
    (by decide) (by decide)


/-! ### The range of `int` and the round trip -/

theorem skewCodes_valid : ValidTable skewCodes ∧ getCode skewCodes 0 = ['0'] := by
  have hshort : ∀ l ∈ skewLines, 1 ≤ l.length ∧ l.length ≤ CODE_MAX := by
    intro l hl
    rcases List.mem_cons.1 hl with h | h
    · rw [h]; decide
    · obtain ⟨k, -, rfl⟩ := List.mem_map.1 h
      rw [List.length_cons, binaryCode_length]
      decide
  obtain ⟨hv, hget⟩ := validTable_tableOf skewLines skewLines_length skewLines_ok hshort
  refine ⟨hv, ?_⟩
  have h0 : 0 < skewLines.length := by rw [skewLines_length]; decide
  rw [show skewCodes = tableOf skewLines from rfl, hget 0 h0]
  rfl

theorem codeBits_skew_length (n : Nat) :
    (codeBits skewCodes (List.replicate n 0)).length = n := by
  induction n with
  | zero => rfl
  | succ n ih =>
    have h0 : getCode skewCodes (0 : Fin 256).val = ['0'] := skewCodes_valid.2
    rw [List.replicate_succ]
    simp only [codeBits, h0, List.map_cons, List.map_nil, List.length_append, List.length_cons,
      List.length_nil, ih]
    omega

theorem long_stream_bits :
    SIZE_FIELD + (codeBits skewCodes (List.replicate (2 ^ 31 - 39) 0)).length ≤ INT_MAX - 6 := by
  rw [codeBits_skew_length]
  decide

/-- C1 as stated fails on the valid table `skewCodes` and an input of `2 ^ 31 - 39` zero bytes,
fewer than `2 ^ 32`: the encoded stream has `INT_MAX - 6` bits, `deflate` writes a file of
`2 ^ 28` bytes, and `inflate` does not succeed on that file, because the `2 ^ 31` bits that
`loadBitBuffer` appends do not fit the `int` bit count. -/
theorem roundtrip_int_limit :
    ValidTable skewCodes ∧ (List.replicate (2 ^ 31 - 39) (0 : Fin 256)).length < UINT_MOD ∧
      ∃ file, deflate skewCodes (List.replicate (2 ^ 31 - 39) 0) = some file ∧
        file.length = 2 ^ 28 ∧ inflate skewCodes file = InflateResult.undefined := by
  have hlen : (List.replicate (2 ^ 31 - 39) (0 : Fin 256)).length < UINT_MOD := by
    rw [List.length_replicate]
    decide
  refine ⟨skewCodes_valid.1, hlen, ?_⟩
  obtain ⟨buf, hb⟩ :=
    deflateBuffer_defined skewCodes (List.replicate (2 ^ 31 - 39) 0) long_stream_bits
  have hd := deflate_of_buffer skewCodes _ buf hb
  obtain ⟨-, hfl, -, -⟩ := deflate_bits skewCodes _ _ hd
  rw [codeBits_skew_length] at hfl
  have hfl' : (saveBitBuffer buf).length = 2 ^ 28 := hfl.trans (by decide)
  have hnone : loadBitBuffer (saveBitBuffer buf) = none :=
    loadBitBuffer_none _ (by rw [hfl']; decide)
  exact ⟨_, hd, hfl', inflate_of_load_none _ _ hnone⟩

theorem codeBits_sample_length (n : Nat) :
    (codeBits sampleCodes (List.replicate n 0)).length = 8 * n := by
  induction n with
  | zero => rfl
  | succ n ih =>
    have h0 : getCode sampleCodes (0 : Fin 256).val = binaryCode 8 0 :=
      sampleCodes_getCode _ (by decide)
    rw [List.replicate_succ]
    simp only [codeBits, h0, List.length_append, List.length_map, binaryCode_length, ih]
    omega

/-- C9 as stated fails on valid tables and inputs of fewer than `2 ^ 32` bytes: for `2 ^ 28` zero
bytes under `sampleCodes` the encoded stream has `32 + 2 ^ 31` bits, and for `2 ^ 31 - 38` zero
bytes under `skewCodes` it has `INT_MAX - 5` bits; the bit count or `cap * BYTE_SIZE` leaves the
range of `int` and `deflate` builds no buffer. -/
theorem deflate_int_limit :
    (ValidTable sampleCodes ∧ (List.replicate (2 ^ 28) (0 : Fin 256)).length < UINT_MOD ∧
      deflateBuffer sampleCodes (List.replicate (2 ^ 28) 0) = none) ∧
    (ValidTable skewCodes ∧ (List.replicate (2 ^ 31 - 38) (0 : Fin 256)).length < UINT_MOD ∧
      deflateBuffer skewCodes (List.replicate (2 ^ 31 - 38) 0) = none) := by
  refine ⟨⟨sampleCodes_valid, ?_, ?_⟩, ⟨skewCodes_valid.1, ?_, ?_⟩⟩
  · rw [List.length_replicate]
    decide
  · apply deflateBuffer_none
    rw [codeBits_sample_length]
    decide
  · rw [List.length_replicate]
    decide
  · apply deflateBuffer_none
    rw [codeBits_skew_length]
    decide

/-! ### Claims about single bits, files and reachable buffers -/

/-- C15: on a buffer whose array is as long as `cap` says, for every `idx < cap * 8` and every
value `v`, `setBit (idx, v)` is defined; afterwards `getBit (idx)` returns `v`, `getBit (j)` returns
what it returned before for every other index `j`, in the same byte or in another, and `bitCount`
and `cap` are unchanged. -/
theorem setBit_frame (b : BitBuffer) (idx : Nat) (v : Bool) (hwf : b.WF)
    (hidx : idx < b.cap * BYTE_SIZE) :
    ∃ b', setBit b idx v = some b' ∧ getBit b' idx = some v ∧
      (∀ j, j ≠ idx → getBit b' j = getBit b j) ∧
      getBitCount b' = getBitCount b ∧ b'.cap = b.cap := by
  have hB : BYTE_SIZE = 8 := rfl
  rw [hB] at hidx
  have hd : idx / 8 < b.data.length := by
    rw [hwf]
    omega
  obtain ⟨b', hset, hcount, hcap, hlen, hbits⟩ := setBit_spec b idx v hd
  refine ⟨b', hset, ?_, ?_, hcount, hcap⟩
  · rw [getBit_eq_bitAt b' idx (by rw [hlen]; exact hd), hbits idx, if_pos rfl]
  · intro j hj
    by_cases hjd : j / 8 < b.data.length
    · rw [getBit_eq_bitAt b' j (by rw [hlen]; exact hjd), getBit_eq_bitAt b j hjd, hbits j,
        if_neg hj]
    · have h1 : getBit b j = none := by
        cases h : getBit b j with
        | none => rfl
        | some x =>
          have := (getBit_isSome_iff b j).1 (by rw [h]; rfl)
          exact absurd this hjd
      have h2 : getBit b' j = none := by
        cases h : getBit b' j with
        | none => rfl
        | some x =>
          have := (getBit_isSome_iff b' j).1 (by rw [h]; rfl)
          rw [hlen] at this
          exact absurd this hjd
      rw [h1, h2]

theorem setBit_frame_witness :
    ∃ b', setBit fullBuffer 5 false = some b' ∧ getBit b' 5 = some false ∧
      (∀ j, j ≠ 5 → getBit b' j = getBit fullBuffer j) ∧
      getBitCount b' = getBitCount fullBuffer ∧ b'.cap = fullBuffer.cap :=
  setBit_frame fullBuffer 5 false (by decide) (by decide)

theorem bitAt_byte (file : List Nat) (i j : Nat) (hi : i < file.length) (hj : j < 8) :
    bitAt file (8 * i + j) = (file[i]).testBit (7 - j) := by
  unfold bitAt
  have h1 : (8 * i + j) / 8 = i := by omega
  have h2 : (8 * i + j) % 8 = j := by omega
  rw [h1, h2, List.getD_eq_getElem?_getD, List.getElem?_eq_getElem hi]
  rfl

/-- C16, amended: for every sequence of fewer than `2 ^ 28` bytes `c₀`, …, `cₘ₋₁`, `loadBitBuffer`
returns a buffer with `bitCount == 8 * m`, and for every `i < m` and `j < 8` the bit
`getBit (8 * i + j)` is bit `7 - j` of `cᵢ`: the bits are stored high bit first, in input order. -/
theorem loadBitBuffer_bits (file : List Nat) (hlen : file.length < 2 ^ 28) :
    ∃ b, loadBitBuffer file = some b ∧ getBitCount b = 8 * file.length ∧
      ∀ (i j : Nat) (hi : i < file.length), j < 8 →
        getBit b (8 * i + j) = some ((file[i]).testBit (7 - j)) := by
  have hI : INT_MAX = 2 ^ 31 - 1 := rfl
  obtain ⟨b, hb⟩ := loadBitBuffer_defined file (by rw [hI]; omega)
  obtain ⟨hinv, hcount, hbits⟩ := loadBitBuffer_spec file b hb
  refine ⟨b, hb, hcount, ?_⟩
  intro i j hi hj
  rw [getBit_of_inv b hinv (8 * i + j) (by rw [hcount]; omega), hbits, bitAt_byte file i j hi hj]

theorem loadBitBuffer_bits_witness :
    ∃ b, loadBitBuffer [0, 0, 0, 2, 65, 66] = some b ∧
      getBitCount b = 8 * ([0, 0, 0, 2, 65, 66] : List Nat).length ∧
      ∀ (i j : Nat) (hi : i < ([0, 0, 0, 2, 65, 66] : List Nat).length), j < 8 →
        getBit b (8 * i + j) = some ((([0, 0, 0, 2, 65, 66] : List Nat)[i]).testBit (7 - j)) :=
  loadBitBuffer_bits [0, 0, 0, 2, 65, 66] (by decide)

/-- C16 as stated fails on the sequence of `2 ^ 28` zero bytes: its `2 ^ 31` bits do not fit the
`int` bit count, and `loadBitBuffer` returns no buffer. -/
theorem loadBitBuffer_int_limit :
    (List.replicate (2 ^ 28) (0 : Nat)).length = 2 ^ 28 ∧
      loadBitBuffer (List.replicate (2 ^ 28) 0) = none := by
  refine ⟨List.length_replicate _ _, ?_⟩
  apply loadBitBuffer_none
  rw [List.length_replicate]
  decide

theorem saveBitBuffer_take (b : BitBuffer) :
    saveBitBuffer b = b.data.take ((b.bitCount + 7) / 8) := by
  unfold saveBitBuffer
  have hB : BYTE_SIZE = 8 := rfl
  rw [hB]
  by_cases h : b.bitCount % 8 = 0
  · have e : b.bitCount / 8 = (b.bitCount + 7) / 8 := by omega
    rw [if_pos h, e]
  · have e : b.bitCount / 8 + 1 = (b.bitCount + 7) / 8 := by omega
    rw [if_neg h, e]

/-- C17, amended: on a buffer whose array is as long as `cap` says and holds its bits
(`bitCount <= cap * 8`), `saveBitBuffer` writes exactly `ceil (bitCount / 8)` bytes, the first
`ceil (bitCount / 8)` bytes of the array unchanged; and when `bitCount` is at most
`INT_MAX - 7 = 2 ^ 31 - 8`, `loadBitBuffer` on the bytes written returns a buffer of
`8 * ceil (bitCount / 8)` bits whose first `bitCount` bits are those of the buffer saved. -/
theorem saveBitBuffer_load (b : BitBuffer) (hwf : b.WF) (hfit : b.bitCount ≤ b.cap * BYTE_SIZE) :
    ((saveBitBuffer b).length = (getBitCount b + 7) / 8 ∧
      ∀ k, k < (getBitCount b + 7) / 8 → (saveBitBuffer b)[k]? = b.data[k]?) ∧
    (getBitCount b ≤ INT_MAX - 7 →
      ∃ lb, loadBitBuffer (saveBitBuffer b) = some lb ∧
        getBitCount lb = 8 * ((getBitCount b + 7) / 8) ∧
        ∀ i, i < getBitCount b → getBit lb i = getBit b i) := by
  have hB : BYTE_SIZE = 8 := rfl
  have hI : INT_MAX = 2 ^ 31 - 1 := rfl
  rw [hB] at hfit
  have hwf' : b.data.length = b.cap := hwf
  have hlen : (saveBitBuffer b).length = (b.bitCount + 7) / 8 := by
    rw [saveBitBuffer_take, List.length_take, hwf']
    omega
  refine ⟨⟨hlen, ?_⟩, ?_⟩
  · intro k hk
    have hk' : k < (b.bitCount + 7) / 8 := hk
    rw [saveBitBuffer_take, List.getElem?_take, if_pos hk']
  · intro hsz
    have hsz' : b.bitCount ≤ INT_MAX - 7 := hsz
    rw [hI] at hsz'
    obtain ⟨lb, hlb⟩ := loadBitBuffer_defined (saveBitBuffer b) (by rw [hlen, hI]; omega)
    obtain ⟨hinv, hcount, hbits⟩ := loadBitBuffer_spec _ lb hlb
    refine ⟨lb, hlb, ?_, ?_⟩
    · show lb.bitCount = _
      rw [hcount, hlen]
      rfl
    · intro i hi
      have hi' : i < b.bitCount := hi
      rw [getBit_of_inv lb hinv i (by rw [hcount, hlen]; omega), hbits,
        getBit_eq_bitAt b i (by rw [hwf']; omega), saveBitBuffer_take,
        bitAt_take _ _ _ (by omega)]

theorem saveBitBuffer_load_witness :
    ((saveBitBuffer fullBuffer).length = (getBitCount fullBuffer + 7) / 8 ∧
      ∀ k, k < (getBitCount fullBuffer + 7) / 8 →
        (saveBitBuffer fullBuffer)[k]? = fullBuffer.data[k]?) ∧
    ∃ lb, loadBitBuffer (saveBitBuffer fullBuffer) = some lb ∧
      getBitCount lb = 8 * ((getBitCount fullBuffer + 7) / 8) ∧
      ∀ i, i < getBitCount fullBuffer → getBit lb i = getBit fullBuffer i :=
  ⟨(saveBitBuffer_load fullBuffer (by decide) (by decide)).1,
    (saveBitBuffer_load fullBuffer (by decide) (by decide)).2 (by decide)⟩

/-- C17 as stated fails on the buffer that `INT_MAX - 6 = 2 ^ 31 - 7` appends of zero bits build:
`saveBitBuffer` writes `2 ^ 28` bytes, and `loadBitBuffer` returns no buffer for them, because
their `2 ^ 31` bits do not fit the `int` bit count. -/
theorem saveBitBuffer_int_limit :
    ∃ b, appendBits makeBitBuffer (List.replicate (2 ^ 31 - 7) false) = some b ∧
      getBitCount b = 2 ^ 31 - 7 ∧ (saveBitBuffer b).length = 2 ^ 28 ∧
      loadBitBuffer (saveBitBuffer b) = none := by
  have hI : INT_MAX = 2 ^ 31 - 1 := rfl
  have hz : makeBitBuffer.bitCount = 0 := rfl
  obtain ⟨b, hb⟩ := appendBits_defined (List.replicate (2 ^ 31 - 7) false) makeBitBuffer
    makeBitBuffer_inv (by rw [List.length_replicate, hz, hI]; decide)
  obtain ⟨hinv, hcount, -⟩ := appendBits_spec _ _ _ makeBitBuffer_inv hb
  rw [List.length_replicate, hz, Nat.zero_add] at hcount
  have hlen : (saveBitBuffer b).length = 2 ^ 28 := by
    rw [(saveBitBuffer_spec b hinv).1, hcount]
    decide
  refine ⟨b, hb, hcount, hlen, ?_⟩
  apply loadBitBuffer_none
  rw [hlen, hI]
  decide

/-- What holds of every reachable buffer, in terms of the bytes of the array. -/
theorem reachable_state (b : BitBuffer) (h : Reachable b) :
    b.WF ∧ b.bitCount ≤ b.cap * 8 ∧ b.cap = max START_SIZE ((b.bitCount + 7) / 8) ∧
      ∀ j, b.bitCount ≤ j → bitAt b.data j = false := by
  have hS : START_SIZE = 4 := rfl
  induction h with
  | make =>
    refine ⟨rfl, by decide, by decide, fun j _ => bitAt_makeBitBuffer j⟩
  | append b b' v _ happ ih =>
    obtain ⟨hwf, hfit, hcap, hzero⟩ := ih
    obtain ⟨hwf', hcount', hcap', -, hbits'⟩ := appendBit_spec b b' v hwf happ
    rw [hS] at hcap ⊢
    refine ⟨hwf', ?_, ?_, ?_⟩
    · rw [hcap', hcount']
      split <;> omega
    · rw [hcap', hcount']
      split <;> omega
    · intro j hj
      rw [hbits' j, if_neg (by omega)]
      exact hzero j (by omega)
  | set b b' idx v _ hidx hset ih =>
    obtain ⟨hwf, hfit, hcap, hzero⟩ := ih
    have hidx' : idx < b.bitCount := hidx
    have hwf0 : b.data.length = b.cap := hwf
    obtain ⟨b2, hset2, hcount2, hcap2, hlen2, hbits2⟩ :=
      setBit_spec b idx v (by rw [hwf0]; omega)
    rw [hset] at hset2
    cases hset2
    refine ⟨?_, ?_, ?_, ?_⟩
    · show b'.data.length = b'.cap
      rw [hlen2, hcap2]
      exact hwf0
    · rw [hcount2, hcap2]
      exact hfit
    · rw [hcount2, hcap2]
      exact hcap
    · intro j hj
      rw [hcount2] at hj
      rw [hbits2 j, if_neg (by omega)]
      exact hzero j hj

/-- What holds of every reachable buffer, in terms of `getBit` and of the bytes that
`saveBitBuffer` writes. -/
theorem reachable_bits (b : BitBuffer) (h : Reachable b) :
    getBitCount b ≤ b.cap * BYTE_SIZE ∧
      b.cap = max START_SIZE ((getBitCount b + (BYTE_SIZE - 1)) / BYTE_SIZE) ∧
      (∀ j, getBitCount b ≤ j → j < b.cap * BYTE_SIZE → getBit b j = some false) ∧
      ∀ j, getBitCount b ≤ j → bitAt (saveBitBuffer b) j = false := by
  obtain ⟨hwf, hfit, hcap, hzero⟩ := reachable_state b h
  have hwf0 : b.data.length = b.cap := hwf
  have hB : BYTE_SIZE = 8 := rfl
  rw [hB]
  refine ⟨hfit, hcap, ?_, ?_⟩
  · intro j hj hjc
    rw [getBit_eq_bitAt b j (by rw [hwf0]; omega), hzero j hj]
  · intro j hj
    have hj' : b.bitCount ≤ j := hj
    rw [saveBitBuffer_take]
    by_cases hlt : j / 8 < (b.bitCount + 7) / 8
    · rw [bitAt_take _ _ _ hlt]
      exact hzero j hj
    · apply bitAt_of_length_le
      rw [List.length_take]
      omega

/-! ### Empty lines of a codes text -/

theorem splitLines_blank (q : List Char) : ∀ (p cur : List Char),
    [] ∈ splitLines (p ++ '\n' :: '\n' :: q) cur := by
  intro p
  induction p with
  | nil =>
    intro cur
    simp [splitLines]
  | cons c p ih =>
    intro cur
    rw [List.cons_append, splitLines]
    by_cases hc : c = '\n'
    · rw [if_pos hc]
      exact List.mem_cons_of_mem _ (ih [])
    · rw [if_neg hc]
      exact ih _

theorem textLines_blank (text : List Char)
    (h : text.head? = some '\n' ∨ ∃ p q, text = p ++ '\n' :: '\n' :: q) :
    [] ∈ textLines text := by
  rcases h with h | ⟨p, q, rfl⟩
  · cases text with
    | nil => simp at h
    | cons c rest =>
      simp only [List.head?_cons, Option.some.injEq] at h
      subst h
      simp [textLines, splitLines]
  · exact splitLines_blank q p []

/-- Among `CODE_ROWS` acceptable lines none is empty: the empty string is a prefix of every other
line. -/
theorem lines_nonempty (ls : List (List Char)) (hlen : ls.length = CODE_ROWS) (hok : LinesOK ls) :
    [] ∉ ls := by
  intro hmem
  have hR : CODE_ROWS = 256 := rfl
  obtain ⟨i, hi, hget⟩ := List.getElem_of_mem hmem
  by_cases h0 : i = 0
  · have h1 : 1 < ls.length := by omega
    exact lines_not_comparable ls hok.2.1 i 1 [] ls[1]
      (by rw [List.getElem?_eq_getElem hi, hget]) (List.getElem?_eq_getElem h1) (by omega)
      (Or.inl ⟨_, List.nil_append _⟩)
  · have h1 : 0 < ls.length := by omega
    exact lines_not_comparable ls hok.2.1 i 0 [] ls[0]
      (by rw [List.getElem?_eq_getElem hi, hget]) (List.getElem?_eq_getElem h1) h0
      (Or.inl ⟨_, List.nil_append _⟩)

/-- C18: a codes text that holds an empty line, a newline as its very first character or two
newlines in a row, is not loaded; and every code of a table that `loadCodes` loaded has at least
one character, so `getCode` returns no empty string. -/
theorem loadCodes_no_empty (text : List Char) :
    ((text.head? = some '\n' ∨ ∃ p q, text = p ++ '\n' :: '\n' :: q) →
      ∀ codes, loadCodes text ≠ LoadResult.ok codes) ∧
    (∀ codes, loadCodes text = LoadResult.ok codes →
      ∀ i, i < CODE_ROWS → 1 ≤ strlen (getCode codes i) ∧ getCode codes i ≠ []) := by
  constructor
  · intro hblank codes h
    obtain ⟨ls, hlen, hok, rfl, -⟩ := (loadCodes_ok_iff _ _).1 h
    have hmem := textLines_blank _ hblank
    rw [textLines_unlines ls (linesOK_no_newline ls hok)] at hmem
    exact lines_nonempty ls hlen hok hmem
  · intro codes h i hi
    obtain ⟨ls, hlen, hok, -, rfl⟩ := (loadCodes_ok_iff _ _).1 h
    have hi' : i < ls.length := by omega
    have hpre := (getCode_loaded ls hok i hi').2
    have hne : ls[i] ≠ [] := fun he =>
      lines_nonempty ls hlen hok (he ▸ List.getElem_mem hi')
    have hpos : 0 < (ls[i]).length := List.length_pos.2 hne
    have hle := hpre.length_le
    refine ⟨by unfold strlen; omega, ?_⟩
    intro he
    rw [he, List.length_nil] at hle
    omega

theorem loadCodes_no_empty_witness :
    (∀ codes, loadCodes ['0', '\n', '\n', '1', '\n'] ≠ LoadResult.ok codes) ∧
    (∀ codes, loadCodes ['\n', '1', '\n'] ≠ LoadResult.ok codes) ∧
    ∀ i, i < CODE_ROWS → 1 ≤ strlen (getCode sampleCodes i) ∧ getCode sampleCodes i ≠ [] :=
  ⟨(loadCodes_no_empty ['0', '\n', '\n', '1', '\n']).1
      (Or.inr ⟨['0'], ['1', '\n'], rfl⟩),
    (loadCodes_no_empty ['\n', '1', '\n']).1 (Or.inl rfl),
    (loadCodes_no_empty (unlines sampleLines)).2 sampleCodes loadCodes_sample⟩

/-! ### The layout of the encoded stream -/

theorem codeBits_length (codes : List Char) (B : List (Fin 256)) :
    (codeBits codes B).length = (B.map fun b => strlen (getCode codes b.val)).sum := by
  induction B with
  | nil => rfl
  | cons byte rest ih =>
    rw [codeBits, List.length_append, List.length_map, ih, List.map_cons, List.sum_cons]
    rfl

/-- C11, amended: for every table and every byte sequence `B` whose encoded stream, the
`SIZE_FIELD` bits of the size field and the bits of the codes of the bytes of `B`, has at most
`INT_MAX - 6 = 2 ^ 31 - 7` bits, `deflate` builds a buffer whose bit count is `32` plus the sum of
the lengths of the codes of the bytes, and whose bits from position `32` on are the codes of the
bytes one after the other, in input order, `'0'` as bit 0 and `'1'` as bit 1. -/
theorem deflate_layout (codes : List Char) (B : List (Fin 256))
    (hsz : SIZE_FIELD + (codeBits codes B).length ≤ INT_MAX - 6) :
    ∃ buf, deflateBuffer codes B = some buf ∧
      getBitCount buf = SIZE_FIELD + (B.map fun b => strlen (getCode codes b.val)).sum ∧
      (∀ (j : Nat) (hj : j < (codeBits codes B).length),
        getBit buf (SIZE_FIELD + j) = some (codeBits codes B)[j]) ∧
      codeBit '0' = false ∧ codeBit '1' = true := by
  obtain ⟨buf, hbuf⟩ := deflateBuffer_defined codes B hsz
  obtain ⟨hinv, hcount, -, hbits⟩ := deflateBuffer_spec codes B buf hbuf
  refine ⟨buf, hbuf, ?_, ?_, by decide, by decide⟩
  · show buf.bitCount = _
    rw [hcount, codeBits_length]
  · intro j hj
    rw [getBit_of_inv buf hinv _ (by rw [hcount]; omega), hbits,
      if_neg (by omega), Nat.add_sub_cancel_left, List.getElem?_eq_getElem hj]
    rfl

theorem deflate_layout_witness :
    ∃ buf, deflateBuffer sampleCodes [65, 66] = some buf ∧
      getBitCount buf =
        SIZE_FIELD + (([65, 66] : List (Fin 256)).map fun b =>
          strlen (getCode sampleCodes b.val)).sum ∧
      (∀ (j : Nat) (hj : j < (codeBits sampleCodes [65, 66]).length),
        getBit buf (SIZE_FIELD + j) = some (codeBits sampleCodes [65, 66])[j]) ∧
      codeBit '0' = false ∧ codeBit '1' = true :=
  deflate_layout sampleCodes [65, 66] (Nat.le_trans sample_bound (by decide))

/-- C11 as stated fails on valid tables: for `2 ^ 28 - 4` zero bytes under `sampleCodes` the bit
count that the claim gives, `32 + 8 * (2 ^ 28 - 4) = 2 ^ 31`, is no value of an `int`; for
`2 ^ 31 - 38` zero bytes under `skewCodes` it is `INT_MAX - 5`, and `cap * BYTE_SIZE` leaves the
range of `int` before the last bit is appended. In both cases `deflate` builds no buffer. -/
theorem deflate_layout_int_limit :
    (ValidTable sampleCodes ∧
      SIZE_FIELD + (codeBits sampleCodes (List.replicate (2 ^ 28 - 4) 0)).length = 2 ^ 31 ∧
      INT_MAX < 2 ^ 31 ∧
      deflateBuffer sampleCodes (List.replicate (2 ^ 28 - 4) 0) = none) ∧
    (ValidTable skewCodes ∧
      SIZE_FIELD + (codeBits skewCodes (List.replicate (2 ^ 31 - 38) 0)).length = INT_MAX - 5 ∧
      deflateBuffer skewCodes (List.replicate (2 ^ 31 - 38) 0) = none) := by
  refine ⟨⟨sampleCodes_valid, ?_, by decide, ?_⟩, ⟨skewCodes_valid.1, ?_, ?_⟩⟩
  · rw [codeBits_sample_length]
    decide
  · apply deflateBuffer_none
    rw [codeBits_sample_length]
    decide
  · rw [codeBits_skew_length]
    decide
  · apply deflateBuffer_none
    rw [codeBits_skew_length]
    decide

/-! ### The example scenario -/

theorem not_comparable_of_head_ne (x y : Char) (s t : List Char) (h : x ≠ y) :
    ¬ Comparable (x :: s) (y :: t) := by
  rintro (hp | hp)
  · rw [List.cons_prefix_cons] at hp
    exact h hp.1
  · rw [List.cons_prefix_cons] at hp
    exact h hp.1.symm

theorem exampleLines_length : exampleLines.length = CODE_ROWS := by
  simp [exampleLines, CODE_ROWS]

theorem exampleLines_getElem (k : Nat) (hk : k < exampleLines.length) :
    exampleLines[k] =
      if k = 65 then ['0', '0'] else if k = 66 then ['0', '1'] else '1' :: binaryCode 8 k := by
  simp [exampleLines]

theorem exampleLines_mem (l : List Char) (hl : l ∈ exampleLines) :
    2 ≤ l.length ∧ l.length ≤ 9 ∧ ∀ c ∈ l, isBinary c := by
  obtain ⟨k, -, rfl⟩ := List.mem_map.1 hl
  by_cases h65 : k = 65
  · rw [if_pos h65]
    decide
  · rw [if_neg h65]
    by_cases h66 : k = 66
    · rw [if_pos h66]
      decide
    · rw [if_neg h66, List.length_cons, binaryCode_length]
      refine ⟨by omega, by omega, ?_⟩
      intro c hc
      rcases List.mem_cons.1 hc with h | h
      · rw [h]; exact Or.inr rfl
      · exact binaryCode_binary 8 k c h

theorem exampleLines_ok : LinesOK exampleLines := by
  refine ⟨?_, ?_, ?_⟩
  · intro l hl
    obtain ⟨-, h2, h3⟩ := exampleLines_mem l hl
    exact ⟨by rw [show CODE_MAX = 24 from rfl]; omega, h3⟩
  · unfold exampleLines
    rw [List.pairwise_map]
    refine List.Pairwise.imp_of_mem ?_ (List.pairwise_lt_range 256)
    intro a b ha hb hab
    rw [List.mem_range] at ha hb
    by_cases ha65 : a = 65
    · rw [if_pos ha65, if_neg (by omega)]
      by_cases hb66 : b = 66
      · rw [if_pos hb66]
        decide
      · rw [if_neg hb66]
        exact not_comparable_of_head_ne _ _ _ _ (by decide)
    · rw [if_neg ha65]
      by_cases ha66 : a = 66
      · rw [if_pos ha66, if_neg (by omega), if_neg (by omega)]
        exact not_comparable_of_head_ne _ _ _ _ (by decide)
      · rw [if_neg ha66]
        by_cases hb65 : b = 65
        · rw [if_pos hb65]
          exact not_comparable_of_head_ne _ _ _ _ (by decide)
        · rw [if_neg hb65]
          by_cases hb66 : b = 66
          · rw [if_pos hb66]
            exact not_comparable_of_head_ne _ _ _ _ (by decide)
          · rw [if_neg hb66]
            apply not_comparable_of_length_eq
            · rw [List.length_cons, List.length_cons, binaryCode_length, binaryCode_length]
            · intro e
              simp only [List.cons.injEq, true_and] at e
              have := binaryCode_inj 8 a b (by omega) (by omega) e
              omega
  · apply getD_length_le
    intro l hl
    obtain ⟨-, h2, -⟩ := exampleLines_mem l hl
    rw [show CODE_MAX = 24 from rfl]
    omega

theorem exampleLines_short (l : List Char) (hl : l ∈ exampleLines) :
    1 ≤ l.length ∧ l.length ≤ CODE_MAX := by
  obtain ⟨h1, h2, -⟩ := exampleLines_mem l hl
  exact ⟨by omega, by rw [show CODE_MAX = 24 from rfl]; omega⟩

theorem exampleCodes_getCode (k : Nat) (hk : k < CODE_ROWS) :
    getCode exampleCodes k =
      if k = 65 then ['0', '0'] else if k = 66 then ['0', '1'] else '1' :: binaryCode 8 k := by
  have hlen : k < exampleLines.length := by rw [exampleLines_length]; exact hk
  show getCode (tableOf exampleLines) k = _
  rw [(validTable_tableOf exampleLines exampleLines_length exampleLines_ok
    exampleLines_short).2 k hlen, exampleLines_getElem]

/-- The table of the example scenario is a valid table with the code `00` for byte 65, the code
`01` for byte 66 and codes of nine characters for the other bytes, and `loadCodes` loads it. -/
theorem exampleCodes_valid :
    ValidTable exampleCodes ∧ getCode exampleCodes 65 = ['0', '0'] ∧
      getCode exampleCodes 66 = ['0', '1'] ∧
      (∀ i, i < CODE_ROWS → i ≠ 65 → i ≠ 66 → 3 ≤ (getCode exampleCodes i).length) ∧
      loadCodes (unlines exampleLines) = LoadResult.ok exampleCodes := by
  refine ⟨(validTable_tableOf exampleLines exampleLines_length exampleLines_ok
    exampleLines_short).1, ?_, ?_, ?_, ?_⟩
  · rw [exampleCodes_getCode 65 (by decide), if_pos rfl]
  · rw [exampleCodes_getCode 66 (by decide), if_neg (by decide), if_pos rfl]
  · intro i hi h65 h66
    rw [exampleCodes_getCode i hi, if_neg h65, if_neg h66, List.length_cons, binaryCode_length]
    omega
  · exact (loadCodes_ok_iff _ _).2 ⟨exampleLines, exampleLines_length, exampleLines_ok, rfl, rfl⟩

/-- C13: for every valid table with the code `00` for byte 65 and the code `01` for byte 66,
whatever the other codes are, `deflate` on the two bytes `AB` writes the five bytes
`00 00 00 02 10` (hexadecimal), the number 2 in the first 32 bits, then the bits `0001`, then four
zero bits; and `inflate` on these five bytes succeeds and writes exactly `AB`. -/
theorem example_scenario (codes : List Char) (hv : ValidTable codes)
    (h65 : getCode codes 65 = ['0', '0']) (h66 : getCode codes 66 = ['0', '1']) :
    deflate codes [65, 66] = some [0x00, 0x00, 0x00, 0x02, 0x10] ∧
      (∀ j, j < SIZE_FIELD →
        bitAt [0x00, 0x00, 0x00, 0x02, 0x10] j = (2 : Nat).testBit (SIZE_FIELD - 1 - j)) ∧
      (List.range 8).map (fun j => bitAt [0x00, 0x00, 0x00, 0x02, 0x10] (SIZE_FIELD + j)) =
        [false, false, false, true, false, false, false, false] ∧
      inflate codes [0x00, 0x00, 0x00, 0x02, 0x10] = InflateResult.success [65, 66] := by
  have h65' : getCode codes (65 : Fin 256).val = ['0', '0'] := h65
  have h66' : getCode codes (66 : Fin 256).val = ['0', '1'] := h66
  have hd : deflate codes [65, 66] = some [0x00, 0x00, 0x00, 0x02, 0x10] := by
    simp only [deflate, deflateBuffer, encodeLoop, h65', h66']
    decide
  refine ⟨hd, by decide, by decide, ?_⟩
  obtain ⟨lb, hlb⟩ := loadBitBuffer_defined [0x00, 0x00, 0x00, 0x02, 0x10] (by decide)
  exact inflate_deflate_loaded codes hv [65, 66] _ lb hd hlb

theorem example_scenario_witness :
    deflate exampleCodes [65, 66] = some [0x00, 0x00, 0x00, 0x02, 0x10] ∧
      (∀ j, j < SIZE_FIELD →
        bitAt [0x00, 0x00, 0x00, 0x02, 0x10] j = (2 : Nat).testBit (SIZE_FIELD - 1 - j)) ∧
      (List.range 8).map (fun j => bitAt [0x00, 0x00, 0x00, 0x02, 0x10] (SIZE_FIELD + j)) =
        [false, false, false, true, false, false, false, false] ∧
      inflate exampleCodes [0x00, 0x00, 0x00, 0x02, 0x10] = InflateResult.success [65, 66] :=
  example_scenario exampleCodes exampleCodes_valid.1 exampleCodes_valid.2.1
    exampleCodes_valid.2.2.1

/-! ### The decoder on a loaded buffer -/

theorem inflate_eq_inflateBuffer (codes : List Char) (file : List Nat) (lb : BitBuffer)
    (hl : loadBitBuffer file = some lb) : inflate codes file = inflateBuffer codes lb := by
  unfold inflate
  rw [hl]
  rfl

theorem inflateBuffer_eq_decodeLoop (codes : List Char) (lb : BitBuffer) (N : Nat)
    (hN : readSizeLoop lb SIZE_FIELD 0 0 = some N) :
    inflateBuffer codes lb =
      decodeLoop codes lb N (getBitCount lb - SIZE_FIELD) SIZE_FIELD (decodeState [] 0 []) := by
  unfold inflateBuffer
  rw [hN]
  rfl

theorem sizeBits_length (k : Nat) : (sizeBits k).length = SIZE_FIELD := by
  unfold sizeBits
  rw [List.length_map, List.length_range]

theorem sizeBits_getElem? (k j : Nat) (hj : j < SIZE_FIELD) :
    (sizeBits k)[j]? = some (k.testBit (SIZE_FIELD - 1 - j)) := by
  unfold sizeBits
  rw [List.getElem?_map, List.getElem?_range hj]
  rfl

/-- The bits of a buffer, read one after the other by `getBit`, from their list. -/
theorem getBit_of_bits (b : BitBuffer) (L : List Bool)
    (h : (List.range (getBitCount b)).map (getBit b) = L.map some) :
    getBitCount b = L.length ∧ ∀ i v, L[i]? = some v → getBit b i = some v := by
  have hlen : getBitCount b = L.length := by
    have := congrArg List.length h
    rwa [List.length_map, List.length_range, List.length_map] at this
  refine ⟨hlen, ?_⟩
  intro i v hv
  have hi : i < L.length := (List.getElem?_eq_some.1 hv).1
  have := congrArg (fun l => l[i]?) h
  simp only [List.getElem?_map, List.getElem?_range (hlen ▸ hi), hv, Option.map_some'] at this
  exact Option.some.inj this

/-- C12: for every valid table, byte sequence `B` and bit sequence `X`, on every buffer whose bits
are the `SIZE_FIELD` bits of the size field for the number of bytes of `B`, then the codes of the
bytes of `B`, then `X`, the decoder succeeds and writes exactly `B`, whatever the bits of `X` are;
so does `inflate` on every file from which `loadBitBuffer` loads such a buffer. The bit count of
a buffer is the value of an `int`. -/
theorem inflate_stops_on_count (codes : List Char) (hv : ValidTable codes) (B : List (Fin 256))
    (X : List Bool) (b : BitBuffer) (hrange : getBitCount b ≤ INT_MAX)
    (hbits : (List.range (getBitCount b)).map (getBit b) =
      (sizeBits B.length ++ codeBits codes B ++ X).map some) :
    inflateBuffer codes b = InflateResult.success (B.map fun x => x.val) ∧
      ∀ file, loadBitBuffer file = some b →
        inflate codes file = InflateResult.success (B.map fun x => x.val) := by
  have hS : SIZE_FIELD = 32 := rfl
  have hI : INT_MAX = 2147483647 := by decide
  have hM : UINT_MOD = 4294967296 := by decide
  obtain ⟨hcount, hget⟩ := getBit_of_bits b _ hbits
  rw [List.length_append, List.length_append, sizeBits_length] at hcount
  have hBlen := codeBits_length_ge codes hv B
  have hk : B.length < UINT_MOD := by rw [hM]; rw [hI] at hrange; omega
  have hz : B.length >>> (SIZE_FIELD - 0) = 0 := by
    rw [Nat.shiftRight_eq_div_pow]
    exact Nat.div_eq_of_lt hk
  have hread := readSizeLoop_spec b B.length hk
    (fun j hj => hget j _ (by
      rw [List.append_assoc, List.getElem?_append_left (by rw [sizeBits_length]; exact hj)]
      exact sizeBits_getElem? _ j hj)) SIZE_FIELD 0 (by omega)
  rw [hz] at hread
  have hmain : inflateBuffer codes b = InflateResult.success (B.map fun x => x.val) := by
    rw [inflateBuffer_eq_decodeLoop codes b B.length hread,
      show getBitCount b - SIZE_FIELD = X.length + (codeBits codes B).length by omega,
      decodeLoop_all codes hv b B.length B X.length SIZE_FIELD 0 [] (by omega)
        (fun j v hjv => hget _ v (by
          have hj : j < (codeBits codes B).length := (List.getElem?_eq_some.1 hjv).1
          rw [List.getElem?_append_left (by
              rw [List.length_append, sizeBits_length]; omega),
            List.getElem?_append_right (by rw [sizeBits_length]; omega), sizeBits_length,
            Nat.add_sub_cancel_left]
          exact hjv))]
    exact decodeLoop_done codes b B.length _ _ (by simp [decodeState]) (by simp [decodeState])
      _ _
  exact ⟨hmain, fun file hl => by rw [inflate_eq_inflateBuffer codes file b hl, hmain]⟩

theorem trailingBuffer_bits :
    (List.range (getBitCount trailingBuffer)).map (getBit trailingBuffer) =
      (sizeBits ([65, 66] : List (Fin 256)).length ++ codeBits sampleCodes [65, 66] ++
        List.replicate 8 true).map some := by
  have h65 : getCode sampleCodes (65 : Fin 256).val = binaryCode 8 65 :=
    sampleCodes_getCode _ (by decide)
  have h66 : getCode sampleCodes (66 : Fin 256).val = binaryCode 8 66 :=
    sampleCodes_getCode _ (by decide)
  simp only [codeBits, h65, h66]
  decide

theorem inflate_stops_on_count_witness :
    inflateBuffer sampleCodes trailingBuffer =
        InflateResult.success (([65, 66] : List (Fin 256)).map fun x => x.val) ∧
      inflate sampleCodes [0, 0, 0, 2, 65, 66, 255] =
        InflateResult.success (([65, 66] : List (Fin 256)).map fun x => x.val) :=
  ⟨(inflate_stops_on_count sampleCodes sampleCodes_valid [65, 66] (List.replicate 8 true)
      trailingBuffer (by decide) trailingBuffer_bits).1,
    (inflate_stops_on_count sampleCodes sampleCodes_valid [65, 66] (List.replicate 8 true)
      trailingBuffer (by decide) trailingBuffer_bits).2 [0, 0, 0, 2, 65, 66, 255] (by decide)⟩

/-! ### The decoding loop on arbitrary bits -/

theorem codeBit_bitChar (v : Bool) : codeBit (bitChar v) = v := by
  cases v <;> rfl

theorem bitChar_binary (v : Bool) : isBinary (bitChar v) := by
  cases v
  · exact Or.inl rfl
  · exact Or.inr rfl

theorem map_codeBit_bitChar (t : List Bool) : (t.map bitChar).map codeBit = t := by
  induction t with
  | nil => rfl
  | cons v t ih => rw [List.map_cons, List.map_cons, ih, codeBit_bitChar]

theorem unfinished_nil (codes : List Char) (hv : ValidTable codes) : Unfinished codes [] := by
  have h0 : 0 < CODE_ROWS := by decide
  exact ⟨0, h0, ⟨_, List.nil_append _⟩, (hv.1 0 h0).1⟩

theorem unfinished_bound (codes : List Char) (hv : ValidTable codes) (p : List Char)
    (hp : Unfinished codes p) : p.length < CODE_MAX ∧ ∀ c ∈ p, isBinary c := by
  obtain ⟨b, hb, hpre, hlt⟩ := hp
  obtain ⟨-, hmax, hbin⟩ := hv.1 b hb
  exact ⟨by omega, isBinary_of_initial p _ hpre hbin⟩

/-- With a valid table a candidate is a code, a proper prefix of a code, or reported as
`CODE_INVALID`. -/
theorem candidate_cases (codes : List Char) (s : List Char) :
    (∃ b, b < CODE_ROWS ∧ s = getCode codes b) ∨ Unfinished codes s ∨
      lookupCode codes s = CODE_INVALID := by
  by_cases hA : ∃ b, b < CODE_ROWS ∧ s = getCode codes b
  · exact Or.inl hA
  · by_cases hB : ∃ b, b < CODE_ROWS ∧ s <+: getCode codes b
    · obtain ⟨b, hb, hpre⟩ := hB
      refine Or.inr (Or.inl ⟨b, hb, hpre, ?_⟩)
      rcases Nat.lt_or_ge s.length (getCode codes b).length with h | h
      · exact h
      · exact absurd ⟨b, hb, List.IsPrefix.eq_of_length_le hpre h⟩ hA
    · exact Or.inr (Or.inr (lookupCode_invalid codes s (fun k hk e => hB ⟨k, hk, e⟩)))

theorem unfinished_of_lookupCode (codes : List Char) (hv : ValidTable codes) (s : List Char)
    (h : lookupCode codes s = CODE_PREFIX) : Unfinished codes s := by
  have hP : CODE_PREFIX = (-1 : Int) := rfl
  have hI : CODE_INVALID = (-2 : Int) := rfl
  rcases candidate_cases codes s with ⟨b, hb, he⟩ | hp | hi
  · rw [he, lookupCode_exact codes hv b hb, hP] at h
    omega
  · exact hp
  · rw [hi, hP, hI] at h
    omega

/-- One iteration on a bit that makes the candidate a string which `lookupCode` reports as
`CODE_INVALID`: `inflate` reports an invalid input file. -/
theorem decodeLoop_invalid (codes : List Char) (hv : ValidTable codes) (buf : BitBuffer)
    (count n i cc : Nat) (out : List Nat) (p : List Char) (c : Char)
    (hp : Unfinished codes p) (hc : isBinary c)
    (hlook : lookupCode codes (p ++ [c]) = CODE_INVALID)
    (hbit : getBit buf i = some (codeBit c)) (hcc : cc < count) :
    decodeLoop codes buf count (n + 1) i (decodeState p cc out) =
      InflateResult.invalidInput out := by
  obtain ⟨hplt, hpbin⟩ := unfinished_bound codes hv p hp
  have hplen : p.length < CODE_MAX + 1 := by omega
  have hpc : ∀ x ∈ p ++ [c], isBinary x := by
    intro x hx
    rcases List.mem_append.1 hx with h | h
    · exact hpbin x h
    · rw [List.mem_singleton.1 h]; exact hc
  have hnul : NUL ∈ bitsArray (p ++ [c]) :=
    NUL_mem_bitsArray _ (by rw [List.length_append, List.length_singleton]; omega)
  have hI : CODE_INVALID = (-2 : Int) := rfl
  simp only [decodeLoop, decodeState, hcc, if_true, hbit, bitsArray_length p (Nat.le_of_lt hplen),
    hplen, decodeChar_codeBit c hc, bitsArray_set p c hplen, hnul, cstr_bitsArray _ hpc, hlook]
  rw [if_neg (by rw [hI]; omega)]

/-- The iterations on bits that keep the candidate a proper prefix of the code of `b`: the
candidate grows by these bits. -/
theorem decodeLoop_advance (codes : List Char) (hv : ValidTable codes) (buf : BitBuffer)
    (count cc : Nat) (out : List Nat) (b : Nat) (hb : b < CODE_ROWS) (hcc : cc < count) :
    ∀ (t p : List Char) (m i : Nat), p ++ t <+: getCode codes b →
      (p ++ t).length < (getCode codes b).length →
      (∀ j v, (t.map codeBit)[j]? = some v → getBit buf (i + j) = some v) →
      decodeLoop codes buf count (m + t.length) i (decodeState p cc out) =
        decodeLoop codes buf count m (i + t.length) (decodeState (p ++ t) cc out) := by
  intro t
  induction t with
  | nil =>
    intro p m i _ _ _
    rw [List.append_nil]
    rfl
  | cons c t ih =>
    intro p m i hpre hlt hbits
    have hbit : getBit buf i = some (codeBit c) :=
      hbits 0 (codeBit c) (by rw [List.map_cons, List.getElem?_cons_zero])
    have hpre1 : p ++ [c] <+: getCode codes b :=
      List.IsPrefix.trans ⟨t, by simp⟩ hpre
    have hlt1 : (p ++ [c]).length < (getCode codes b).length := by
      simp only [List.length_append, List.length_cons, List.length_nil] at hlt ⊢
      omega
    have e : m + (c :: t).length = (m + t.length) + 1 := by
      rw [List.length_cons]; omega
    rw [e, decodeLoop_grow codes hv buf count _ i cc out p c b hb hpre1 hlt1 hbit hcc,
      ih (p ++ [c]) m (i + 1) (by simpa using hpre) (by simpa using hlt)
        (fun j v hj => by
          have := hbits (j + 1) v (by simpa using hj)
          rw [show i + 1 + j = i + (j + 1) by omega]
          exact this)]
    rw [List.length_cons, show i + 1 + t.length = i + (t.length + 1) by omega,
      List.append_assoc, List.singleton_append]

/-- What a successful run of the decoding loop has done: from a state that has written the bytes
`B` and holds the candidate `p`, it has read bits `t`, written bytes `B'` that complete the count,
and the bits of the candidate and `t` are the codes of the bytes `B'`. -/
theorem decodeLoop_sound (codes : List Char) (hv : ValidTable codes) (buf : BitBuffer)
    (count : Nat) : ∀ (n i : Nat) (p : List Char) (B : List (Fin 256)) (out : List Nat),
      Unfinished codes p → B.length ≤ count →
      decodeLoop codes buf count n i (decodeState p B.length (B.map fun x => x.val)) =
        InflateResult.success out →
      ∃ (B' : List (Fin 256)) (t : List Bool),
        out = (B ++ B').map (fun x => x.val) ∧ B.length + B'.length = count ∧ t.length ≤ n ∧
        (∀ j v, t[j]? = some v → getBit buf (i + j) = some v) ∧
        ((B' = [] ∧ t = []) ∨ p.map codeBit ++ t = codeBits codes B') := by
  have hfin : ∀ (n i : Nat) (p : List Char) (B : List (Fin 256)) (out : List Nat),
      B.length ≤ count → ¬ B.length < count →
      decodeFinish count (decodeState p B.length (B.map fun x => x.val)) =
        InflateResult.success out →
      ∃ (B' : List (Fin 256)) (t : List Bool),
        out = (B ++ B').map (fun x => x.val) ∧ B.length + B'.length = count ∧ t.length ≤ n ∧
        (∀ j v, t[j]? = some v → getBit buf (i + j) = some v) ∧
        ((B' = [] ∧ t = []) ∨ p.map codeBit ++ t = codeBits codes B') := by
    intro n i p B out hle hnot h
    simp only [decodeFinish, decodeState, hnot, if_false, InflateResult.success.injEq] at h
    refine ⟨[], [], ?_, ?_, Nat.zero_le _, ?_, Or.inl ⟨rfl, rfl⟩⟩
    · rw [List.append_nil, h]
    · rw [List.length_nil]; omega
    · intro j v hj
      simp at hj
  intro n
  induction n with
  | zero =>
    intro i p B out _ hle h
    by_cases hcc : B.length < count
    · simp only [decodeLoop, decodeFinish, decodeState, hcc, if_true] at h
      exact absurd h (by simp)
    · exact hfin 0 i p B out hle hcc (by simpa only [decodeLoop] using h)
  | succ n ih =>
    intro i p B out hp hle h
    by_cases hcc : B.length < count
    · cases hg : getBit buf i with
      | none =>
        simp only [decodeLoop, decodeState, hcc, if_true, hg] at h
        exact absurd h (by simp)
      | some v =>
        have hbit : getBit buf i = some (codeBit (bitChar v)) := by
          rw [codeBit_bitChar]; exact hg
        have hshift : ∀ (t : List Bool), (∀ j w, t[j]? = some w →
            getBit buf (i + 1 + j) = some w) →
            ∀ j w, (v :: t)[j]? = some w → getBit buf (i + j) = some w := by
          intro t ht j w hj
          cases j with
          | zero =>
            rw [List.getElem?_cons_zero] at hj
            rw [← Option.some.inj hj]
            exact hg
          | succ j =>
            rw [List.getElem?_cons_succ] at hj
            rw [show i + (j + 1) = i + 1 + j by omega]
            exact ht j w hj
        rcases candidate_cases codes (p ++ [bitChar v]) with ⟨b, hb, heq⟩ | hpart | hinv
        · rw [decodeLoop_match codes hv buf count n i B.length _ p (bitChar v) b hb heq hbit
            hcc] at h
          have hb' : b < 256 := hb
          have e : decodeState [] (B.length + 1) ((B.map fun x => x.val) ++ [b]) =
              decodeState [] (B ++ [(⟨b, hb'⟩ : Fin 256)]).length
                ((B ++ [(⟨b, hb'⟩ : Fin 256)]).map fun x => x.val) := by
            rw [List.length_append, List.length_singleton, List.map_append, List.map_singleton]
          rw [e] at h
          obtain ⟨B', t, hout, hcnt, hlen, hbits, hrel⟩ :=
            ih (i + 1) [] (B ++ [(⟨b, hb'⟩ : Fin 256)]) out (unfinished_nil codes hv)
              (by rw [List.length_append, List.length_singleton]; omega) h
          have hcb : codeBits codes B' = t := by
            rcases hrel with ⟨h1, h2⟩ | h1
            · rw [h1, h2]; rfl
            · rw [← h1]; rfl
          refine ⟨(⟨b, hb'⟩ : Fin 256) :: B', v :: t, ?_, ?_, ?_, hshift t hbits, Or.inr ?_⟩
          · rw [hout, List.append_assoc, List.singleton_append]
          · rw [List.length_append, List.length_singleton] at hcnt
            rw [List.length_cons]; omega
          · rw [List.length_cons]; omega
          · show _ = (getCode codes b).map codeBit ++ codeBits codes B'
            rw [← heq, List.map_append, List.map_singleton, codeBit_bitChar, hcb,
              List.append_assoc, List.singleton_append]
        · obtain ⟨b, hb, hpre, hlt⟩ := hpart
          rw [decodeLoop_grow codes hv buf count n i B.length _ p (bitChar v) b hb hpre hlt hbit
            hcc] at h
          obtain ⟨B', t, hout, hcnt, hlen, hbits, hrel⟩ :=
            ih (i + 1) (p ++ [bitChar v]) B out ⟨b, hb, hpre, hlt⟩ hle h
          refine ⟨B', v :: t, hout, hcnt, ?_, hshift t hbits, Or.inr ?_⟩
          · rw [List.length_cons]; omega
          · rcases hrel with ⟨h1, -⟩ | h1
            · rw [h1, List.length_nil] at hcnt
              omega
            · rw [← h1, List.map_append, List.map_singleton, codeBit_bitChar,
                List.append_assoc, List.singleton_append]
        · rw [decodeLoop_invalid codes hv buf count n i B.length _ p (bitChar v) hp
            (bitChar_binary v) hinv hbit hcc] at h
          exact absurd h (by simp)
    · refine hfin (n + 1) i p B out hle hcc ?_
      simpa only [decodeLoop, decodeState, hcc, if_false] using h

/-! ### The decoder on the bits of a file -/

theorem initial_of_getElem? (t : List Bool) : ∀ (S : List Bool),
    (∀ (j : Nat) (v : Bool), t[j]? = some v → S[j]? = some v) → t <+: S := by
  induction t with
  | nil => intro S _; exact ⟨S, List.nil_append S⟩
  | cons x t ih =>
    intro S h
    cases S with
    | nil =>
      have := h 0 x (List.getElem?_cons_zero)
      simp at this
    | cons y S =>
      have h0 := h 0 x (List.getElem?_cons_zero)
      rw [List.getElem?_cons_zero] at h0
      rw [Option.some.inj h0, List.cons_prefix_cons]
      refine ⟨rfl, ih S ?_⟩
      intro j v hj
      have := h (j + 1) v (by rw [List.getElem?_cons_succ]; exact hj)
      rwa [List.getElem?_cons_succ] at this

theorem getElem?_of_initial (L S : List Bool) (h : L <+: S) (j : Nat) (v : Bool)
    (hj : L[j]? = some v) : S[j]? = some v := by
  obtain ⟨r, rfl⟩ := h
  rw [List.getElem?_append_left (List.getElem?_eq_some.1 hj).1]
  exact hj

/-- The bits of a loaded buffer after the size field are the bits of the file after its first
`SIZE_FIELD` bits. -/
theorem loaded_bits (file : List Nat) (lb : BitBuffer) (hl : loadBitBuffer file = some lb) :
    ((fileBits file).drop SIZE_FIELD).length = getBitCount lb - SIZE_FIELD ∧
      ∀ j v, (getBit lb (SIZE_FIELD + j) = some v ∧ SIZE_FIELD + j < getBitCount lb) ↔
        ((fileBits file).drop SIZE_FIELD)[j]? = some v := by
  obtain ⟨hinv, hbc, hbit⟩ := loadBitBuffer_spec file lb hl
  have hbc' : getBitCount lb = 8 * file.length := hbc
  refine ⟨by rw [List.length_drop, fileBits_length, hbc'], ?_⟩
  intro j v
  rw [List.getElem?_drop, fileBits_getElem?, hbc']
  by_cases hj : SIZE_FIELD + j < 8 * file.length
  · rw [if_pos hj, getBit_of_inv lb hinv _ (by rw [hbc]; exact hj), hbit]
    exact ⟨fun h => h.1, fun h => ⟨h, hj⟩⟩
  · rw [if_neg hj]
    exact ⟨fun h => absurd h.2 hj, fun h => by simp at h⟩

theorem inflate_of_loaded (codes : List Char) (file : List Nat) (lb : BitBuffer) (N : Nat)
    (hl : loadBitBuffer file = some lb) (hN : readSizeLoop lb SIZE_FIELD 0 0 = some N) :
    inflate codes file =
      decodeLoop codes lb N (getBitCount lb - SIZE_FIELD) SIZE_FIELD (decodeState [] 0 []) := by
  rw [inflate_eq_inflateBuffer codes file lb hl, inflateBuffer_eq_decodeLoop codes lb N hN]

theorem unfinished_of_candidate (codes : List Char) (hv : ValidTable codes) (t : List Bool)
    (h : t = [] ∨ lookupCode codes (t.map bitChar) = CODE_PREFIX) :
    Unfinished codes (t.map bitChar) := by
  rcases h with h | h
  · rw [h]
    exact unfinished_nil codes hv
  · exact unfinished_of_lookupCode codes hv _ h

/-- C14: for every valid table and every buffer that `loadBitBuffer` loaded from a file, with the
number `N` read from its size field: if `inflate` succeeds, it has written exactly `N` bytes
`b₁ … b_N`, and the bits of the buffer from position `SIZE_FIELD` on begin with the codes of
`b₁ … b_N`, one after the other; if after the codes of fewer than `N` bytes the bits go on with a
candidate that `lookupCode` reports as `CODE_INVALID`, or if they end there, inside a code or
between two codes, `inflate` ends with the message `Invalid input file`. The buffers of at least
`SIZE_FIELD` bits are among those the statement covers. -/
theorem inflate_sound (codes : List Char) (hv : ValidTable codes) (file : List Nat)
    (lb : BitBuffer) (N : Nat) (hl : loadBitBuffer file = some lb)
    (hN : readSizeLoop lb SIZE_FIELD 0 0 = some N) :
    (∀ out, inflate codes file = InflateResult.success out →
      ∃ B : List (Fin 256), out = B.map (fun x => x.val) ∧ B.length = N ∧
        codeBits codes B <+: (fileBits file).drop SIZE_FIELD) ∧
    (∀ (B : List (Fin 256)) (t : List Bool) (v : Bool), B.length < N →
      codeBits codes B ++ (t ++ [v]) <+: (fileBits file).drop SIZE_FIELD →
      (t = [] ∨ lookupCode codes (t.map bitChar) = CODE_PREFIX) →
      lookupCode codes ((t ++ [v]).map bitChar) = CODE_INVALID →
      inflate codes file = InflateResult.invalidInput (B.map fun x => x.val)) ∧
    (∀ (B : List (Fin 256)) (t : List Bool), B.length < N →
      codeBits codes B ++ t = (fileBits file).drop SIZE_FIELD →
      (t = [] ∨ lookupCode codes (t.map bitChar) = CODE_PREFIX) →
      inflate codes file = InflateResult.invalidInput (B.map fun x => x.val)) := by
  have hinf := inflate_of_loaded codes file lb N hl hN
  obtain ⟨hlen, hbits⟩ := loaded_bits file lb hl
  refine ⟨?_, ?_, ?_⟩
  · intro out h
    rw [hinf] at h
    obtain ⟨B', t, hout, hcnt, htlen, htb, hrel⟩ :=
      decodeLoop_sound codes hv lb N _ SIZE_FIELD [] [] out (unfinished_nil codes hv)
        (Nat.zero_le N) h
    have hcb : codeBits codes B' = t := by
      rcases hrel with ⟨h1, h2⟩ | h1
      · rw [h1, h2]; rfl
      · rw [← h1]; rfl
    refine ⟨B', by rw [hout, List.nil_append], by rw [← hcnt, List.length_nil, Nat.zero_add], ?_⟩
    rw [hcb]
    apply initial_of_getElem?
    intro j v hj
    have hj' : j < t.length := (List.getElem?_eq_some.1 hj).1
    have hg := htb j v hj
    cases hs : ((fileBits file).drop SIZE_FIELD)[j]? with
    | some w =>
      have := ((hbits j w).2 hs).1
      rw [hg] at this
      rw [Option.some.inj this]
    | none =>
      rw [List.getElem?_eq_none_iff, hlen] at hs
      omega
  · intro B t v hB hpre hcand hlook
    have hpart := unfinished_of_candidate codes hv t hcand
    obtain ⟨b, hb, hpb, hltb⟩ := hpart
    have hget : ∀ j w, (codeBits codes B ++ (t ++ [v]))[j]? = some w →
        getBit lb (SIZE_FIELD + j) = some w :=
      fun j w hj => ((hbits j w).2 (getElem?_of_initial _ _ hpre j w hj)).1
    have hle := hpre.length_le
    rw [hlen, List.length_append, List.length_append, List.length_singleton] at hle
    obtain ⟨m, hm⟩ : ∃ m, getBitCount lb - SIZE_FIELD =
        m + 1 + (t.map bitChar).length + (codeBits codes B).length :=
      ⟨getBitCount lb - SIZE_FIELD - (codeBits codes B).length - t.length - 1, by
        rw [List.length_map]; omega⟩
    have hcc : 0 + B.length < N := by omega
    have h1 := decodeLoop_all codes hv lb N B (m + 1 + (t.map bitChar).length) SIZE_FIELD 0 []
      (by omega) (fun j w hj => hget j w (by
        rw [List.getElem?_append_left (List.getElem?_eq_some.1 hj).1]
        exact hj))
    have h2 := decodeLoop_advance codes hv lb N (0 + B.length) ([] ++ B.map fun x => x.val) b hb
      hcc (t.map bitChar) [] (m + 1) (SIZE_FIELD + (codeBits codes B).length)
      (by rw [List.nil_append]; exact hpb) (by rw [List.nil_append]; exact hltb)
      (fun j w hj => by
        rw [map_codeBit_bitChar] at hj
        rw [Nat.add_assoc]
        apply hget
        rw [List.getElem?_append_right (Nat.le_add_right _ _), Nat.add_sub_cancel_left,
          List.getElem?_append_left (List.getElem?_eq_some.1 hj).1]
        exact hj)
    have h3 := decodeLoop_invalid codes hv lb N m
      (SIZE_FIELD + (codeBits codes B).length + (t.map bitChar).length) (0 + B.length)
      ([] ++ B.map fun x => x.val) ([] ++ t.map bitChar) (bitChar v)
      (by rw [List.nil_append]; exact ⟨b, hb, hpb, hltb⟩) (bitChar_binary v)
      (by
        rw [List.nil_append]
        rw [List.map_append, List.map_singleton] at hlook
        exact hlook)
      (by
        rw [codeBit_bitChar, Nat.add_assoc, List.length_map]
        apply hget
        rw [List.getElem?_append_right (Nat.le_add_right _ _), Nat.add_sub_cancel_left,
          List.getElem?_append_right (Nat.le_refl _), Nat.sub_self]
        rfl)
      hcc
    rw [hinf, hm, h1, h2, h3, List.nil_append]
  · intro B t hB heq hcand
    have hpart := unfinished_of_candidate codes hv t hcand
    obtain ⟨b, hb, hpb, hltb⟩ := hpart
    have hget : ∀ j w, (codeBits codes B ++ t)[j]? = some w →
        getBit lb (SIZE_FIELD + j) = some w :=
      fun j w hj => ((hbits j w).2 (by rw [← heq]; exact hj)).1
    have hle : getBitCount lb - SIZE_FIELD =
        (t.map bitChar).length + (codeBits codes B).length := by
      rw [← hlen, ← heq, List.length_append, List.length_map]
      omega
    have hcc : 0 + B.length < N := by omega
    have h1 := decodeLoop_all codes hv lb N B (t.map bitChar).length SIZE_FIELD 0 []
      (by omega) (fun j w hj => hget j w (by
        rw [List.getElem?_append_left (List.getElem?_eq_some.1 hj).1]
        exact hj))
    have h2 := decodeLoop_truncated codes hv lb N (0 + B.length) ([] ++ B.map fun x => x.val) b
      hb hcc (t.map bitChar) [] (SIZE_FIELD + (codeBits codes B).length)
      (by rw [List.nil_append]; exact hpb) (by rw [List.nil_append]; exact hltb)
      (fun j w hj => by
        rw [map_codeBit_bitChar] at hj
        rw [Nat.add_assoc]
        apply hget
        rw [List.getElem?_append_right (Nat.le_add_right _ _), Nat.add_sub_cancel_left]
        exact hj)
    rw [hinf, hle, h1, h2, List.nil_append]

/-- In the table of the example scenario the candidate `10100000` is a proper prefix of the code
of byte 64, and the candidate `101000001` is reported as `CODE_INVALID`. -/
theorem exampleCodes_candidates :
    lookupCode exampleCodes
        (([true, false, true, false, false, false, false, false] : List Bool).map bitChar) =
      CODE_PREFIX ∧
    lookupCode exampleCodes
        ((([true, false, true, false, false, false, false, false] : List Bool) ++ [true]).map
          bitChar) = CODE_INVALID := by
  have hlens : ∀ k, k < CODE_ROWS →
      (getCode exampleCodes k).length = 2 ∨ getCode exampleCodes k = '1' :: binaryCode 8 k ∧
        k ≠ 65 := by
    intro k hk
    rw [exampleCodes_getCode k hk]
    by_cases h65 : k = 65
    · rw [if_pos h65]; exact Or.inl rfl
    · rw [if_neg h65]
      by_cases h66 : k = 66
      · rw [if_pos h66]; exact Or.inl rfl
      · rw [if_neg h66]; exact Or.inr ⟨rfl, h65⟩
  constructor
  · apply lookupCode_proper exampleCodes _ 64 (by decide)
    · rw [exampleCodes_getCode 64 (by decide)]
      decide
    · intro k hk e
      have hl := congrArg List.length e
      rcases hlens k hk with h | ⟨h, -⟩
      · rw [h] at hl
        exact absurd hl (by decide)
      · rw [h, List.length_cons, binaryCode_length] at hl
        exact absurd hl (by decide)
  · apply lookupCode_invalid
    intro k hk hpre
    have hle := hpre.length_le
    rcases hlens k hk with h | ⟨h, hne⟩
    · rw [h] at hle
      exact absurd hle (by decide)
    · rw [h] at hpre
      have heq := List.IsPrefix.eq_of_length_le hpre (by
        rw [List.length_cons, binaryCode_length]
        decide)
      have h65 : (([true, false, true, false, false, false, false, false] : List Bool) ++
          [true]).map bitChar = '1' :: binaryCode 8 65 := by decide
      rw [h65] at heq
      simp only [List.cons.injEq, true_and] at heq
      exact hne (binaryCode_inj 8 65 k (by decide) hk heq).symm

theorem sample_inflate :
    inflate sampleCodes [0, 0, 0, 2, 65, 66] =
      InflateResult.success (([65, 66] : List (Fin 256)).map fun x => x.val) :=
  inflate_deflate_loaded sampleCodes sampleCodes_valid [65, 66] [0, 0, 0, 2, 65, 66]
    { data := [0, 0, 0, 2, 65, 66], bitCount := 48, cap := 6 } sample_deflate (by decide)

theorem sample_cut_bits :
    codeBits sampleCodes [65] ++ [] = (fileBits [0, 0, 0, 2, 65]).drop SIZE_FIELD := by
  have h65 : getCode sampleCodes (65 : Fin 256).val = binaryCode 8 65 :=
    sampleCodes_getCode _ (by decide)
  simp only [codeBits, h65]
  decide

theorem inflate_sound_witness :
    (∃ B : List (Fin 256), (([65, 66] : List (Fin 256)).map fun x => x.val) =
        B.map (fun x => x.val) ∧ B.length = 2 ∧
        codeBits sampleCodes B <+: (fileBits [0, 0, 0, 2, 65, 66]).drop SIZE_FIELD) ∧
    inflate exampleCodes [0, 0, 0, 1, 160, 128] =
      InflateResult.invalidInput (([] : List (Fin 256)).map fun x => x.val) ∧
    inflate sampleCodes [0, 0, 0, 2, 65] =
      InflateResult.invalidInput (([65] : List (Fin 256)).map fun x => x.val) :=
  ⟨(inflate_sound sampleCodes sampleCodes_valid [0, 0, 0, 2, 65, 66]
      { data := [0, 0, 0, 2, 65, 66], bitCount := 48, cap := 6 } 2 (by decide) (by decide)).1
      _ sample_inflate,
    (inflate_sound exampleCodes exampleCodes_valid.1 [0, 0, 0, 1, 160, 128]
      { data := [0, 0, 0, 1, 160, 128], bitCount := 48, cap := 6 } 1 (by decide)
      (by decide)).2.1 [] [true, false, true, false, false, false, false, false] true
      (by decide) (by decide) (Or.inr exampleCodes_candidates.1) exampleCodes_candidates.2,
    (inflate_sound sampleCodes sampleCodes_valid [0, 0, 0, 2, 65]
      { data := [0, 0, 0, 2, 65], bitCount := 40, cap := 5 } 2 (by decide) (by decide)).2.2
      [65] [] (by decide) sample_cut_bits (Or.inl rfl)⟩

/-! ### The calls of `getBit` on a short file -/

theorem readSizeCalls_mem (n i idx : Nat) : idx ∈ readSizeCalls n i ↔ i ≤ idx ∧ idx < i + n := by
  induction n generalizing i with
  | zero =>
    simp only [readSizeCalls, List.not_mem_nil, false_iff]
    omega
  | succ n ih =>
    rw [readSizeCalls, List.mem_cons, ih]
    omega

/-- On a buffer of at least `SIZE_FIELD` bits the loop over the size field calls `getBit` with
indices below the bit count only. -/
theorem readSizeCalls_in_range (buffer : BitBuffer) (h : SIZE_FIELD ≤ getBitCount buffer) :
    ∀ idx ∈ readSizeCalls SIZE_FIELD 0, idx < getBitCount buffer := by
  intro idx hidx
  rw [readSizeCalls_mem] at hidx
  omega

/-- C20, evaluated on the empty file and on a file of one byte: `loadBitBuffer` returns a buffer
of 0 (of 8) bits, the loop of `inflate` over the size field calls `getBit (buffer, idx)` for
`idx = 0, …, 31`, indices that are not below the bit count, reads the zero bytes of the array
there, and `inflate` ends with `EXIT_SUCCESS` and an empty output. -/
theorem inflate_short_file :
    (loadBitBuffer [] = some makeBitBuffer ∧ getBitCount makeBitBuffer = 0 ∧
      readSizeCalls SIZE_FIELD 0 = List.range 32 ∧
      (∀ idx ∈ readSizeCalls SIZE_FIELD 0, ¬ idx < getBitCount makeBitBuffer) ∧
      readSizeLoop makeBitBuffer SIZE_FIELD 0 0 = some 0 ∧
      inflate sampleCodes [] = InflateResult.success []) ∧
    (loadBitBuffer [0] = some { data := [0, 0, 0, 0], bitCount := 8, cap := 4 } ∧
      (∃ idx ∈ readSizeCalls SIZE_FIELD 0,
        ¬ idx < getBitCount { data := [0, 0, 0, 0], bitCount := 8, cap := 4 }) ∧
      inflate sampleCodes [0] = InflateResult.success []) := by
  refine ⟨⟨by decide, rfl, by decide, by decide, by decide, by decide⟩,
    by decide, ⟨8, by decide, by decide⟩, by decide⟩

/-! ### The candidate string of the decoder -/

/-- The decoding loop runs its body once per iteration. -/
theorem decodeLoop_succ (codes : List Char) (buffer : BitBuffer) (count n i : Nat)
    (s : DecodeState) :
    decodeLoop codes buffer count (n + 1) i s =
      if s.charcount < count then
        match decodeStep codes buffer i s with
        | StepResult.next s' => decodeLoop codes buffer count n (i + 1) s'
        | StepResult.invalidInput => InflateResult.invalidInput s.output
        | StepResult.undefined => InflateResult.undefined
      else decodeFinish count s := by
  by_cases hcc : s.charcount < count
  · rw [if_pos hcc, decodeLoop, if_pos hcc]
    unfold decodeStep
    cases getBit buffer i with
    | none => rfl
    | some v =>
      simp only []
      by_cases h1 : s.bitscount < s.bits.length
      · rw [if_pos h1, if_pos h1]
        by_cases h2 : NUL ∈ s.bits.set s.bitscount (if v = false then '0' else '1')
        · simp only [h2, if_true]
          split_ifs <;> rfl
        · simp only [h2, if_false]
      · rw [if_neg h1, if_neg h1]
  · rw [if_neg hcc, decodeLoop, if_neg hcc]

/-- What the body of the decoding loop does when the candidate is a proper prefix of a code: the
new bit completes a code and the candidate is reset, or the candidate grows and is again a proper
prefix of a code, or `inflate` reports an invalid input file. -/
theorem decodeStep_cases (codes : List Char) (hv : ValidTable codes) (buffer : BitBuffer)
    (i cc : Nat) (out : List Nat) (p : List Char) (v : Bool) (hp : Unfinished codes p)
    (hg : getBit buffer i = some v) :
    (∃ b, b < CODE_ROWS ∧ p ++ [bitChar v] = getCode codes b ∧
      decodeStep codes buffer i (decodeState p cc out) =
        StepResult.next (decodeState [] (cc + 1) (out ++ [b]))) ∨
    (Unfinished codes (p ++ [bitChar v]) ∧
      decodeStep codes buffer i (decodeState p cc out) =
        StepResult.next (decodeState (p ++ [bitChar v]) cc out)) ∨
    decodeStep codes buffer i (decodeState p cc out) = StepResult.invalidInput := by
  obtain ⟨hplt, hpbin⟩ := unfinished_bound codes hv p hp
  have hplen : p.length < CODE_MAX + 1 := by omega
  have hpc : ∀ x ∈ p ++ [bitChar v], isBinary x := by
    intro x hx
    rcases List.mem_append.1 hx with h | h
    · exact hpbin x h
    · rw [List.mem_singleton.1 h]; exact bitChar_binary v
  have hnul : NUL ∈ bitsArray (p ++ [bitChar v]) :=
    NUL_mem_bitsArray _ (by rw [List.length_append, List.length_singleton]; omega)
  have hch : (if v = false then '0' else '1') = bitChar v := rfl
  have hP : CODE_PREFIX = (-1 : Int) := rfl
  have hI : CODE_INVALID = (-2 : Int) := rfl
  have hR : CODE_ROWS = 256 := rfl
  have heval : decodeStep codes buffer i (decodeState p cc out) =
      if lookupCode codes (p ++ [bitChar v]) ≥ 0 then
        StepResult.next (decodeState [] (cc + 1)
          (out ++ [(lookupCode codes (p ++ [bitChar v])).toNat % 256]))
      else if lookupCode codes (p ++ [bitChar v]) = CODE_INVALID then StepResult.invalidInput
      else if lookupCode codes (p ++ [bitChar v]) = CODE_PREFIX then
        StepResult.next (decodeState (p ++ [bitChar v]) cc out)
      else StepResult.next
        { bits := bitsArray (p ++ [bitChar v]), bitscount := p.length, charcount := cc,
          output := out } := by
    simp only [decodeStep, decodeState, hg, bitsArray_length p (Nat.le_of_lt hplen), hplen,
      if_true, hch, bitsArray_set p (bitChar v) hplen, hnul, cstr_bitsArray _ hpc,
      List.length_append, List.length_singleton]
    rfl
  rcases candidate_cases codes (p ++ [bitChar v]) with ⟨b, hb, heq⟩ | hpart | hinv
  · refine Or.inl ⟨b, hb, heq, ?_⟩
    have hlook : lookupCode codes (p ++ [bitChar v]) = (b : Int) := by
      rw [heq]; exact lookupCode_exact codes hv b hb
    have hmod : (b : Int).toNat % 256 = b := by
      rw [Int.toNat_ofNat]; omega
    rw [heval, hlook, if_pos (Int.ofNat_nonneg b), hmod]
  · refine Or.inr (Or.inl ⟨hpart, ?_⟩)
    obtain ⟨b, hb, hpre, hlt⟩ := hpart
    have hne : ∀ k, k < CODE_ROWS → p ++ [bitChar v] ≠ getCode codes k := by
      intro k hk e
      by_cases hkb : k = b
      · subst hkb
        rw [← e] at hlt
        omega
      · exact hv.2 k b hk hb hkb (e ▸ hpre)
    have hlook : lookupCode codes (p ++ [bitChar v]) = CODE_PREFIX :=
      lookupCode_proper codes (p ++ [bitChar v]) b hb hpre hne
    rw [heval, hlook, if_neg (by rw [hP]; omega), if_neg (by rw [hP, hI]; omega), if_pos rfl]
  · refine Or.inr (Or.inr ?_)
    rw [heval, hinv, if_neg (by rw [hI]; omega), if_pos rfl]

/-- Every state of the decoding loop holds a candidate that is a proper prefix of a code, when
the first one does. -/
theorem decodeTrace_unfinished (codes : List Char) (hv : ValidTable codes) (buffer : BitBuffer)
    (count : Nat) : ∀ (n i cc : Nat) (out : List Nat) (p : List Char), Unfinished codes p →
      ∀ s ∈ decodeTrace codes buffer count n i (decodeState p cc out),
        ∃ p' cc' out', s = decodeState p' cc' out' ∧ Unfinished codes p' := by
  intro n
  induction n with
  | zero =>
    intro i cc out p hp s hs
    rw [decodeTrace, List.mem_singleton] at hs
    exact ⟨p, cc, out, hs, hp⟩
  | succ n ih =>
    intro i cc out p hp s hs
    rw [decodeTrace, List.mem_cons] at hs
    rcases hs with hs | hs
    · exact ⟨p, cc, out, hs, hp⟩
    · by_cases hcc : (decodeState p cc out).charcount < count
      · rw [if_pos hcc] at hs
        cases hg : getBit buffer i with
        | none =>
          have hstep : decodeStep codes buffer i (decodeState p cc out) =
              StepResult.undefined := by
            unfold decodeStep
            rw [hg]
          rw [hstep] at hs
          exact absurd hs (List.not_mem_nil s)
        | some v =>
          rcases decodeStep_cases codes hv buffer i cc out p v hp hg with
            ⟨b, -, -, hstep⟩ | ⟨hpart, hstep⟩ | hstep
          · rw [hstep] at hs
            exact ih (i + 1) (cc + 1) (out ++ [b]) [] (unfinished_nil codes hv) s hs
          · rw [hstep] at hs
            exact ih (i + 1) cc out (p ++ [bitChar v]) hpart s hs
          · rw [hstep] at hs
            exact absurd hs (List.not_mem_nil s)
      · rw [if_neg hcc] at hs
        exact absurd hs (List.not_mem_nil s)

/-- The decoding loop on bits that lie in the array of the buffer ends with `EXIT_SUCCESS` or with
the message `Invalid input file`. -/
theorem decodeLoop_defined (codes : List Char) (hv : ValidTable codes) (buffer : BitBuffer)
    (count : Nat) : ∀ (n i cc : Nat) (out : List Nat) (p : List Char), Unfinished codes p →
      (∀ j, j < n → ∃ v, getBit buffer (i + j) = some v) →
      decodeLoop codes buffer count n i (decodeState p cc out) ≠ InflateResult.undefined := by
  have hfin : ∀ (s : DecodeState), decodeFinish count s ≠ InflateResult.undefined := by
    intro s
    unfold decodeFinish
    split <;> simp
  intro n
  induction n with
  | zero =>
    intro i cc out p _ _
    rw [decodeLoop]
    exact hfin _
  | succ n ih =>
    intro i cc out p hp hbits
    rw [decodeLoop_succ]
    by_cases hcc : (decodeState p cc out).charcount < count
    · rw [if_pos hcc]
      obtain ⟨v, hg⟩ := hbits 0 (Nat.succ_pos n)
      have hnext : ∀ j, j < n → ∃ w, getBit buffer (i + 1 + j) = some w := by
        intro j hj
        rw [show i + 1 + j = i + (j + 1) by omega]
        exact hbits (j + 1) (by omega)
      rcases decodeStep_cases codes hv buffer i cc out p v hp hg with
        ⟨b, -, -, hstep⟩ | ⟨hpart, hstep⟩ | hstep
      · rw [hstep]
        exact ih (i + 1) (cc + 1) (out ++ [b]) [] (unfinished_nil codes hv) hnext
      · rw [hstep]
        exact ih (i + 1) cc out (p ++ [bitChar v]) hpart hnext
      · rw [hstep]
        simp
    · rw [if_neg hcc]
      exact hfin _

theorem appendBits_reachable (vs : List Bool) : ∀ (b b' : BitBuffer), Reachable b →
    appendBits b vs = some b' → Reachable b' := by
  induction vs with
  | nil =>
    intro b b' hr h
    rw [appendBits, Option.some.injEq] at h
    exact h ▸ hr
  | cons v vs ih =>
    intro b b' hr h
    rw [appendBits] at h
    cases h1 : appendBit b v with
    | none =>
      rw [h1] at h
      exact absurd h (by simp)
    | some b1 =>
      rw [h1] at h
      exact ih b1 b' (Reachable.append b b1 v hr h1) h

/-- A loaded buffer has an array of at least `START_SIZE` bytes that holds all its bits. -/
theorem loadBitBuffer_array (file : List Nat) (lb : BitBuffer)
    (hl : loadBitBuffer file = some lb) :
    SIZE_FIELD ≤ 8 * lb.data.length ∧ getBitCount lb ≤ 8 * lb.data.length := by
  have hr : Reachable lb := by
    unfold loadBitBuffer at hl
    rw [loadBitsLoop_eq] at hl
    exact appendBits_reachable _ _ _ Reachable.make hl
  obtain ⟨hwf, hfit, hcap, -⟩ := reachable_state lb hr
  have hwf' : lb.data.length = lb.cap := hwf
  have hS : SIZE_FIELD = 32 := rfl
  have hT : START_SIZE = 4 := rfl
  rw [hT] at hcap
  rw [hwf', hS]
  refine ⟨by omega, ?_⟩
  show lb.bitCount ≤ _
  omega

theorem getBit_defined (b : BitBuffer) (idx : Nat) (h : idx < 8 * b.data.length) :
    ∃ v, getBit b idx = some v :=
  ⟨_, getBit_eq_bitAt b idx (by omega)⟩

theorem readSizeLoop_defined (buffer : BitBuffer)
    (h : ∀ j, j < SIZE_FIELD → ∃ v, getBit buffer j = some v) :
    ∀ (n i count : Nat), i + n ≤ SIZE_FIELD → ∃ N, readSizeLoop buffer n i count = some N := by
  intro n
  induction n with
  | zero => intro i count _; exact ⟨count, rfl⟩
  | succ n ih =>
    intro i count hin
    obtain ⟨v, hv⟩ := h i (by omega)
    rw [readSizeLoop, hv]
    exact ih (i + 1) _ (by omega)

/-- On every file that `loadBitBuffer` loads, `inflate` with a valid table ends with
`EXIT_SUCCESS` or with the message `Invalid input file`. -/
theorem inflate_defined (codes : List Char) (hv : ValidTable codes) (file : List Nat)
    (lb : BitBuffer) (hl : loadBitBuffer file = some lb) :
    inflate codes file ≠ InflateResult.undefined := by
  obtain ⟨h32, hfit⟩ := loadBitBuffer_array file lb hl
  obtain ⟨N, hN⟩ := readSizeLoop_defined lb
    (fun j hj => getBit_defined lb j (by omega)) SIZE_FIELD 0 0 (by omega)
  rw [inflate_of_loaded codes file lb N hl hN]
  exact decodeLoop_defined codes hv lb N _ SIZE_FIELD 0 [] [] (unfinished_nil codes hv)
    (fun j hj => getBit_defined lb _ (by omega))

/-- C21: for every valid table, every buffer and every count, at every evaluation of the
condition of the decoding loop of `inflate` the write index `bitscount` is at most `23`, the
array `bits` has its `25` cells, and the candidate string in it has `bitscount` characters; so
the store `bits[bitscount]` of the next bit lies inside the array, and after it the array still
holds a terminator and a candidate of at most `24` characters. Hence on every file that
`loadBitBuffer` loads, whatever its bits are, `inflate` ends with `EXIT_SUCCESS` or with the
message `Invalid input file`, never in an undefined store or an unterminated candidate. -/
theorem candidate_bound (codes : List Char) (hv : ValidTable codes) (buffer : BitBuffer)
    (count n i : Nat) :
    (∀ s ∈ decodeTrace codes buffer count n i
        { bits := List.replicate (CODE_MAX + 1) NUL, bitscount := 0, charcount := 0,
          output := [] },
      s.bitscount ≤ 23 ∧ s.bits.length = CODE_MAX + 1 ∧ s.bitscount < s.bits.length ∧
        strlen (cstr s.bits) = s.bitscount ∧
        ∀ v : Bool, NUL ∈ s.bits.set s.bitscount (bitChar v) ∧
          strlen (cstr (s.bits.set s.bitscount (bitChar v))) ≤ CODE_MAX) ∧
    (∀ file, loadBitBuffer file = some buffer → inflate codes file ≠ InflateResult.undefined) := by
  have hM : CODE_MAX = 24 := rfl
  refine ⟨?_, fun file hl => inflate_defined codes hv file buffer hl⟩
  intro s hs
  obtain ⟨p, cc, out, rfl, hp⟩ :=
    decodeTrace_unfinished codes hv buffer count n i 0 [] [] (unfinished_nil codes hv) s hs
  obtain ⟨hplt, hpbin⟩ := unfinished_bound codes hv p hp
  have hplen : p.length < CODE_MAX + 1 := by omega
  have hlen : (bitsArray p).length = CODE_MAX + 1 := bitsArray_length p (Nat.le_of_lt hplen)
  refine ⟨?_, hlen, ?_, ?_, ?_⟩
  · show p.length ≤ 23
    omega
  · show p.length < (bitsArray p).length
    rw [hlen]
    exact hplen
  · show strlen (cstr (bitsArray p)) = p.length
    rw [cstr_bitsArray p hpbin]
    rfl
  · intro v
    have hpc : ∀ x ∈ p ++ [bitChar v], isBinary x := by
      intro x hx
      rcases List.mem_append.1 hx with h | h
      · exact hpbin x h
      · rw [List.mem_singleton.1 h]; exact bitChar_binary v
    show NUL ∈ (bitsArray p).set p.length (bitChar v) ∧
      strlen (cstr ((bitsArray p).set p.length (bitChar v))) ≤ CODE_MAX
    rw [bitsArray_set p (bitChar v) hplen, cstr_bitsArray _ hpc]
    refine ⟨NUL_mem_bitsArray _ (by rw [List.length_append, List.length_singleton]; omega), ?_⟩
    unfold strlen
    rw [List.length_append, List.length_singleton]
    omega

theorem candidate_bound_witness :
    (∀ s ∈ decodeTrace sampleCodes trailingBuffer 2 24 32
        { bits := List.replicate (CODE_MAX + 1) NUL, bitscount := 0, charcount := 0,
          output := [] },
      s.bitscount ≤ 23 ∧ s.bits.length = CODE_MAX + 1 ∧ s.bitscount < s.bits.length ∧
        strlen (cstr s.bits) = s.bitscount ∧
        ∀ v : Bool, NUL ∈ s.bits.set s.bitscount (bitChar v) ∧
          strlen (cstr (s.bits.set s.bitscount (bitChar v))) ≤ CODE_MAX) ∧
    (∀ file, loadBitBuffer file = some trailingBuffer →
      inflate sampleCodes file ≠ InflateResult.undefined) :=
  candidate_bound sampleCodes sampleCodes_valid trailingBuffer 2 24 32

/-! ### Sequences of calls on a new buffer -/

theorem reachable_inv (b : BitBuffer) (h : Reachable b) : b.Inv := by
  obtain ⟨hwf, hfit, hcap, -⟩ := reachable_state b h
  have hS : START_SIZE = 4 := rfl
  rw [hS] at hcap
  refine ⟨hwf, hfit, ?_⟩
  rw [hS]
  omega

/-- A list of calls whose `appendBit` calls leave the bit count at most `INT_MAX - 6`, and whose
`setBit` calls have an index below the bit count, is defined on a reachable buffer and leads to a
reachable buffer, with one more bit for every `appendBit` call. -/
theorem runCalls_reachable (calls : List BufferCall) : ∀ (b : BitBuffer), Reachable b →
    setsBelowCount b.bitCount calls = true → b.bitCount + appendCount calls ≤ INT_MAX - 6 →
    ∃ b', runCalls b calls = some b' ∧ Reachable b' ∧
      b'.bitCount = b.bitCount + appendCount calls := by
  induction calls with
  | nil =>
    intro b hr _ _
    exact ⟨b, rfl, hr, rfl⟩
  | cons c rest ih =>
    intro b hr hsets hlen
    cases c with
    | appendBit v =>
      rw [appendCount] at hlen
      rw [setsBelowCount] at hsets
      obtain ⟨b1, hb1⟩ := appendBit_defined b v (reachable_inv b hr) (by omega)
      obtain ⟨-, hcount, -⟩ := appendBit_spec b b1 v (reachable_state b hr).1 hb1
      obtain ⟨b', hrun, hr', hc'⟩ := ih b1 (Reachable.append b b1 v hr hb1)
        (by rw [hcount]; exact hsets) (by rw [hcount]; omega)
      refine ⟨b', ?_, hr', ?_⟩
      · rw [runCalls, hb1]
        exact hrun
      · rw [hc', hcount, appendCount]
        omega
    | setBit idx v =>
      rw [appendCount] at hlen
      rw [setsBelowCount, Bool.and_eq_true, decide_eq_true_eq] at hsets
      obtain ⟨hwf, hfit, -, -⟩ := reachable_state b hr
      have hwf' : b.data.length = b.cap := hwf
      obtain ⟨b1, hb1, hcount, -, -, -⟩ := setBit_spec b idx v (by rw [hwf']; omega)
      obtain ⟨b', hrun, hr', hc'⟩ := ih b1 (Reachable.set b b1 idx v hr hsets.1 hb1)
        (by rw [hcount]; exact hsets.2) (by rw [hcount]; exact hlen)
      refine ⟨b', ?_, hr', ?_⟩
      · rw [runCalls, hb1]
        exact hrun
      · rw [hc', hcount, appendCount]

/-- C19, amended: every list of calls of `appendBit` and of `setBit` with `idx < bitCount` that
holds at most `INT_MAX - 6 = 2 ^ 31 - 7` calls of `appendBit` is defined on the buffer that
`makeBitBuffer ()` returns, and the buffer it leads to has one bit for every `appendBit` call,
`bitCount <= cap * 8` and `cap == max (4, ceil (bitCount / 8))`, and every bit of its array at an
index from `bitCount` on is zero; so the bits that `saveBitBuffer` writes after the first
`bitCount` bits, the padding of the last byte, are zero. As every initial part of such a list is
such a list, this holds of every buffer on the way as well. -/
theorem calls_invariant (calls : List BufferCall) (hsets : setsBelowCount 0 calls = true)
    (hlen : appendCount calls ≤ INT_MAX - 6) :
    ∃ b, runCalls makeBitBuffer calls = some b ∧ getBitCount b = appendCount calls ∧
      getBitCount b ≤ b.cap * BYTE_SIZE ∧
      b.cap = max START_SIZE ((getBitCount b + (BYTE_SIZE - 1)) / BYTE_SIZE) ∧
      (∀ j, getBitCount b ≤ j → j < b.cap * BYTE_SIZE → getBit b j = some false) ∧
      ∀ j, getBitCount b ≤ j → bitAt (saveBitBuffer b) j = false := by
  have hz : makeBitBuffer.bitCount = 0 := rfl
  obtain ⟨b, hrun, hr, hcount⟩ := runCalls_reachable calls makeBitBuffer Reachable.make
    (by rw [hz]; exact hsets) (by rw [hz, Nat.zero_add]; exact hlen)
  rw [hz, Nat.zero_add] at hcount
  exact ⟨b, hrun, hcount, reachable_bits b hr⟩

theorem calls_invariant_witness :
    ∃ b, runCalls makeBitBuffer
        [BufferCall.appendBit true, BufferCall.appendBit true, BufferCall.setBit 0 false,
          BufferCall.appendBit true] = some b ∧
      getBitCount b = appendCount
        [BufferCall.appendBit true, BufferCall.appendBit true, BufferCall.setBit 0 false,
          BufferCall.appendBit true] ∧
      getBitCount b ≤ b.cap * BYTE_SIZE ∧
      b.cap = max START_SIZE ((getBitCount b + (BYTE_SIZE - 1)) / BYTE_SIZE) ∧
      (∀ j, getBitCount b ≤ j → j < b.cap * BYTE_SIZE → getBit b j = some false) ∧
      ∀ j, getBitCount b ≤ j → bitAt (saveBitBuffer b) j = false :=
  calls_invariant
    [BufferCall.appendBit true, BufferCall.appendBit true, BufferCall.setBit 0 false,
      BufferCall.appendBit true] (by decide) (by decide)

theorem runCalls_appends (v : Bool) : ∀ (n : Nat) (b : BitBuffer),
    runCalls b (List.replicate n (BufferCall.appendBit v)) =
      appendBits b (List.replicate n v) := by
  intro n
  induction n with
  | zero => intro b; rfl
  | succ n ih =>
    intro b
    rw [List.replicate_succ, List.replicate_succ, runCalls, appendBits]
    cases appendBit b v with
    | none => rfl
    | some b1 => exact ih b1

theorem setsBelowCount_appends (v : Bool) : ∀ (n k : Nat),
    setsBelowCount k (List.replicate n (BufferCall.appendBit v)) = true := by
  intro n
  induction n with
  | zero => intro k; rfl
  | succ n ih =>
    intro k
    rw [List.replicate_succ, setsBelowCount]
    exact ih (k + 1)

theorem appendCount_appends (v : Bool) : ∀ (n : Nat),
    appendCount (List.replicate n (BufferCall.appendBit v)) = n := by
  intro n
  induction n with
  | zero => rfl
  | succ n ih => rw [List.replicate_succ, appendCount, ih]

/-- C19 as stated fails on the list of `INT_MAX - 5 = 2 ^ 31 - 6` calls `appendBit (0)`, which
holds no call of `setBit`: the first `INT_MAX - 6` calls lead to a buffer of `2 ^ 31 - 7` bits
with `cap == 2 ^ 28`, on which the product `cap * BYTE_SIZE` in the test of `appendBit` leaves the
range of `int`, so the next call is not defined and the list leads to no buffer that satisfies
the invariant. A list of `2 ^ 31` such calls would need a bit count that is no value of an
`int`. -/
theorem calls_int_limit :
    (setsBelowCount 0 (List.replicate (INT_MAX - 5) (BufferCall.appendBit false)) = true ∧
      appendCount (List.replicate (INT_MAX - 5) (BufferCall.appendBit false)) = INT_MAX - 5 ∧
      runCalls makeBitBuffer (List.replicate (INT_MAX - 5) (BufferCall.appendBit false)) =
        none) ∧
    (∃ b, runCalls makeBitBuffer (List.replicate (INT_MAX - 6) (BufferCall.appendBit false)) =
        some b ∧ getBitCount b = 2 ^ 31 - 7 ∧ b.cap = 2 ^ 28 ∧
      INT_MAX < b.cap * BYTE_SIZE ∧ ∀ v, appendBit b v = none) ∧
    runCalls makeBitBuffer (List.replicate (2 ^ 31) (BufferCall.appendBit false)) = none := by
  have hI : INT_MAX = 2 ^ 31 - 1 := rfl
  have hz : makeBitBuffer.bitCount = 0 := rfl
  refine ⟨⟨setsBelowCount_appends false _ 0, appendCount_appends false _, ?_⟩, ?_, ?_⟩
  · rw [runCalls_appends]
    exact appendBits_overflow _ makeBitBuffer makeBitBuffer_inv (by rw [hz]; exact Nat.zero_le _)
      (by rw [List.length_replicate, hz, hI]; decide)
  · obtain ⟨b, hrun, hr, hcount⟩ := runCalls_reachable
      (List.replicate (INT_MAX - 6) (BufferCall.appendBit false)) makeBitBuffer Reachable.make
      (by rw [hz]; exact setsBelowCount_appends false _ 0)
      (by rw [hz, Nat.zero_add, appendCount_appends])
    rw [hz, Nat.zero_add, appendCount_appends] at hcount
    obtain ⟨-, -, hcap, -⟩ := reachable_state b hr
    have hcap' : b.cap = 2 ^ 28 := by
      rw [hcap, hcount, hI]
      decide
    have hover : INT_MAX < b.cap * BYTE_SIZE := by
      rw [hcap', hI]
      decide
    refine ⟨b, hrun, ?_, hcap', hover, fun v => appendBit_cap_overflow b v hover⟩
    show b.bitCount = _
    rw [hcount, hI]
    decide
  · rw [runCalls_appends]
    exact appendBits_overflow _ makeBitBuffer makeBitBuffer_inv (by rw [hz]; exact Nat.zero_le _)
      (by rw [List.length_replicate, hz, hI]; decide)

end Codec
